import Mathlib

/-
  Verification development for the primeclue training engine
  (backend/primeclue).  The Rust sources are embedded shallowly:

  * f32 is modeled by `F32`: either a finite value (an exact rational --
    every finite f32 is a rational) or one of the special values
    inf / -inf / NaN.  Arithmetic on finite values is exact rational
    arithmetic; the special-value propagation follows IEEE-754 as
    implemented by Rust.  Rounding of finite results is not modeled;
    all claims below are robust to (or independent of) rounding.
  * usize / u16 are modeled by Nat.
  * Rust's stable `sort_by` is modeled by a stable insertion sort
    (`sortBy`); any stable sort has the same input/output behavior.
  * Fallible operations return Option / Except.
-/

set_option maxHeartbeats 1000000

namespace Primeclue

/-- Model of a Rust `f32` value: exact finite rationals plus the three
special values.  (Signed zero is not distinguished.) -/
inductive F32 where
  | finite : ℚ → F32
  | inf : F32
  | neginf : F32
  | nan : F32
deriving DecidableEq

namespace F32

/-- `f32::is_finite`. -/
def isFinite : F32 → Bool
  | finite _ => true
  | _ => false

/-- IEEE negation. -/
def neg : F32 → F32
  | finite a => finite (-a)
  | inf => neginf
  | neginf => inf
  | nan => nan

/-- IEEE addition (finite part exact). -/
def add : F32 → F32 → F32
  | finite a, finite b => finite (a + b)
  | nan, _ => nan
  | _, nan => nan
  | inf, neginf => nan
  | neginf, inf => nan
  | inf, _ => inf
  | _, inf => inf
  | neginf, _ => neginf
  | _, neginf => neginf

/-- IEEE subtraction. -/
def sub (a b : F32) : F32 := add a (neg b)

/-- `f32::abs`. -/
def abs : F32 → F32
  | finite a => finite |a|
  | nan => nan
  | _ => inf

/-- IEEE multiplication (finite part exact). -/
def mul : F32 → F32 → F32
  | finite a, finite b => finite (a * b)
  | nan, _ => nan
  | _, nan => nan
  | inf, inf => inf
  | inf, neginf => neginf
  | neginf, inf => neginf
  | neginf, neginf => inf
  | inf, finite b => if b = 0 then nan else if 0 < b then inf else neginf
  | finite a, inf => if a = 0 then nan else if 0 < a then inf else neginf
  | neginf, finite b => if b = 0 then nan else if 0 < b then neginf else inf
  | finite a, neginf => if a = 0 then nan else if 0 < a then neginf else inf

/-- IEEE division (finite part exact; sign of zero not distinguished, so
`x / 0` for positive x is `inf`, for negative x `-inf`, and `0/0` NaN). -/
def div : F32 → F32 → F32
  | finite a, finite b =>
      if b = 0 then (if a = 0 then nan else if 0 < a then inf else neginf)
      else finite (a / b)
  | nan, _ => nan
  | _, nan => nan
  | inf, inf => nan
  | inf, neginf => nan
  | neginf, inf => nan
  | neginf, neginf => nan
  | inf, finite b => if 0 ≤ b then inf else neginf
  | neginf, finite b => if 0 ≤ b then neginf else inf
  | finite _, inf => finite 0
  | finite _, neginf => finite 0

/-- Rust `f32::partial_cmp`: `none` iff an operand is NaN. -/
def cmp : F32 → F32 → Option Ordering
  | nan, _ => none
  | _, nan => none
  | finite a, finite b => some (if a < b then .lt else if b < a then .gt else .eq)
  | inf, inf => some .eq
  | neginf, neginf => some .eq
  | neginf, _ => some .lt
  | _, neginf => some .gt
  | inf, _ => some .gt
  | _, inf => some .lt

/-- Rust `a < b` on f32 (false when NaN is involved). -/
def ltb (a b : F32) : Bool :=
  match cmp a b with
  | some .lt => true
  | _ => false

/-- Rust `a > b` on f32 (false when NaN is involved). -/
def gtb (a b : F32) : Bool :=
  match cmp a b with
  | some .gt => true
  | _ => false

/-- Rust `a >= b` on f32 (false when NaN is involved). -/
def geb (a b : F32) : Bool :=
  match cmp a b with
  | some .gt => true
  | some .eq => true
  | _ => false

end F32

/-- `Class` (a u16 identity; the numeric range plays no role here). -/
abbrev Class := Nat

/-- `data::outcome::Outcome`: class plus reward/penalty coefficients. -/
structure Outcome where
  cls : Class
  reward : F32
  penalty : F32
deriving DecidableEq

/-- `Outcome::calculate_cost`. -/
def Outcome.calculate_cost (o : Outcome) (guess : Bool) (cls : Class) : F32 :=
  match guess with
  | false => F32.finite 0
  | true => if cls = o.cls then o.reward else o.penalty

/-- `exec::score::Objective`. -/
inductive Objective where
  | cost
  | auc
  | accuracy
deriving DecidableEq

/-- `exec::score::Threshold`. -/
structure Threshold where
  value : F32
deriving DecidableEq

/-- `Threshold::bool`: no vote for a non-finite guess, otherwise `g >= t`. -/
def Threshold.bool (t : Threshold) (f : F32) : Option Bool :=
  if f.isFinite then some (F32.geb f t.value) else none

/-- `exec::score::Score`. -/
structure Score where
  objective : Objective
  cls : Class
  value : F32
  threshold : Threshold
deriving DecidableEq

/-- `Score::partial_cmp`: comparable only under a shared objective; values
within 0.1 percent relative tolerance compare equal. -/
def Score.cmp (a b : Score) : Option Ordering :=
  if a.objective = b.objective then
    let diff := F32.gtb (F32.abs (F32.sub (F32.div a.value b.value) (F32.finite 1)))
      (F32.finite (1 / 1000))
    if diff then F32.cmp a.value b.value else some .eq
  else none

/-- Loop of `calculate_auc`: returns
(incorrect_count, correct_count, total_incorrect). -/
def aucLoop (cls : Class) : List (F32 × Outcome) → Nat → Nat → Nat → Nat × Nat × Nat
  | [], ic, cc, ti => (ic, cc, ti)
  | (_, o) :: rest, ic, cc, ti =>
      if o.cls = cls then aucLoop cls rest ic (cc + 1) (ti + ic)
      else aucLoop cls rest (ic + 1) cc ti

/-- `exec::score::calculate_auc`. -/
def calculate_auc (outcomes : List (F32 × Outcome)) (cls : Class) : F32 :=
  let r := aucLoop cls outcomes 0 0 0
  F32.div (F32.finite r.2.2) (F32.finite ((r.2.1 * r.1 : Nat) : ℚ))

/-- Loop of `calculate_accuracy`: returns (correct, total). -/
def accLoop (t : Threshold) (cls : Class) : List (F32 × Outcome) → Nat → Nat → Nat × Nat
  | [], correct, total => (correct, total)
  | (g, o) :: rest, correct, total =>
      match t.bool g with
      | none => accLoop t cls rest correct total
      | some gb =>
          accLoop t cls rest
            (if (o.cls = cls ∧ gb = true) ∨ (o.cls ≠ cls ∧ gb = false) then correct + 1
             else correct)
            (total + 1)

/-- `exec::score::calculate_accuracy`. -/
def calculate_accuracy (t : Threshold) (outcomes : List (F32 × Outcome)) (cls : Class) :
    F32 :=
  let r := accLoop t cls outcomes 0 0
  F32.div (F32.finite (r.1 : ℚ)) (F32.finite (r.2 : ℚ))

/-- Loop of `calculate_cost`. -/
def costLoop (t : Threshold) (cls : Class) : List (F32 × Outcome) → F32 → F32
  | [], acc => acc
  | (g, o) :: rest, acc =>
      match t.bool g with
      | none => costLoop t cls rest acc
      | some b => costLoop t cls rest (F32.add acc (o.calculate_cost b cls))

/-- `exec::score::calculate_cost`. -/
def calculate_cost (t : Threshold) (outcomes : List (F32 × Outcome)) (cls : Class) : F32 :=
  costLoop t cls outcomes (F32.finite 0)

/-- Junk pair used to model the panics of `outcomes[i]` / `unwrap` on
inputs the source never reaches (empty candidate lists). -/
def junkPair : F32 × Outcome := (F32.nan, ⟨0, F32.finite 0, F32.finite 0⟩)

/-- `exec::score::auc_threshold`. -/
def auc_threshold (outcomes : List (F32 × Outcome)) (cls : Class) : Threshold :=
  let n := (outcomes.filter (fun p => p.2.cls ≠ cls)).length
  if n = 0 then ⟨(outcomes.headD junkPair).1⟩
  else if n = outcomes.length then
    ⟨F32.mul (F32.finite 2) (F32.abs (outcomes.getLastD junkPair).1)⟩
  else ⟨(outcomes.getD n junkPair).1⟩

/-- Stable insertion step: place `a` before the first element `b` with
`le a b`.  Together with `sortBy` below this models Rust's stable
`sort_by` (any two stable sorts agree). -/
def insertIn (le : α → α → Bool) (a : α) : List α → List α
  | [] => [a]
  | b :: bs => if le a b then a :: b :: bs else b :: insertIn le a bs

/-- Stable sort modeling `Vec::sort_by` with an ascending comparator. -/
def sortBy (le : α → α → Bool) : List α → List α
  | [] => []
  | a :: rest => insertIn le a (sortBy le rest)

/-- Comparator used by `cost_threshold`:
`cost1.partial_cmp(cost2).unwrap()` read as "not Greater".  The `unwrap`
panic on NaN is modeled as "not Greater" (never reached on finite costs). -/
def costLe (a b : F32) : Bool :=
  match F32.cmp a b with
  | some .gt => false
  | _ => true

/-- First pass of `cost_threshold`: records the running "predict false"
cost before each entry (always 0, since a false guess contributes 0). -/
def falseLoop (cls : Class) : List (F32 × Outcome) → F32 → List (F32 × Outcome × F32)
  | [], _ => []
  | (g, o) :: rest, fc => (g, o, fc) :: falseLoop cls rest (F32.add fc (o.calculate_cost false cls))

/-- Second pass of `cost_threshold`: walks the reversed list accumulating
the "predict true from here on" cost. -/
def trueLoop (cls : Class) : List (F32 × Outcome × F32) → F32 → List (F32 × Outcome × F32)
  | [], _ => []
  | (g, o, fr) :: rest, tc =>
      let tc' := F32.add tc (o.calculate_cost true cls)
      (g, o, F32.add fr tc') :: trueLoop cls rest tc'

/-- Junk triple modeling the `unwrap` panic on an empty candidate list. -/
def junkTripleF : F32 × Outcome × F32 := (F32.nan, ⟨0, F32.finite 0, F32.finite 0⟩, F32.nan)

/-- `exec::score::cost_threshold` (the linear algorithm). -/
def cost_threshold (outcomes : List (F32 × Outcome)) (cls : Class) : Threshold :=
  let falseList := falseLoop cls outcomes (F32.finite 0)
  let costList := trueLoop cls falseList.reverse (F32.finite 0)
  let sorted := sortBy (fun x y => costLe x.2.2 y.2.2) costList
  ⟨(sorted.getLastD junkTripleF).1⟩

/-- First pass of `accuracy_threshold`: counts non-class entries strictly
before each position. -/
def incLoop (cls : Class) : List (F32 × Outcome) → Nat → List (F32 × Outcome × Nat)
  | [], _ => []
  | (g, o) :: rest, ic =>
      (g, o, ic) :: incLoop cls rest (if o.cls ≠ cls then ic + 1 else ic)

/-- Second pass of `accuracy_threshold`: walks the reversed list
accumulating class entries from the end. -/
def corLoop (cls : Class) : List (F32 × Outcome × Nat) → Nat → List (F32 × Outcome × Nat)
  | [], _ => []
  | (g, o, ic) :: rest, cc =>
      let cc' := if o.cls = cls then cc + 1 else cc
      (g, o, ic + cc') :: corLoop cls rest cc'

/-- Junk triple modeling the `unwrap` panic on an empty candidate list. -/
def junkTripleN : F32 × Outcome × Nat := (F32.nan, ⟨0, F32.finite 0, F32.finite 0⟩, 0)

/-- `exec::score::accuracy_threshold` (the linear algorithm). -/
def accuracy_threshold (outcomes : List (F32 × Outcome)) (cls : Class) : Threshold :=
  let incorrectList := incLoop cls outcomes 0
  let accuracyList := corLoop cls incorrectList.reverse 0
  let sorted := sortBy (fun x y => decide (x.2.2 ≤ y.2.2)) accuracyList
  ⟨(sorted.getLastD junkTripleN).1⟩

/-- `Objective::threshold`. -/
def Objective.threshold (o : Objective) (outcomes : List (F32 × Outcome)) (cls : Class) :
    Threshold :=
  match o with
  | .cost => cost_threshold outcomes cls
  | .auc => auc_threshold outcomes cls
  | .accuracy => accuracy_threshold outcomes cls

/-- `exec::score::calc_score`. -/
def calc_score (outcomes : List (F32 × Outcome)) (threshold : Threshold) (cls : Class)
    (objective : Objective) : Score :=
  let value := match objective with
    | .auc => calculate_auc outcomes cls
    | .accuracy => calculate_accuracy threshold outcomes cls
    | .cost => calculate_cost threshold outcomes cls
  ⟨objective, cls, value, threshold⟩

/-- Rust `f32::max` (returns the other operand when one is NaN). -/
def F32.maxF (a b : F32) : F32 :=
  match a, b with
  | .nan, b => b
  | a, .nan => a
  | a, b => if F32.ltb a b then b else a

/-- Rust `f32::min` (returns the other operand when one is NaN). -/
def F32.minF (a b : F32) : F32 :=
  match a, b with
  | .nan, b => b
  | a, .nan => a
  | a, b => if F32.ltb b a then b else a

/-- Rust `a == b` on f32 (false when NaN is involved). -/
def F32.eqb (a b : F32) : Bool :=
  match F32.cmp a b with
  | some .eq => true
  | _ => false

/-- `f32::round` rounds half away from zero. -/
def rustRound (q : ℚ) : ℤ :=
  if 0 ≤ q then ⌊q + 1 / 2⌋ else -⌊-q + 1 / 2⌋

/-- Elementwise `f32::ceil`. -/
def F32.ceilF : F32 → F32
  | .finite q => .finite ⌈q⌉
  | x => x

/-- Elementwise `f32::floor`. -/
def F32.floorF : F32 → F32
  | .finite q => .finite ⌊q⌋
  | x => x

/-- Elementwise `f32::round`. -/
def F32.roundF : F32 → F32
  | .finite q => .finite (rustRound q)
  | x => x

/-- The six math constants of `exec::functions::MATH_CONSTANTS`. -/
inductive MathConst where
  | c0
  | c1
  | c2
  | ce
  | cpi
  | c2pi
deriving DecidableEq

/-- Values of the math constants; `e`, `pi` and `2pi` are the exact
rational values of the corresponding f32 constants. -/
def MathConst.value : MathConst → F32
  | .c0 => .finite 0
  | .c1 => .finite 1
  | .c2 => .finite 2
  | .ce => .finite (11401300 / 4194304)
  | .cpi => .finite (13176795 / 4194304)
  | .c2pi => .finite (13176795 / 2097152)

/-- The 16 unary operators of `ONE_ARG_FUNCTIONS`. -/
inductive OneArgFun where
  | abs
  | ceil
  | dec
  | floor
  | inc
  | log
  | neg
  | normalize
  | reciprocal
  | relu
  | round
  | sine
  | sqrt
  | square
  | tau_sigmoid
  | tang_hyper
deriving DecidableEq

/-- The 17 binary operators of `TWO_ARG_FUNCTIONS`. -/
inductive TwoArgFun where
  | abs_higher
  | abs_lower
  | add
  | and
  | diff
  | div
  | equal
  | first_is_higher
  | higher
  | lower
  | mid
  | mul
  | or
  | sub
  | sum_of_squares
  | xor
  | round_equal
deriving DecidableEq

/-- The transcendental scalar functions (`log`, `sin`, `sqrt`,
`(2*pi)^x`, `tanh`) have no exact rational semantics; the development is
parameterized over their interpretation, so every theorem below holds
for arbitrary interpretations.  No claim in this file depends on their
values. -/
structure TransFuns where
  logF : F32 → F32
  sineF : F32 → F32
  sqrtF : F32 → F32
  tauF : F32 → F32
  tanhF : F32 → F32

/-- `to_one` (the `normalize` operator). -/
def toOne (v : F32) : F32 :=
  match F32.cmp v (F32.finite 0) with
  | some .eq => .finite 0
  | none => .finite 0
  | some .gt => .finite 1
  | some .lt => .finite (-1)

/-- Scalar semantics of the unary operators. -/
def oneFun (tf : TransFuns) : OneArgFun → F32 → F32
  | .abs => F32.abs
  | .ceil => F32.ceilF
  | .dec => fun v => F32.sub v (.finite 1)
  | .floor => F32.floorF
  | .inc => fun v => F32.add v (.finite 1)
  | .log => tf.logF
  | .neg => F32.neg
  | .normalize => toOne
  | .reciprocal => fun v => F32.div (.finite 1) v
  | .relu => fun v => F32.maxF v (.finite 0)
  | .round => F32.roundF
  | .sine => tf.sineF
  | .sqrt => tf.sqrtF
  | .square => fun v => F32.mul v v
  | .tau_sigmoid => tf.tauF
  | .tang_hyper => tf.tanhF

/-- Scalar semantics of the binary operators. -/
def twoFun : TwoArgFun → F32 → F32 → F32
  | .abs_higher => fun a b => F32.maxF a.abs b.abs
  | .abs_lower => fun a b => F32.minF a.abs b.abs
  | .add => F32.add
  | .and => fun a b =>
      if (F32.eqb a (.finite 0) = false) ∧ (F32.eqb b (.finite 0) = false) then .finite 1
      else .finite 0
  | .diff => fun a b => F32.abs (F32.sub (.finite 1) (F32.div a b))
  | .div => F32.div
  | .equal => fun a b =>
      if F32.ltb (F32.abs (F32.sub (.finite 1) (F32.div a b))) (.finite (1 / 100)) then .finite 1
      else .finite 0
  | .first_is_higher => fun a b => if F32.gtb a b then .finite 1 else .finite 0
  | .higher => F32.maxF
  | .lower => F32.minF
  | .mid => fun a b => F32.div (F32.add a b) (.finite 2)
  | .mul => F32.mul
  | .or => fun a b =>
      if (F32.eqb a (.finite 0) = false) ∨ (F32.eqb b (.finite 0) = false) then .finite 1
      else .finite 0
  | .sub => F32.sub
  | .sum_of_squares => fun a b => F32.add (F32.mul a a) (F32.mul b b)
  | .xor => fun a b =>
      if (F32.eqb a (.finite 0) ∧ F32.eqb b (.finite 0) = false) ∨
         (F32.eqb a (.finite 0) = false ∧ F32.eqb b (.finite 0)) then .finite 1
      else .finite 0
  | .round_equal => fun a b => if F32.eqb a.roundF b.roundF then .finite 1 else .finite 0

/-- `data::common::InputShape`. -/
structure InputShape where
  rows : Nat
  columns : Nat
deriving DecidableEq

/-- `data::common::Data<Vec<f32>>`: a flat row-major vector of cells.
`get` models `data[row * columns + column]`; the out-of-range panic is
modeled by an empty cell. -/
structure Data where
  input_shape : InputShape
  data : List (List F32)

/-- `Data::get`. -/
def Data.get (d : Data) (row column : Nat) : List F32 :=
  d.data.getD (row * d.input_shape.columns + column) []

/-- `data::data_set::DataView`, restricted to the fields the embedded
claims read (`class_count` and `class_map` are not consulted by any of
the operations below). -/
structure DataView where
  cells : Data
  outcomes : List Outcome

/-- `exec::node::Node` and `exec::node::Weighted` merged into one
inductive: a `Weighted` is a weight plus a boxed `Node`, so each
constructor below carries the weight `w` of the `Weighted` wrapper
around the corresponding `Node` variant. -/
inductive Weighted where
  | dataValue (w : F32) (row column : Nat)
  | stdDev (w : F32) (row column : Nat)
  | mathConstant (w : F32) (k : MathConst)
  | singleArg (w : F32) (f : OneArgFun) (child : Weighted)
  | doubleArg (w : F32) (f : TwoArgFun) (n1 n2 : Weighted)
deriving DecidableEq

/-- `Node::node_count`. -/
def Weighted.node_count : Weighted → Nat
  | .dataValue _ _ _ => 1
  | .stdDev _ _ _ => 1
  | .mathConstant _ _ => 1
  | .singleArg _ _ c => 1 + c.node_count
  | .doubleArg _ _ a b => 1 + (a.node_count + b.node_count)

/-- `Weighted::std_dev` (z-scores; divisor `len - 1`, square root through
the parameterized interpretation). -/
def stdDevList (tf : TransFuns) (values : List F32) : List F32 :=
  let avg := F32.div (values.foldl F32.add (.finite 0)) (.finite (values.length : ℚ))
  let sq := values.foldl (fun acc v => F32.add acc (F32.mul (F32.sub v avg) (F32.sub v avg)))
    (.finite 0)
  let st := tf.sqrtF (F32.div sq (.finite ((values.length - 1 : Nat) : ℚ)))
  values.map (fun v => F32.div (F32.sub v avg) st)

/-- `Weighted::execute`: evaluate the node on the columnar data and scale
the result by the node's weight. -/
def Weighted.execute (tf : TransFuns) : Weighted → Data → List F32
  | .mathConstant w k, d => (List.replicate (d.get 0 0).length k.value).map (F32.mul w)
  | .dataValue w r c, d => (d.get r c).map (F32.mul w)
  | .stdDev w r c, d => (stdDevList tf (d.get r c)).map (F32.mul w)
  | .singleArg w f n, d => ((n.execute tf d).map (oneFun tf f)).map (F32.mul w)
  | .doubleArg w f n1 n2, d =>
      (List.zipWith (twoFun f) (n1.execute tf d) (n2.execute tf d)).map (F32.mul w)

/-- Loop of `math::valid`. -/
def validLoop (first : F32) : List F32 → Bool → Bool
  | [], change => change
  | v :: rest, change =>
      if v.isFinite = false then false
      else validLoop first rest
        (change || F32.gtb (F32.abs (F32.sub v first)) (.finite (1 / 1000)))

/-- `math::valid`: every element finite and at least one element farther
than 1e-3 from element 0.  (`values[0]` is only read inside the loop, so
the empty list returns false without indexing.) -/
def valid (values : List F32) : Bool :=
  validLoop (values.headD F32.nan) values false

/-- Comparator of `sort_guesses`:
`first.partial_cmp(second).unwrap_or(Greater)`, read as "not Greater". -/
def guessLe (a b : F32) : Bool :=
  match F32.cmp a b with
  | some .lt => true
  | some .eq => true
  | _ => false

/-- `data::outcome::sort_guesses`.  The source uses `sort_unstable_by`;
the model's stable sort is one of its allowed behaviors. -/
def sort_guesses (guesses : List F32) (outcomes : List Outcome) : List (F32 × Outcome) :=
  sortBy (fun a b => guessLe a.1 b.1) (guesses.zip outcomes)

/-- `exec::tree::Tree` (with its cached `node_count` field). -/
structure Tree where
  node : Weighted
  input_shape : InputShape
  node_count : Nat
deriving DecidableEq

/-- `Tree::new` / `Tree::from_two`: construction computes the cached
count from the node. -/
def Tree.fromNode (node : Weighted) (input_shape : InputShape) : Tree :=
  ⟨node, input_shape, node.node_count⟩

/-- `Tree::execute`. -/
def Tree.execute (tf : TransFuns) (t : Tree) (data : DataView) : List F32 :=
  t.node.execute tf data.cells

/-- `Tree::execute_for_score`. -/
def Tree.execute_for_score (tf : TransFuns) (t : Tree) (data : DataView) (cls : Class)
    (objective : Objective) : Option Score :=
  if (data.cells.get 0 0).length < 2 then none
  else
    let guesses := t.execute tf data
    if valid guesses = false then none
    else
      let outcomes := sort_guesses guesses data.outcomes
      let threshold := objective.threshold outcomes cls
      some (calc_score outcomes threshold cls objective)

/-- `exec::scored_tree::ScoredTree`. -/
structure ScoredTree where
  score : Score
  tree : Tree
deriving DecidableEq

/-- `ScoredTree::partial_cmp`: score first; on incomparable or equal
scores the tree with fewer nodes ranks higher
(`other.tree.node_count().partial_cmp(&self.tree.node_count())`). -/
def ScoredTree.cmp (a b : ScoredTree) : Option Ordering :=
  match Score.cmp a.score b.score with
  | none => some (compare b.tree.node_count a.tree.node_count)
  | some .eq => some (compare b.tree.node_count a.tree.node_count)
  | o => o

/-- Steps of the node-selection traversal reified as tree directions. -/
inductive Dir where
  | intoOne
  | intoLeft
  | intoRight
deriving DecidableEq

/-- The traversal of `Weighted::select_node` / `take_node`: walk
`count` steps of a preorder traversal (left first, deferred right
subtrees on a stack), returning the path of the node reached.  When the
stack empties at a leaf the cursor stays put, exactly as in the source
loop. -/
def selPath (cur : Weighted) (p : List Dir) (stk : List (Weighted × List Dir)) :
    Nat → List Dir
  | 0 => p
  | count + 1 =>
      match cur with
      | .doubleArg _ _ n1 n2 =>
          selPath n1 (p ++ [.intoLeft]) ((n2, p ++ [.intoRight]) :: stk) count
      | .singleArg _ _ n => selPath n (p ++ [.intoOne]) stk count
      | _ =>
          match stk with
          | (w', p') :: rest => selPath w' p' rest count
          | [] => selPath cur p [] count

/-- Apply an in-place update at the node addressed by a path (the
functional counterpart of mutating through the `&mut` returned by
`select_node`).  A path that does not fit the tree leaves it unchanged;
the traversal above only produces fitting paths. -/
def applyAtPath (f : Weighted → Weighted) : Weighted → List Dir → Weighted
  | w, [] => f w
  | .singleArg wt fn c, .intoOne :: p => .singleArg wt fn (applyAtPath f c p)
  | .doubleArg wt fn a b, .intoLeft :: p => .doubleArg wt fn (applyAtPath f a p) b
  | .doubleArg wt fn a b, .intoRight :: p => .doubleArg wt fn a (applyAtPath f b p)
  | w, _ => w

/-- `Node::mutate`: replace the operator / leaf identity in place,
keeping the children; the random draws (replacement unary operator,
binary operator, constant, and (row, column)) are reified as
parameters. -/
def mutateHead (w : Weighted) (f1 : OneArgFun) (f2 : TwoArgFun) (k : MathConst)
    (rc : Nat × Nat) : Weighted :=
  match w with
  | .singleArg wt _ c => .singleArg wt f1 c
  | .doubleArg wt _ a b => .doubleArg wt f2 a b
  | .mathConstant wt _ => .mathConstant wt k
  | .dataValue wt _ _ => .dataValue wt rc.1 rc.2
  | .stdDev wt _ _ => .stdDev wt rc.1 rc.2

/-- `Weighted::change_weight`: multiply the weight by a rate, keeping the
old weight when the product is NaN. -/
def newWeight (wt rate : F32) : F32 :=
  let n := F32.mul wt rate
  if n = F32.nan then wt else n

/-- Apply `change_weight` to the head node of a subtree. -/
def changeWeightHead (w : Weighted) (rate : F32) : Weighted :=
  match w with
  | .dataValue wt r c => .dataValue (newWeight wt rate) r c
  | .stdDev wt r c => .stdDev (newWeight wt rate) r c
  | .mathConstant wt k => .mathConstant (newWeight wt rate) k
  | .singleArg wt f c => .singleArg (newWeight wt rate) f c
  | .doubleArg wt f a b => .doubleArg (newWeight wt rate) f a b

/-- `Tree::mutate`: select a node by its traversal index and mutate it in
place.  The cached `node_count` field is left untouched, as in the
source. -/
def Tree.mutateAt (t : Tree) (node_id : Nat) (f1 : OneArgFun) (f2 : TwoArgFun)
    (k : MathConst) (rc : Nat × Nat) : Tree :=
  { t with node := (applyAtPath (fun w => mutateHead w f1 f2 k rc) t.node
      (selPath t.node [] [] node_id)) }

/-- `Tree::change_weights`: a sequence of (node index, rate) draws, each
applied through `select_random_node` + `change_weight`. -/
def Tree.changeWeightsAt (t : Tree) (picks : List (Nat × F32)) : Tree :=
  picks.foldl (fun tr pick =>
    { tr with node := (applyAtPath (fun w => changeWeightHead w pick.2) tr.node
        (selPath tr.node [] [] pick.1)) }) t

/-- The random-seed probability computed by `generate_group` in
`class_training.rs`:
`(1.0 - (1.0 / (wasted_generations + 1) as f64)).min(0.1).max(0.9)`.
The f64 arithmetic is modeled exactly over the rationals; the clamp
behavior is unaffected by f64 rounding. -/
def random_chance (wasted_generations : Nat) : ℚ :=
  max (min (1 - 1 / ((wasted_generations : ℚ) + 1)) (1 / 10)) (9 / 10)

/-! ### Generic facts about the stable sort model -/

theorem insertIn_perm (le : α → α → Bool) (a : α) (l : List α) :
    List.Perm (insertIn le a l) (a :: l) := by
  induction l with
  | nil => exact List.Perm.refl _
  | cons b bs ih =>
      simp only [insertIn]
      by_cases h : le a b = true
      · rw [if_pos h]
      · rw [if_neg h]
        exact List.Perm.trans (List.Perm.cons b ih) (List.Perm.swap a b bs)

theorem sortBy_perm (le : α → α → Bool) (l : List α) : List.Perm (sortBy le l) l := by
  induction l with
  | nil => exact List.Perm.refl _
  | cons a rest ih =>
      exact List.Perm.trans (insertIn_perm le a (sortBy le rest)) (List.Perm.cons a ih)

theorem mem_insertIn (le : α → α → Bool) (a x : α) (l : List α) :
    x ∈ insertIn le a l → x = a ∨ x ∈ l := by
  intro hx
  have := (insertIn_perm le a l).mem_iff.mp hx
  simpa using this

theorem pairwise_insertIn (le : α → α → Bool)
    (htot : ∀ a b, le a b = false → le b a = true)
    (htrans : ∀ a b c, le a b = true → le b c = true → le a c = true)
    (a : α) (l : List α) (h : l.Pairwise (fun x y => le x y = true)) :
    (insertIn le a l).Pairwise (fun x y => le x y = true) := by
  induction l with
  | nil => simp [insertIn]
  | cons b bs ih =>
      simp only [insertIn]
      rcases List.pairwise_cons.mp h with ⟨hb, hbs⟩
      by_cases hab : le a b = true
      · rw [if_pos hab]
        refine List.pairwise_cons.mpr ⟨?_, h⟩
        intro y hy
        rcases List.mem_cons.mp hy with rfl | hy
        · exact hab
        · exact htrans a b y hab (hb y hy)
      · rw [if_neg hab]
        refine List.pairwise_cons.mpr ⟨?_, ih hbs⟩
        intro y hy
        rcases mem_insertIn le a y bs hy with rfl | hy
        · exact htot _ b (Bool.eq_false_iff.mpr hab)
        · exact hb y hy

theorem sortBy_pairwise (le : α → α → Bool)
    (htot : ∀ a b, le a b = false → le b a = true)
    (htrans : ∀ a b c, le a b = true → le b c = true → le a c = true)
    (l : List α) : (sortBy le l).Pairwise (fun x y => le x y = true) := by
  induction l with
  | nil => simp [sortBy]
  | cons a rest ih => exact pairwise_insertIn le htot htrans a (sortBy le rest) ih

theorem getLastD_mem (l : List α) (h : l ≠ []) : ∀ d, l.getLastD d ∈ l := by
  induction l with
  | nil => exact absurd rfl h
  | cons a rest ih =>
      intro d
      cases rest with
      | nil => simp
      | cons b bs =>
          rw [List.getLastD_cons]
          exact List.mem_cons_of_mem a (ih (by simp) a)

theorem pairwise_le_getLastD (le : α → α → Bool) (hrefl : ∀ a, le a a = true)
    (l : List α) (hp : l.Pairwise (fun x y => le x y = true)) :
    ∀ d, ∀ x ∈ l, le x (l.getLastD d) = true := by
  induction l with
  | nil => intro d x hx; cases hx
  | cons a rest ih =>
      intro d x hx
      rcases List.pairwise_cons.mp hp with ⟨ha, hrest⟩
      cases rest with
      | nil =>
          rcases List.mem_cons.mp hx with rfl | hx
          · simpa using hrefl x
          · cases hx
      | cons b bs =>
          rw [List.getLastD_cons]
          rcases List.mem_cons.mp hx with rfl | hx
          · exact ha _ (getLastD_mem (b :: bs) (by simp) _)
          · exact ih hrest a x hx

/-- Membership of an original element in the sorted list's last slot:
every element of `l` is `le` the last element of `sortBy le l`. -/
theorem sortBy_getLastD_max (le : α → α → Bool) (hrefl : ∀ a, le a a = true)
    (htot : ∀ a b, le a b = false → le b a = true)
    (htrans : ∀ a b c, le a b = true → le b c = true → le a c = true)
    (l : List α) (d : α) : ∀ x ∈ l, le x ((sortBy le l).getLastD d) = true := by
  intro x hx
  have hmem : x ∈ sortBy le l := (sortBy_perm le l).mem_iff.mpr hx
  exact pairwise_le_getLastD le hrefl (sortBy le l)
    (sortBy_pairwise le htot htrans l) d x hmem

/-! ### Claim C9: the fill-up random-seed probability is constantly 0.9 -/

/-- C9: for every non-negative number of wasted generations, the
random-seed probability `(1 - 1/(w+1)).min(0.1).max(0.9)` computed by
`generate_group` equals exactly 0.9: the `min(0.1)` clamp caps the value
at 0.1, after which `max(0.9)` lifts it to 0.9 unconditionally. -/
theorem random_chance_eq_constant : ∀ w : Nat, random_chance w = 9 / 10 := by
  intro w
  unfold random_chance
  refine max_eq_right (le_trans (min_le_right _ _) (by norm_num))

/-! ### Claim C10: fewer than two samples produce no score -/

/-- C10: whenever the cell sequence at coordinate (0,0) of the `DataView`
passed to `Tree::execute_for_score` has length below 2, the call returns
`None` before evaluating the tree, so no Score is produced and the
threshold algorithms and the z-score divisor never see degenerate
input. -/
theorem execute_for_score_small_data (tf : TransFuns) (t : Tree) (d : DataView)
    (cls : Class) (objective : Objective) (h : (d.cells.get 0 0).length < 2) :
    t.execute_for_score tf d cls objective = none := by
  unfold Tree.execute_for_score
  simp [h]

/-- Junk interpretation of the transcendental functions, used to
instantiate witnesses (no claim depends on their values). -/
def tfJunk : TransFuns :=
  ⟨fun _ => F32.nan, fun _ => F32.nan, fun _ => F32.nan, fun _ => F32.nan, fun _ => F32.nan⟩

/-- A one-node tree reading coordinate (0,0). -/
def treeData00 : Tree := Tree.fromNode (.dataValue (.finite 1) 0 0) ⟨1, 1⟩

/-- A single-sample data view: one cell sequence of length 1. -/
def dataOneSample : DataView :=
  ⟨⟨⟨1, 1⟩, [[.finite 1]]⟩, [⟨0, .finite 1, .finite (-1)⟩]⟩

theorem execute_for_score_small_data_witness :
    (dataOneSample.cells.get 0 0).length < 2 ∧
      treeData00.execute_for_score tfJunk dataOneSample 0 .auc = none := by
  refine ⟨by decide, ?_⟩
  exact execute_for_score_small_data tfJunk treeData00 dataOneSample 0 .auc (by decide)

/-! ### Claim C7: the validity predicate -/

/-- The finite value carried by an `F32` (0 for the special values). -/
def toQ : F32 → ℚ
  | .finite q => q
  | _ => 0

@[simp]
theorem F32.sub_finite (a b : ℚ) : F32.sub (.finite a) (.finite b) = .finite (a - b) := by
  simp [F32.sub, F32.add, F32.neg, sub_eq_add_neg]

theorem F32.abs_finite (a : ℚ) : (F32.finite a).abs = .finite |a| := rfl

theorem F32.isFinite_iff (x : F32) : x.isFinite = true ↔ ∃ q, x = .finite q := by
  cases x <;> simp [F32.isFinite]

theorem F32.gtb_finite (a b : ℚ) : F32.gtb (.finite a) (.finite b) = decide (b < a) := by
  simp only [F32.gtb, F32.cmp]
  rcases lt_trichotomy a b with h | h | h
  · rw [if_pos h]
    simp [lt_asymm h]
  · subst h
    simp
  · rw [if_neg (lt_asymm h), if_pos h]
    simp [h]

@[simp]
theorem F32.mul_finite (a b : ℚ) : F32.mul (.finite a) (.finite b) = .finite (a * b) := rfl

/-- Evaluation form of the comparison against an absolute value. -/
@[simp]
theorem F32.gtb_abs_finite (a c : ℚ) :
    F32.gtb (F32.abs (.finite a)) (.finite c) = decide (c < a ∨ c < -a) := by
  rw [F32.abs_finite, F32.gtb_finite]
  exact decide_eq_decide.mpr lt_abs

/-- Evaluation form of the validity test on finite values. -/
theorem big_finite (a b c : ℚ) :
    F32.gtb (F32.abs (F32.sub (.finite a) (.finite b))) (.finite c) =
      decide (c < a - b ∨ c < b - a) := by
  rw [F32.sub_finite, F32.abs_finite, F32.gtb_finite]
  exact decide_eq_decide.mpr (by rw [lt_abs, neg_sub])

theorem validLoop_iff (first : F32) (l : List F32) (change : Bool) :
    validLoop first l change = true ↔
      (∀ v ∈ l, v.isFinite = true) ∧
        (change = true ∨
          ∃ v ∈ l, F32.gtb (F32.abs (F32.sub v first)) (.finite (1 / 1000)) = true) := by
  induction l generalizing change with
  | nil => simp [validLoop]
  | cons v rest ih =>
      simp only [validLoop]
      by_cases hf : v.isFinite = false
      · rw [if_pos hf]
        simp [Bool.eq_false_iff.mp hf]
      · rw [if_neg hf]
        rw [ih]
        have hv : v.isFinite = true := by revert hf; cases v.isFinite <;> simp
        simp only [List.forall_mem_cons, List.exists_mem_cons_iff, Bool.or_eq_true, hv,
          true_and]
        tauto

/-- C7: `math::valid` holds exactly when every element is finite and some
element lies farther than 1e-3 from element 0; the four vectors from the
spec behave as stated; and a tree whose evaluation output fails the
predicate produces no score. -/
theorem valid_characterization :
    (∀ values : List F32,
      valid values = true ↔
        (∀ v ∈ values, v.isFinite = true) ∧
          ∃ v ∈ values, 1 / 1000 < |toQ v - toQ (values.headD F32.nan)|) ∧
    valid [.finite 1, .finite 2, .finite 3, F32.nan] = false ∧
    valid [F32.inf, .finite 1, .finite 2] = false ∧
    valid [.finite 4, .finite 4, .finite (400001 / 100000)] = false ∧
    valid [.finite (-1), .finite 2, .finite 3] = true ∧
    (∀ (tf : TransFuns) (t : Tree) (d : DataView) (cls : Class) (objective : Objective),
      valid (t.execute tf d) = false → t.execute_for_score tf d cls objective = none) := by
  refine ⟨?_, ?_, ?_, ?_, ?_, ?_⟩
  · intro values
    cases values with
    | nil => simp [valid, validLoop]
    | cons v rest =>
        rw [valid, validLoop_iff]
        simp only [List.headD_cons, Bool.false_eq_true, false_or]
        refine and_congr_right fun hfin => ?_
        constructor
        · rintro ⟨x, hx, hbig⟩
          refine ⟨x, hx, ?_⟩
          obtain ⟨qx, rfl⟩ := (F32.isFinite_iff x).mp (hfin x hx)
          obtain ⟨qv, rfl⟩ := (F32.isFinite_iff v).mp (hfin v (by simp))
          rw [big_finite, decide_eq_true_eq] at hbig
          simpa [toQ, lt_abs, neg_sub] using hbig
        · rintro ⟨x, hx, hbig⟩
          refine ⟨x, hx, ?_⟩
          obtain ⟨qx, rfl⟩ := (F32.isFinite_iff x).mp (hfin x hx)
          obtain ⟨qv, rfl⟩ := (F32.isFinite_iff v).mp (hfin v (by simp))
          rw [big_finite, decide_eq_true_eq]
          simpa [toQ, lt_abs, neg_sub] using hbig
  · norm_num [valid, validLoop, F32.isFinite]
  · norm_num [valid, validLoop, F32.isFinite]
  · norm_num [valid, validLoop, F32.isFinite]
  · norm_num [valid, validLoop, F32.isFinite]
  · intro tf t d cls objective h
    unfold Tree.execute_for_score
    by_cases h2 : (d.cells.get 0 0).length < 2
    · simp [h2]
    · simp [h2, h]

/-- A one-node constant tree (evaluates to the constant 0). -/
def treeConst0 : Tree := Tree.fromNode (.mathConstant (.finite 1) .c0) ⟨1, 1⟩

/-- A two-sample data view. -/
def dataTwoSamples : DataView :=
  ⟨⟨⟨1, 1⟩, [[.finite 1, .finite 2]]⟩,
    [⟨0, .finite 1, .finite (-1)⟩, ⟨1, .finite 1, .finite (-1)⟩]⟩

theorem valid_characterization_witness :
    valid (treeConst0.execute tfJunk dataTwoSamples) = false ∧
      treeConst0.execute_for_score tfJunk dataTwoSamples 0 .accuracy = none := by
  have hv : valid (treeConst0.execute tfJunk dataTwoSamples) = false := by
    norm_num [treeConst0, dataTwoSamples, Tree.execute, Tree.fromNode, Weighted.execute,
      Data.get, MathConst.value, valid, validLoop, F32.isFinite, List.replicate]
  exact ⟨hv, valid_characterization.2.2.2.2.2 tfJunk treeConst0 dataTwoSamples 0 .accuracy hv⟩

/-! ### Claim C2: the ScoredTree ordering -/

@[simp]
theorem F32.div_finite (a b : ℚ) (hb : b ≠ 0) :
    F32.div (.finite a) (.finite b) = .finite (a / b) := by
  simp [F32.div, hb]

theorem F32.cmp_finite (a b : ℚ) :
    F32.cmp (.finite a) (.finite b) =
      some (if a < b then .lt else if b < a then .gt else .eq) := rfl

/-- Two score values are "well separated" when they are equal or lie
farther apart than the 0.1 percent tolerance in both ratio directions. -/
def wellSep (a b : F32) : Prop :=
  a = b ∨
    (F32.gtb (F32.abs (F32.sub (F32.div a b) (.finite 1))) (.finite (1 / 1000)) = true ∧
     F32.gtb (F32.abs (F32.sub (F32.div b a) (.finite 1))) (.finite (1 / 1000)) = true)

theorem wellSep_symm {a b : F32} (h : wellSep a b) : wellSep b a := by
  rcases h with h | ⟨h1, h2⟩
  · exact Or.inl h.symm
  · exact Or.inr ⟨h2, h1⟩

/-- Under well separation of finite values, `Score::partial_cmp` is the
exact comparison of the values. -/
theorem Score.cmp_char (a b : Score) (hobj : a.objective = b.objective)
    (qa qb : ℚ) (ha : a.value = .finite qa) (hb : b.value = .finite qb)
    (hsep : wellSep a.value b.value) :
    a.cmp b = some (if qa < qb then .lt else if qb < qa then .gt else .eq) := by
  unfold Score.cmp
  rw [if_pos hobj, ha, hb]
  rcases hsep with h | ⟨h1, h2⟩
  · rw [ha, hb] at h
    obtain rfl : qa = qb := by injection h
    by_cases h0 : qa = 0
    · subst h0
      simp [F32.div, F32.sub, F32.add, F32.neg, F32.abs, F32.gtb, F32.cmp]
    · rw [F32.div_finite qa qa h0, div_self h0]
      norm_num
  · rw [ha, hb] at h1
    have hne : qa ≠ qb := by
      intro hEq
      subst hEq
      by_cases h0 : qa = 0
      · subst h0
        simp [F32.div, F32.sub, F32.add, F32.neg, F32.abs, F32.gtb, F32.cmp] at h1
      · rw [F32.div_finite qa qa h0, div_self h0] at h1
        norm_num at h1
    rw [if_pos h1, F32.cmp_finite]

/-- Under well separation of finite values, `ScoredTree::partial_cmp` is
the lexicographic comparison (score value ascending, then node count
descending). -/
theorem ScoredTree.cmp_split (A B : ScoredTree)
    (hobj : A.score.objective = B.score.objective)
    (qa qb : ℚ) (ha : A.score.value = .finite qa) (hb : B.score.value = .finite qb)
    (hsep : wellSep A.score.value B.score.value) :
    A.cmp B = some (if qa < qb then .lt else if qb < qa then .gt
      else compare B.tree.node_count A.tree.node_count) := by
  unfold ScoredTree.cmp
  rw [Score.cmp_char A.score B.score hobj qa qb ha hb hsep]
  rcases lt_trichotomy qa qb with h | h | h
  · simp [h, lt_asymm h]
  · simp [h]
  · simp [h, lt_asymm h]

/-- The three concrete trees of the counterexample: chains with 2, 1 and
9 nodes. -/
def chainW : Nat → Weighted
  | 0 => .dataValue (.finite 1) 0 0
  | n + 1 => .singleArg (.finite 1) .abs (chainW n)

/-- ScoredTree with value 1.0009 and 2 nodes. -/
def stA : ScoredTree :=
  ⟨⟨.auc, 0, .finite (10009 / 10000), ⟨.finite 0⟩⟩, Tree.fromNode (chainW 1) ⟨1, 1⟩⟩

/-- ScoredTree with value 1.0 and 1 node. -/
def stB : ScoredTree :=
  ⟨⟨.auc, 0, .finite 1, ⟨.finite 0⟩⟩, Tree.fromNode (chainW 0) ⟨1, 1⟩⟩

/-- ScoredTree with value 1.0018 and 9 nodes. -/
def stC : ScoredTree :=
  ⟨⟨.auc, 0, .finite (10018 / 10000), ⟨.finite 0⟩⟩, Tree.fromNode (chainW 8) ⟨1, 1⟩⟩

/-- C2 counterexample: three ScoredTrees sharing the AUC objective on
which the comparison is cyclic (`A < B`, `B < C`, `C < A`), so the
ordering is not a strict weak order: less-than is not transitive and the
0.1 percent tolerance equivalence contradicts it. -/
theorem scored_tree_cmp_cycle :
    stA.cmp stB = some .lt ∧ stB.cmp stC = some .lt ∧ stC.cmp stA = some .lt := by
  refine ⟨?_, ?_, ?_⟩ <;>
    norm_num [ScoredTree.cmp, Score.cmp, stA, stB, stC, Tree.fromNode, chainW,
      Weighted.node_count, F32.cmp_finite, compare, compareOfLessAndEq]

/-- C2 amended: restricted to ScoredTrees with a shared objective whose
finite score values are pairwise equal or separated by more than the
0.1 percent tolerance (in both ratio directions), the comparison is a
consistent strict weak order on the triple: less-than and equivalence
are transitive, mix transitively, and less-than is asymmetric. -/
theorem scored_tree_cmp_consistent (A B C : ScoredTree)
    (hAB : A.score.objective = B.score.objective)
    (hBC : B.score.objective = C.score.objective)
    (qa qb qc : ℚ)
    (ha : A.score.value = .finite qa) (hb : B.score.value = .finite qb)
    (hc : C.score.value = .finite qc)
    (sAB : wellSep A.score.value B.score.value)
    (sBC : wellSep B.score.value C.score.value)
    (sAC : wellSep A.score.value C.score.value) :
    ((A.cmp B = some .lt ∧ B.cmp C = some .lt) → A.cmp C = some .lt) ∧
    ((A.cmp B = some .eq ∧ B.cmp C = some .eq) → A.cmp C = some .eq) ∧
    ((A.cmp B = some .eq ∧ B.cmp C = some .lt) → A.cmp C = some .lt) ∧
    ((A.cmp B = some .lt ∧ B.cmp C = some .eq) → A.cmp C = some .lt) ∧
    (A.cmp B = some .lt → B.cmp A = some .gt) := by
  have chAB := ScoredTree.cmp_split A B hAB qa qb ha hb sAB
  have chBC := ScoredTree.cmp_split B C hBC qb qc hb hc sBC
  have chAC := ScoredTree.cmp_split A C (hAB.trans hBC) qa qc ha hc sAC
  have chBA := ScoredTree.cmp_split B A hAB.symm qb qa hb ha (wellSep_symm sAB)
  have decodeLt : ∀ x y : ℚ, ∀ nx ny : Nat,
      (if x < y then Ordering.lt else if y < x then Ordering.gt
        else compare ny nx) = .lt ↔ (x < y ∨ (x = y ∧ ny < nx)) := by
    intro x y nx ny
    rcases lt_trichotomy x y with h | h | h
    · simp [h]
    · simp [h, lt_irrefl, Nat.compare_eq_lt]
    · simp [h, lt_asymm h]
      intro hEq
      exact absurd hEq (ne_of_gt h)
  have decodeEq : ∀ x y : ℚ, ∀ nx ny : Nat,
      (if x < y then Ordering.lt else if y < x then Ordering.gt
        else compare ny nx) = .eq ↔ (x = y ∧ ny = nx) := by
    intro x y nx ny
    rcases lt_trichotomy x y with h | h | h
    · simp [h, ne_of_lt h]
    · simp [h, lt_irrefl, Nat.compare_eq_eq]
    · simp [h, lt_asymm h]
      intro hEq
      exact absurd hEq (ne_of_gt h)
  have decodeGt : ∀ x y : ℚ, ∀ nx ny : Nat,
      (if x < y then Ordering.lt else if y < x then Ordering.gt
        else compare ny nx) = .gt ↔ (y < x ∨ (x = y ∧ nx < ny)) := by
    intro x y nx ny
    rcases lt_trichotomy x y with h | h | h
    · simp [h, ne_of_lt h, lt_asymm h]
    · simp [h, lt_irrefl, Nat.compare_eq_gt]
    · simp [h, lt_asymm h]
  rw [chAB, chBC, chAC, chBA]
  simp only [Option.some_inj, decodeLt, decodeEq, decodeGt]
  refine ⟨?_, ?_, ?_, ?_, ?_⟩
  · rintro ⟨hab | ⟨hab, nab⟩, hbc | ⟨hbc, nbc⟩⟩
    · exact Or.inl (hab.trans hbc)
    · exact Or.inl (hbc ▸ hab)
    · exact Or.inl (hab ▸ hbc)
    · exact Or.inr ⟨hab.trans hbc, nbc.trans nab⟩
  · rintro ⟨⟨hab, nab⟩, ⟨hbc, nbc⟩⟩
    exact ⟨hab.trans hbc, nbc.trans nab⟩
  · rintro ⟨⟨hab, nab⟩, hbc | ⟨hbc, nbc⟩⟩
    · exact Or.inl (hab ▸ hbc)
    · exact Or.inr ⟨hab.trans hbc, nab ▸ nbc⟩
  · rintro ⟨hab | ⟨hab, nab⟩, ⟨hbc, nbc⟩⟩
    · exact Or.inl (hbc ▸ hab)
    · exact Or.inr ⟨hab.trans hbc, nbc ▸ nab⟩
  · rintro (hab | ⟨hab, nab⟩)
    · exact Or.inl hab
    · exact Or.inr ⟨hab.symm, nab⟩

/-- ScoredTree with value 1 and 3 nodes (witness data). -/
def stD : ScoredTree :=
  ⟨⟨.auc, 0, .finite 1, ⟨.finite 0⟩⟩, Tree.fromNode (chainW 2) ⟨1, 1⟩⟩

/-- ScoredTree with value 2 and 2 nodes (witness data). -/
def stE : ScoredTree :=
  ⟨⟨.auc, 0, .finite 2, ⟨.finite 0⟩⟩, Tree.fromNode (chainW 1) ⟨1, 1⟩⟩

/-- ScoredTree with value 2 and 1 node (witness data). -/
def stF : ScoredTree :=
  ⟨⟨.auc, 0, .finite 2, ⟨.finite 0⟩⟩, Tree.fromNode (chainW 0) ⟨1, 1⟩⟩

theorem scored_tree_cmp_consistent_witness : stD.cmp stF = some .lt := by
  have hsepDE : wellSep stD.score.value stE.score.value := by
    refine Or.inr ⟨?_, ?_⟩ <;> norm_num [stD, stE]
  have hsepEF : wellSep stE.score.value stF.score.value := Or.inl rfl
  have hsepDF : wellSep stD.score.value stF.score.value := by
    refine Or.inr ⟨?_, ?_⟩ <;> norm_num [stD, stF]
  refine (scored_tree_cmp_consistent stD stE stF rfl rfl 1 2 2 rfl rfl rfl
    hsepDE hsepEF hsepDF).1 ⟨?_, ?_⟩
  · norm_num [ScoredTree.cmp, Score.cmp, stD, stE, F32.cmp_finite]
  · norm_num [ScoredTree.cmp, Score.cmp, stE, stF, Tree.fromNode, chainW,
      Weighted.node_count, F32.div, compare, compareOfLessAndEq]

/-! ### Claim C8: the cached node_count invariant -/

theorem mutateHead_count (w : Weighted) (f1 : OneArgFun) (f2 : TwoArgFun) (k : MathConst)
    (rc : Nat × Nat) : (mutateHead w f1 f2 k rc).node_count = w.node_count := by
  cases w <;> rfl

theorem changeWeightHead_count (w : Weighted) (rate : F32) :
    (changeWeightHead w rate).node_count = w.node_count := by
  cases w <;> rfl

theorem applyAtPath_count (f : Weighted → Weighted)
    (hf : ∀ w, (f w).node_count = w.node_count) :
    ∀ (w : Weighted) (p : List Dir), (applyAtPath f w p).node_count = w.node_count := by
  intro w
  induction w with
  | dataValue wt r c =>
      intro p
      cases p with
      | nil => exact hf _
      | cons d p => cases d <;> rfl
  | stdDev wt r c =>
      intro p
      cases p with
      | nil => exact hf _
      | cons d p => cases d <;> rfl
  | mathConstant wt k =>
      intro p
      cases p with
      | nil => exact hf _
      | cons d p => cases d <;> rfl
  | singleArg wt fn c ih =>
      intro p
      cases p with
      | nil => exact hf _
      | cons d p =>
          cases d with
          | intoOne => simp [applyAtPath, Weighted.node_count, ih]
          | intoLeft => rfl
          | intoRight => rfl
  | doubleArg wt fn a b iha ihb =>
      intro p
      cases p with
      | nil => exact hf _
      | cons d p =>
          cases d with
          | intoOne => rfl
          | intoLeft => simp [applyAtPath, Weighted.node_count, iha]
          | intoRight => simp [applyAtPath, Weighted.node_count, ihb]

/-- C8: the cached `node_count` field equals the number of nodes
reachable from the root (`Node::node_count` is exactly that tree size):
tree construction establishes the equality, and both structural mutation
(`Tree::mutate`, at any node index and with any same-arity replacement
draw) and weight perturbation (`Tree::change_weights`, for any sequence
of draws) preserve it. -/
theorem tree_node_count_invariant :
    (∀ (node : Weighted) (shape : InputShape),
      (Tree.fromNode node shape).node_count = (Tree.fromNode node shape).node.node_count) ∧
    (∀ (t : Tree) (node_id : Nat) (f1 : OneArgFun) (f2 : TwoArgFun) (k : MathConst)
        (rc : Nat × Nat),
      t.node_count = t.node.node_count →
        (t.mutateAt node_id f1 f2 k rc).node_count =
          (t.mutateAt node_id f1 f2 k rc).node.node_count) ∧
    (∀ (t : Tree) (picks : List (Nat × F32)),
      t.node_count = t.node.node_count →
        (t.changeWeightsAt picks).node_count = (t.changeWeightsAt picks).node.node_count) := by
  refine ⟨fun node shape => rfl, ?_, ?_⟩
  · intro t node_id f1 f2 k rc h
    unfold Tree.mutateAt
    rw [applyAtPath_count (fun w => mutateHead w f1 f2 k rc)
      (fun w => mutateHead_count w f1 f2 k rc)]
    exact h
  · intro t picks
    induction picks generalizing t with
    | nil => intro h; exact h
    | cons pick rest ih =>
        intro h
        have hstep :
            ∀ tr : Tree,
              tr.node_count = tr.node.node_count →
              ({ tr with node := (applyAtPath (fun w => changeWeightHead w pick.2) tr.node
                  (selPath tr.node [] [] pick.1)) } : Tree).node_count =
                ({ tr with node := (applyAtPath (fun w => changeWeightHead w pick.2) tr.node
                  (selPath tr.node [] [] pick.1)) } : Tree).node.node_count := by
          intro tr htr
          have := applyAtPath_count (fun w => changeWeightHead w pick.2)
            (fun w => changeWeightHead_count w pick.2) tr.node
            (selPath tr.node [] [] pick.1)
          simpa [this] using htr
        have : (Tree.changeWeightsAt t (pick :: rest)) =
            Tree.changeWeightsAt ({ t with node := (applyAtPath
              (fun w => changeWeightHead w pick.2) t.node
              (selPath t.node [] [] pick.1)) }) rest := by
          simp [Tree.changeWeightsAt]
        rw [this]
        exact ih _ (hstep t h)

/-- A concrete two-node tree for the witness. -/
def treeChain1 : Tree := Tree.fromNode (chainW 1) ⟨1, 1⟩

theorem tree_node_count_invariant_witness :
    (treeChain1.mutateAt 1 .neg .add .c1 (0, 0)).node_count =
      (treeChain1.mutateAt 1 .neg .add .c1 (0, 0)).node.node_count :=
  tree_node_count_invariant.2.1 treeChain1 1 .neg .add .c1 (0, 0) rfl

/-! ### Claim C6: AUC agrees with the textbook Mann-Whitney statistic -/

/-- Number of entries of the queried class. -/
def classCount (l : List (F32 × Outcome)) (cls : Class) : Nat :=
  (l.filter (fun p => p.2.cls = cls)).length

/-- Number of entries of other classes. -/
def nonClassCount (l : List (F32 × Outcome)) (cls : Class) : Nat :=
  (l.filter (fun p => p.2.cls ≠ cls)).length

/-- Textbook ordered-pair count: pairs (i, j) with i before j in the
sorted list, entry i not of the class and entry j of the class. -/
def mwPairs : List (F32 × Outcome) → Class → Nat
  | [], _ => 0
  | p :: rest, cls => (if p.2.cls ≠ cls then classCount rest cls else 0) + mwPairs rest cls

/-- The textbook Mann-Whitney AUC, written from the spec sentence:
ordered (non-class, class) pair count divided by
(class count x non-class count). -/
def mannWhitneyAuc (l : List (F32 × Outcome)) (cls : Class) : F32 :=
  F32.div (.finite (mwPairs l cls)) (.finite ((classCount l cls * nonClassCount l cls : Nat) : ℚ))

theorem classCount_cons (p : F32 × Outcome) (rest : List (F32 × Outcome)) (cls : Class) :
    classCount (p :: rest) cls = (if p.2.cls = cls then 1 else 0) + classCount rest cls := by
  by_cases h : p.2.cls = cls <;> simp [classCount, List.filter_cons, h, Nat.add_comm]

theorem nonClassCount_cons (p : F32 × Outcome) (rest : List (F32 × Outcome)) (cls : Class) :
    nonClassCount (p :: rest) cls = (if p.2.cls = cls then 0 else 1) + nonClassCount rest cls := by
  by_cases h : p.2.cls = cls <;> simp [nonClassCount, List.filter_cons, h, Nat.add_comm]

theorem aucLoop_spec (cls : Class) (l : List (F32 × Outcome)) :
    ∀ ic cc ti, aucLoop cls l ic cc ti =
      (ic + nonClassCount l cls, cc + classCount l cls,
        ti + ic * classCount l cls + mwPairs l cls) := by
  induction l with
  | nil => intro ic cc ti; simp [aucLoop, classCount, nonClassCount, mwPairs]
  | cons p rest ih =>
      intro ic cc ti
      have hmw : mwPairs (p :: rest) cls =
          (if p.2.cls ≠ cls then classCount rest cls else 0) + mwPairs rest cls := rfl
      by_cases h : p.2.cls = cls
      · rw [show aucLoop cls (p :: rest) ic cc ti = aucLoop cls rest ic (cc + 1) (ti + ic) by
          simp [aucLoop, h]]
        rw [ih, classCount_cons, nonClassCount_cons, hmw]
        simp only [h, if_pos, if_neg, ne_eq, not_true_eq_false, if_true, if_false,
          Prod.mk.injEq]
        refine ⟨by ring, by ring, by ring⟩
      · rw [show aucLoop cls (p :: rest) ic cc ti = aucLoop cls rest (ic + 1) cc ti by
          simp [aucLoop, h]]
        rw [ih, classCount_cons, nonClassCount_cons, hmw]
        simp only [h, ne_eq, not_false_eq_true, if_true, if_false, Prod.mk.injEq]
        refine ⟨by ring, by ring, by ring⟩

/-- The 20 sorted (output, class) pairs of the spec's AUC example;
class 1 is P, class 0 is N, rewards 1 and penalties -1 throughout. -/
def aucExample20 : List (F32 × Outcome) :=
  [(.finite (1 / 100), ⟨1, .finite 1, .finite (-1)⟩),
   (.finite (4 / 100), ⟨1, .finite 1, .finite (-1)⟩),
   (.finite (11 / 100), ⟨0, .finite 1, .finite (-1)⟩),
   (.finite (12 / 100), ⟨1, .finite 1, .finite (-1)⟩),
   (.finite (15 / 100), ⟨1, .finite 1, .finite (-1)⟩),
   (.finite (19 / 100), ⟨1, .finite 1, .finite (-1)⟩),
   (.finite (22 / 100), ⟨0, .finite 1, .finite (-1)⟩),
   (.finite (23 / 100), ⟨0, .finite 1, .finite (-1)⟩),
   (.finite (31 / 100), ⟨1, .finite 1, .finite (-1)⟩),
   (.finite (33 / 100), ⟨0, .finite 1, .finite (-1)⟩),
   (.finite (39 / 100), ⟨1, .finite 1, .finite (-1)⟩),
   (.finite (42 / 100), ⟨0, .finite 1, .finite (-1)⟩),
   (.finite (43 / 100), ⟨1, .finite 1, .finite (-1)⟩),
   (.finite (49 / 100), ⟨0, .finite 1, .finite (-1)⟩),
   (.finite (51 / 100), ⟨0, .finite 1, .finite (-1)⟩),
   (.finite (55 / 100), ⟨0, .finite 1, .finite (-1)⟩),
   (.finite (60 / 100), ⟨1, .finite 1, .finite (-1)⟩),
   (.finite (70 / 100), ⟨0, .finite 1, .finite (-1)⟩),
   (.finite (80 / 100), ⟨1, .finite 1, .finite (-1)⟩),
   (.finite (90 / 100), ⟨0, .finite 1, .finite (-1)⟩)]

/-- C6: `calculate_auc` equals the textbook Mann-Whitney AUC (ordered
(non-class, class) pair count over class count x non-class count) on
every input, and on the spec's 20-pair example queried for the class
labeled N it returns exactly 0.68. -/
theorem calculate_auc_mann_whitney :
    (∀ (l : List (F32 × Outcome)) (cls : Class), calculate_auc l cls = mannWhitneyAuc l cls) ∧
    calculate_auc aucExample20 0 = .finite (68 / 100) := by
  have hgen : ∀ (l : List (F32 × Outcome)) (cls : Class),
      calculate_auc l cls = mannWhitneyAuc l cls := by
    intro l cls
    unfold calculate_auc mannWhitneyAuc
    rw [aucLoop_spec]
    simp
  refine ⟨hgen, ?_⟩
  rw [hgen]
  have h1 : mwPairs aucExample20 0 = 68 := by decide
  have h2 : classCount aucExample20 0 = 10 := by decide
  have h3 : nonClassCount aucExample20 0 = 10 := by decide
  unfold mannWhitneyAuc
  rw [h1, h2, h3]
  rw [F32.div_finite _ _ (by norm_num)]
  norm_num

/-! ### Claim C5: scores produced by execute_for_score -/

theorem headD_mem (l : List α) (d : α) (h : l ≠ []) : l.headD d ∈ l := by
  cases l with
  | nil => exact absurd rfl h
  | cons a t => simp

theorem getD_mem (l : List α) (n : Nat) (d : α) (h : n < l.length) : l.getD n d ∈ l := by
  induction l generalizing n with
  | nil => simp at h
  | cons a t ih =>
      cases n with
      | zero => simp [List.getD]
      | succ n =>
          have h' : n < t.length := by simpa using h
          have hmem := ih n h'
          have heq : (a :: t).getD (n + 1) d = t.getD n d := by simp [List.getD]
          rw [heq]
          exact List.mem_cons_of_mem a hmem

theorem incLoop_length (cls : Class) :
    ∀ (L : List (F32 × Outcome)) (ic : Nat), (incLoop cls L ic).length = L.length := by
  intro L
  induction L with
  | nil => intro ic; rfl
  | cons p rest ih => intro ic; simp [incLoop, ih]

theorem incLoop_fst (cls : Class) :
    ∀ (L : List (F32 × Outcome)) (ic : Nat), ∀ x ∈ incLoop cls L ic,
      x.1 ∈ L.map Prod.fst := by
  intro L
  induction L with
  | nil => intro ic x hx; simp [incLoop] at hx
  | cons p rest ih =>
      intro ic x hx
      simp only [incLoop, List.mem_cons] at hx
      rcases hx with rfl | hx
      · simp
      · simpa using Or.inr (by simpa using ih _ x hx)

theorem corLoop_length (cls : Class) :
    ∀ (M : List (F32 × Outcome × Nat)) (cc : Nat), (corLoop cls M cc).length = M.length := by
  intro M
  induction M with
  | nil => intro cc; rfl
  | cons x rest ih =>
      intro cc
      obtain ⟨g, o, n⟩ := x
      simp [corLoop, ih]

theorem corLoop_fst (cls : Class) :
    ∀ (M : List (F32 × Outcome × Nat)) (cc : Nat), ∀ x ∈ corLoop cls M cc,
      x.1 ∈ M.map Prod.fst := by
  intro M
  induction M with
  | nil => intro cc x hx; simp [corLoop] at hx
  | cons y rest ih =>
      intro cc x hx
      obtain ⟨g, o, n⟩ := y
      simp only [corLoop, List.mem_cons] at hx
      rcases hx with rfl | hx
      · simp
      · simpa using Or.inr (by simpa using ih _ x hx)

theorem falseLoop_length (cls : Class) :
    ∀ (L : List (F32 × Outcome)) (fc : F32), (falseLoop cls L fc).length = L.length := by
  intro L
  induction L with
  | nil => intro fc; rfl
  | cons p rest ih => intro fc; simp [falseLoop, ih]

theorem falseLoop_fst (cls : Class) :
    ∀ (L : List (F32 × Outcome)) (fc : F32), ∀ x ∈ falseLoop cls L fc,
      x.1 ∈ L.map Prod.fst := by
  intro L
  induction L with
  | nil => intro fc x hx; simp [falseLoop] at hx
  | cons p rest ih =>
      intro fc x hx
      simp only [falseLoop, List.mem_cons] at hx
      rcases hx with rfl | hx
      · simp
      · simpa using Or.inr (by simpa using ih _ x hx)

theorem trueLoop_length (cls : Class) :
    ∀ (M : List (F32 × Outcome × F32)) (tc : F32), (trueLoop cls M tc).length = M.length := by
  intro M
  induction M with
  | nil => intro tc; rfl
  | cons x rest ih =>
      intro tc
      obtain ⟨g, o, fr⟩ := x
      simp [trueLoop, ih]

theorem trueLoop_fst (cls : Class) :
    ∀ (M : List (F32 × Outcome × F32)) (tc : F32), ∀ x ∈ trueLoop cls M tc,
      x.1 ∈ M.map Prod.fst := by
  intro M
  induction M with
  | nil => intro tc x hx; simp [trueLoop] at hx
  | cons y rest ih =>
      intro tc x hx
      obtain ⟨g, o, fr⟩ := y
      simp only [trueLoop, List.mem_cons] at hx
      rcases hx with rfl | hx
      · simp
      · simpa using Or.inr (by simpa using ih _ x hx)

/-- The accuracy threshold is one of the candidate guesses. -/
theorem accuracy_threshold_mem (L : List (F32 × Outcome)) (cls : Class) (h : L ≠ []) :
    ∃ p ∈ L, accuracy_threshold L cls = ⟨p.1⟩ := by
  unfold accuracy_threshold
  set M := corLoop cls (incLoop cls L 0).reverse 0 with hM
  have hMlen : M.length = L.length := by
    rw [hM, corLoop_length, List.length_reverse, incLoop_length]
  have hMne : M ≠ [] := by
    intro hnil
    rw [hnil] at hMlen
    exact h (List.length_eq_zero.mp hMlen.symm)
  set le := fun (x y : F32 × Outcome × Nat) => decide (x.2.2 ≤ y.2.2) with hle
  have hSne : sortBy le M ≠ [] := by
    intro hnil
    have := (sortBy_perm le M).length_eq
    rw [hnil] at this
    exact hMne (List.length_eq_zero.mp this.symm)
  have hlast : (sortBy le M).getLastD junkTripleN ∈ sortBy le M :=
    getLastD_mem _ hSne _
  have hlastM : (sortBy le M).getLastD junkTripleN ∈ M :=
    (sortBy_perm le M).mem_iff.mp hlast
  have h1 : ((sortBy le M).getLastD junkTripleN).1 ∈
      ((incLoop cls L 0).reverse).map Prod.fst :=
    corLoop_fst cls _ 0 _ hlastM
  rw [List.map_reverse, List.mem_reverse] at h1
  rcases List.mem_map.mp h1 with ⟨y, hy, hyx⟩
  have h2 : y.1 ∈ L.map Prod.fst := incLoop_fst cls L 0 y hy
  rcases List.mem_map.mp h2 with ⟨p, hp, hpy⟩
  refine ⟨p, hp, ?_⟩
  show Threshold.mk ((sortBy le M).getLastD junkTripleN).1 = ⟨p.1⟩
  rw [← hyx, ← hpy]

/-- The cost threshold is one of the candidate guesses. -/
theorem cost_threshold_mem (L : List (F32 × Outcome)) (cls : Class) (h : L ≠ []) :
    ∃ p ∈ L, cost_threshold L cls = ⟨p.1⟩ := by
  unfold cost_threshold
  set M := trueLoop cls (falseLoop cls L (.finite 0)).reverse (.finite 0) with hM
  have hMlen : M.length = L.length := by
    rw [hM, trueLoop_length, List.length_reverse, falseLoop_length]
  have hMne : M ≠ [] := by
    intro hnil
    rw [hnil] at hMlen
    exact h (List.length_eq_zero.mp hMlen.symm)
  set le := fun (x y : F32 × Outcome × F32) => costLe x.2.2 y.2.2 with hle
  have hSne : sortBy le M ≠ [] := by
    intro hnil
    have := (sortBy_perm le M).length_eq
    rw [hnil] at this
    exact hMne (List.length_eq_zero.mp this.symm)
  have hlast : (sortBy le M).getLastD junkTripleF ∈ sortBy le M :=
    getLastD_mem _ hSne _
  have hlastM : (sortBy le M).getLastD junkTripleF ∈ M :=
    (sortBy_perm le M).mem_iff.mp hlast
  have h1 : ((sortBy le M).getLastD junkTripleF).1 ∈
      ((falseLoop cls L (.finite 0)).reverse).map Prod.fst :=
    trueLoop_fst cls _ _ _ hlastM
  rw [List.map_reverse, List.mem_reverse] at h1
  rcases List.mem_map.mp h1 with ⟨y, hy, hyx⟩
  have h2 : y.1 ∈ L.map Prod.fst := falseLoop_fst cls L _ y hy
  rcases List.mem_map.mp h2 with ⟨p, hp, hpy⟩
  refine ⟨p, hp, ?_⟩
  show Threshold.mk ((sortBy le M).getLastD junkTripleF).1 = ⟨p.1⟩
  rw [← hyx, ← hpy]

/-- The AUC threshold is finite whenever all guesses are finite. -/
theorem auc_threshold_finite (L : List (F32 × Outcome)) (cls : Class) (h : L ≠ [])
    (hfin : ∀ p ∈ L, p.1.isFinite = true) :
    (auc_threshold L cls).value.isFinite = true := by
  unfold auc_threshold
  set n := (L.filter (fun p => p.2.cls ≠ cls)).length with hn
  by_cases h0 : n = 0
  · rw [if_pos h0]
    exact hfin _ (headD_mem L junkPair h)
  · rw [if_neg h0]
    by_cases hl : n = L.length
    · rw [if_pos hl]
      have hmem := getLastD_mem L h junkPair
      obtain ⟨q, hq⟩ := (F32.isFinite_iff _).mp (hfin _ hmem)
      simp only [hq, F32.abs_finite, F32.mul_finite]
      rfl
    · rw [if_neg hl]
      have hlt : n < L.length := lt_of_le_of_ne (by rw [hn]; exact List.length_filter_le _ L) hl
      exact hfin _ (getD_mem L n junkPair hlt)

theorem valid_all_finite (l : List F32) (h : valid l = true) :
    ∀ v ∈ l, v.isFinite = true :=
  ((validLoop_iff _ l false).mp h).1

@[simp]
theorem F32.add_finite (a b : ℚ) : F32.add (.finite a) (.finite b) = .finite (a + b) := rfl

theorem accLoop_total (t : Threshold) (cls : Class) :
    ∀ (L : List (F32 × Outcome)) (corr tot : Nat),
      (accLoop t cls L corr tot).2 = tot + L.countP (fun p => p.1.isFinite) := by
  intro L
  induction L with
  | nil => intro corr tot; simp [accLoop]
  | cons p rest ih =>
      intro corr tot
      by_cases hf : p.1.isFinite = true
      · have : Threshold.bool t p.1 = some (F32.geb p.1 t.value) := by
          simp [Threshold.bool, hf]
        simp only [accLoop, this, ih, List.countP_cons, hf]
        simp
        omega
      · have : Threshold.bool t p.1 = none := by
          simp [Threshold.bool]
          revert hf
          cases p.1.isFinite <;> simp
        simp only [accLoop, this, ih, List.countP_cons]
        have hff : p.1.isFinite = false := by revert hf; cases p.1.isFinite <;> simp
        simp [hff]

theorem calculate_accuracy_finite (t : Threshold) (L : List (F32 × Outcome)) (cls : Class)
    (hfin : ∀ p ∈ L, p.1.isFinite = true) (hne : L ≠ []) :
    (calculate_accuracy t L cls).isFinite = true := by
  unfold calculate_accuracy
  have htot : (accLoop t cls L 0 0).2 = L.length := by
    rw [accLoop_total]
    simp [List.countP_eq_length.mpr hfin]
  have hpos : (0 : ℚ) < ((accLoop t cls L 0 0).2 : ℚ) := by
    rw [htot]
    exact_mod_cast List.length_pos.mpr hne
  rw [F32.div_finite _ _ (ne_of_gt hpos)]
  rfl

theorem calculate_cost_finite_aux (t : Threshold) (cls : Class) :
    ∀ (L : List (F32 × Outcome)) (acc : F32), acc.isFinite = true →
      (∀ p ∈ L, p.2.reward.isFinite = true ∧ p.2.penalty.isFinite = true) →
      (costLoop t cls L acc).isFinite = true := by
  intro L
  induction L with
  | nil => intro acc hacc _; exact hacc
  | cons p rest ih =>
      intro acc hacc hout
      have hrest : ∀ q ∈ rest, q.2.reward.isFinite = true ∧ q.2.penalty.isFinite = true :=
        fun q hq => hout q (List.mem_cons_of_mem p hq)
      have hcost : ∀ b : Bool, (p.2.calculate_cost b cls).isFinite = true := by
        intro b
        cases b with
        | false => rfl
        | true =>
            unfold Outcome.calculate_cost
            by_cases hc : cls = p.2.cls
            · simp only [hc, if_pos]
              exact (hout p (by simp)).1
            · rw [if_neg hc]
              exact (hout p (by simp)).2
      cases hb : Threshold.bool t p.1 with
      | none => simpa [costLoop, hb] using ih acc hacc hrest
      | some b =>
          have hsum : (F32.add acc (p.2.calculate_cost b cls)).isFinite = true := by
            obtain ⟨qa, ha⟩ := (F32.isFinite_iff acc).mp hacc
            obtain ⟨qc, hc⟩ := (F32.isFinite_iff _).mp (hcost b)
            rw [ha, hc]
            rfl
          simpa [costLoop, hb] using ih _ hsum hrest

theorem calculate_auc_finite (L : List (F32 × Outcome)) (cls : Class)
    (hc : ∃ p ∈ L, p.2.cls = cls) (hn : ∃ p ∈ L, p.2.cls ≠ cls) :
    (calculate_auc L cls).isFinite = true := by
  unfold calculate_auc
  rw [aucLoop_spec]
  simp only [Nat.zero_add, zero_add]
  have hcpos : 0 < classCount L cls := by
    obtain ⟨p, hp, hpc⟩ := hc
    apply List.length_pos.mpr
    intro hnil
    have : p ∈ L.filter (fun q => q.2.cls = cls) := List.mem_filter.mpr ⟨hp, by simp [hpc]⟩
    rw [hnil] at this
    cases this
  have hnpos : 0 < nonClassCount L cls := by
    obtain ⟨p, hp, hpc⟩ := hn
    apply List.length_pos.mpr
    intro hnil
    have : p ∈ L.filter (fun q => q.2.cls ≠ cls) := List.mem_filter.mpr ⟨hp, by simp [hpc]⟩
    rw [hnil] at this
    cases this
  have hne : ((classCount L cls * nonClassCount L cls : Nat) : ℚ) ≠ 0 := by
    have : 0 < classCount L cls * nonClassCount L cls := Nat.mul_pos hcpos hnpos
    exact_mod_cast Nat.pos_iff_ne_zero.mp this
  rw [F32.div_finite _ _ hne]
  rfl

theorem exists_zip_right (g : List α) (o : List β) (hlen : g.length = o.length) :
    ∀ b ∈ o, ∃ p ∈ g.zip o, p.2 = b := by
  induction o generalizing g with
  | nil => intro b hb; cases hb
  | cons b' o' ih =>
      intro b hb
      cases g with
      | nil => simp at hlen
      | cons a g' =>
          rcases List.mem_cons.mp hb with rfl | hb
          · exact ⟨(a, b), by simp, rfl⟩
          · obtain ⟨p, hp, hpb⟩ := ih g' (by simpa using hlen) b hb
            exact ⟨p, List.mem_cons_of_mem _ hp, hpb⟩

/-- C5 (amended): a Score produced by `Tree::execute_for_score` has a
finite threshold unconditionally (the deliberate `2 * |max_output|` AUC
fallback is itself finite), and a finite value provided the outcome
coefficients are finite and, for the AUC objective, both the queried
class and some other class occur among the outcomes.  The hypothesis
`hN` is the DataView invariant that evaluation yields one output per
outcome. -/
theorem execute_for_score_finite (tf : TransFuns) (t : Tree) (data : DataView) (cls : Class)
    (objective : Objective) (s : Score)
    (hN : (t.execute tf data).length = data.outcomes.length)
    (hout : ∀ o ∈ data.outcomes, o.reward.isFinite = true ∧ o.penalty.isFinite = true)
    (hcls : objective = .auc →
      (∃ o ∈ data.outcomes, o.cls = cls) ∧ ∃ o ∈ data.outcomes, o.cls ≠ cls)
    (h : t.execute_for_score tf data cls objective = some s) :
    s.value.isFinite = true ∧ s.threshold.value.isFinite = true := by
  unfold Tree.execute_for_score at h
  by_cases h2 : (data.cells.get 0 0).length < 2
  · simp [h2] at h
  · rw [if_neg h2] at h
    by_cases hv : valid (t.execute tf data) = false
    · simp [hv] at h
    · rw [if_neg hv] at h
      have hvt : valid (t.execute tf data) = true := by
        revert hv; cases valid (t.execute tf data) <;> simp
      have hs : calc_score (sort_guesses (t.execute tf data) data.outcomes)
          (objective.threshold (sort_guesses (t.execute tf data) data.outcomes) cls) cls
          objective = s := Option.some.inj h
      set guesses := t.execute tf data with hg
      set L := sort_guesses guesses data.outcomes with hL
      have hfing : ∀ v ∈ guesses, v.isFinite = true := valid_all_finite _ hvt
      have hgne : guesses ≠ [] := by
        intro h0
        rw [h0] at hvt
        simp [valid, validLoop] at hvt
      have hperm : List.Perm L (guesses.zip data.outcomes) := sortBy_perm _ _
      have hLfin : ∀ p ∈ L, p.1.isFinite = true := by
        rintro ⟨a, b⟩ hp
        exact hfing a (List.of_mem_zip (hperm.mem_iff.mp hp)).1
      have hLout : ∀ p ∈ L, p.2 ∈ data.outcomes := by
        rintro ⟨a, b⟩ hp
        exact (List.of_mem_zip (hperm.mem_iff.mp hp)).2
      have hLlen : L.length = guesses.length := by
        rw [hperm.length_eq, List.length_zip, hN]
        exact Nat.min_self _
      have hLne : L ≠ [] := by
        intro h0
        rw [h0] at hLlen
        exact hgne (List.length_eq_zero.mp hLlen.symm)
      constructor
      · rw [← hs]
        cases objective with
        | auc =>
            show (calculate_auc L cls).isFinite = true
            obtain ⟨⟨oc, hoc, hocc⟩, ⟨on', hon, honc⟩⟩ := hcls rfl
            obtain ⟨pc, hpc, hpc2⟩ := exists_zip_right guesses data.outcomes hN oc hoc
            obtain ⟨pn, hpn, hpn2⟩ := exists_zip_right guesses data.outcomes hN on' hon
            exact calculate_auc_finite L cls
              ⟨pc, hperm.mem_iff.mpr hpc, by rw [hpc2]; exact hocc⟩
              ⟨pn, hperm.mem_iff.mpr hpn, by rw [hpn2]; exact honc⟩
        | accuracy =>
            show (calculate_accuracy _ L cls).isFinite = true
            exact calculate_accuracy_finite _ L cls hLfin hLne
        | cost =>
            show (calculate_cost _ L cls).isFinite = true
            exact calculate_cost_finite_aux _ cls L _ rfl
              (fun p hp => hout p.2 (hLout p hp))
      · rw [← hs]
        cases objective with
        | auc =>
            show (auc_threshold L cls).value.isFinite = true
            exact auc_threshold_finite L cls hLne hLfin
        | accuracy =>
            show (accuracy_threshold L cls).value.isFinite = true
            obtain ⟨p, hp, hpt⟩ := accuracy_threshold_mem L cls hLne
            rw [hpt]
            exact hLfin p hp
        | cost =>
            show (cost_threshold L cls).value.isFinite = true
            obtain ⟨p, hp, hpt⟩ := cost_threshold_mem L cls hLne
            rw [hpt]
            exact hLfin p hp

/-- Two samples, both of class 0 (the degenerate AUC input). -/
def dataTwoClass0 : DataView :=
  ⟨⟨⟨1, 1⟩, [[.finite 1, .finite 2]]⟩,
    [⟨0, .finite 1, .finite (-1)⟩, ⟨0, .finite 1, .finite (-1)⟩]⟩

/-- C5 counterexample: on a valid two-sample evaluation whose outcomes
are all of the queried class, the AUC objective produces a Score whose
value is NaN (0/0), not finite. -/
theorem execute_for_score_nan_value :
    treeData00.execute_for_score tfJunk dataTwoClass0 0 .auc =
      some ⟨.auc, 0, F32.nan, ⟨.finite 1⟩⟩ := by
  norm_num [Tree.execute_for_score, Tree.execute, treeData00, dataTwoClass0, Tree.fromNode,
    Weighted.execute, Data.get, valid, validLoop, F32.isFinite, sort_guesses, sortBy,
    insertIn, guessLe, F32.cmp, calc_score, calculate_auc, aucLoop, Objective.threshold,
    auc_threshold, List.filter, F32.div]

theorem execute_for_score_finite_witness :
    ∃ s : Score,
      treeData00.execute_for_score tfJunk dataTwoSamples 0 .accuracy = some s ∧
        s.value.isFinite = true ∧ s.threshold.value.isFinite = true := by
  have h : ∃ s : Score, treeData00.execute_for_score tfJunk dataTwoSamples 0 .accuracy =
      some s := by
    norm_num [Tree.execute_for_score, Tree.execute, treeData00, dataTwoSamples, Tree.fromNode,
      Weighted.execute, Data.get, valid, validLoop, F32.isFinite]
  obtain ⟨s, hs⟩ := h
  refine ⟨s, hs, ?_⟩
  refine execute_for_score_finite tfJunk treeData00 dataTwoSamples 0 .accuracy s ?_ ?_ ?_ hs
  · norm_num [Tree.execute, treeData00, dataTwoSamples, Tree.fromNode, Weighted.execute,
      Data.get]
  · intro o ho
    simp only [dataTwoSamples, List.mem_cons] at ho
    rcases ho with rfl | ho
    · exact ⟨rfl, rfl⟩
    rcases ho with rfl | ho
    · exact ⟨rfl, rfl⟩
    · cases ho
  · intro hobj
    cases hobj

/-! ### Claim C1: optimality of the linear threshold algorithms -/

theorem F32.geb_finite (a b : ℚ) : F32.geb (.finite a) (.finite b) = decide (b ≤ a) := by
  simp only [F32.geb, F32.cmp]
  rcases lt_trichotomy a b with h | h | h
  · rw [if_pos h]
    simp [not_le.mpr h]
  · subst h
    simp
  · rw [if_neg (lt_asymm h), if_pos h]
    simp [le_of_lt h]

theorem F32.ltb_finite (a b : ℚ) : F32.ltb (.finite a) (.finite b) = decide (a < b) := by
  simp only [F32.ltb, F32.cmp]
  rcases lt_trichotomy a b with h | h | h
  · rw [if_pos h]
    simp [h]
  · subst h
    simp
  · rw [if_neg (lt_asymm h), if_pos h]
    simp [lt_asymm h]

theorem costLe_finite (a b : ℚ) : costLe (.finite a) (.finite b) = decide (a ≤ b) := by
  simp only [costLe, F32.cmp]
  rcases lt_trichotomy a b with h | h | h
  · rw [if_pos h]
    simp [le_of_lt h]
  · subst h
    simp
  · rw [if_neg (lt_asymm h), if_pos h]
    simp [not_le.mpr h]

/-! Membership-restricted versions of the stable-sort facts (needed for
comparators like `costLe` that are only well behaved on the values that
actually occur in the sorted list). -/

theorem pairwise_insertIn_mem (le : α → α → Bool) (a : α) (l : List α)
    (htot : ∀ x ∈ l, le a x = false → le x a = true)
    (htrans : ∀ x ∈ l, ∀ y ∈ l, le a x = true → le x y = true → le a y = true)
    (h : l.Pairwise (fun x y => le x y = true)) :
    (insertIn le a l).Pairwise (fun x y => le x y = true) := by
  induction l with
  | nil => simp [insertIn]
  | cons b bs ih =>
      simp only [insertIn]
      rcases List.pairwise_cons.mp h with ⟨hb, hbs⟩
      by_cases hab : le a b = true
      · rw [if_pos hab]
        refine List.pairwise_cons.mpr ⟨?_, h⟩
        intro y hy
        rcases List.mem_cons.mp hy with rfl | hy
        · exact hab
        · exact htrans b (by simp) y (by simp [hy]) hab (hb y hy)
      · rw [if_neg hab]
        refine List.pairwise_cons.mpr ⟨?_, ?_⟩
        · intro y hy
          rcases mem_insertIn le a y bs hy with rfl | hy
          · exact htot b (by simp) (Bool.eq_false_iff.mpr hab)
          · exact hb y hy
        · exact ih (fun x hx => htot x (by simp [hx]))
            (fun x hx y hy => htrans x (by simp [hx]) y (by simp [hy])) hbs

theorem sortBy_pairwise_mem (le : α → α → Bool) (l : List α)
    (htot : ∀ a ∈ l, ∀ b ∈ l, le a b = false → le b a = true)
    (htrans : ∀ a ∈ l, ∀ b ∈ l, ∀ c ∈ l, le a b = true → le b c = true → le a c = true) :
    (sortBy le l).Pairwise (fun x y => le x y = true) := by
  induction l with
  | nil => simp [sortBy]
  | cons a rest ih =>
      have hsub : ∀ x ∈ sortBy le rest, x ∈ rest :=
        fun x hx => (sortBy_perm le rest).mem_iff.mp hx
      refine pairwise_insertIn_mem le a (sortBy le rest) ?_ ?_ ?_
      · intro x hx
        exact htot a (by simp) x (by simp [hsub x hx])
      · intro x hx y hy
        exact htrans a (by simp) x (by simp [hsub x hx]) y (by simp [hsub y hy])
      · exact ih (fun x hx y hy => htot x (by simp [hx]) y (by simp [hy]))
          (fun x hx y hy z hz => htrans x (by simp [hx]) y (by simp [hy]) z (by simp [hz]))

theorem pairwise_le_getLastD_mem (le : α → α → Bool) (l : List α)
    (hrefl : ∀ a ∈ l, le a a = true)
    (hp : l.Pairwise (fun x y => le x y = true)) :
    ∀ d, ∀ x ∈ l, le x (l.getLastD d) = true := by
  induction l with
  | nil => intro d x hx; cases hx
  | cons a rest ih =>
      intro d x hx
      rcases List.pairwise_cons.mp hp with ⟨ha, hrest⟩
      cases rest with
      | nil =>
          rcases List.mem_cons.mp hx with rfl | hx
          · simpa using hrefl x (by simp)
          · cases hx
      | cons b bs =>
          rw [List.getLastD_cons]
          rcases List.mem_cons.mp hx with rfl | hx
          · exact ha _ (getLastD_mem (b :: bs) (by simp) _)
          · exact ih (fun y hy => hrefl y (by simp [hy])) hrest a x hx

theorem sortBy_getLastD_max_mem (le : α → α → Bool) (l : List α) (d : α)
    (hrefl : ∀ a ∈ l, le a a = true)
    (htot : ∀ a ∈ l, ∀ b ∈ l, le a b = false → le b a = true)
    (htrans : ∀ a ∈ l, ∀ b ∈ l, ∀ c ∈ l, le a b = true → le b c = true → le a c = true) :
    ∀ x ∈ l, le x ((sortBy le l).getLastD d) = true := by
  intro x hx
  have hmem : x ∈ sortBy le l := (sortBy_perm le l).mem_iff.mpr hx
  refine pairwise_le_getLastD_mem le (sortBy le l) ?_
    (sortBy_pairwise_mem le l htot htrans) d x hmem
  intro a ha
  exact hrefl a ((sortBy_perm le l).mem_iff.mp ha)

/-- Bool form of "this prediction is correct at threshold τ". -/
def correctB (τ : ℚ) (cls : Class) (p : F32 × Outcome) : Bool :=
  if (p.2.cls = cls ∧ F32.geb p.1 (.finite τ) = true) ∨
     (p.2.cls ≠ cls ∧ F32.geb p.1 (.finite τ) = false) then true else false

theorem accLoop_count (τ : ℚ) (cls : Class) :
    ∀ (L : List (F32 × Outcome)), (∀ p ∈ L, p.1.isFinite = true) →
      ∀ corr tot, accLoop ⟨.finite τ⟩ cls L corr tot =
        (corr + L.countP (correctB τ cls), tot + L.length) := by
  intro L
  induction L with
  | nil => intro _ corr tot; simp [accLoop]
  | cons p rest ih =>
      intro hfin corr tot
      have hf : p.1.isFinite = true := hfin p (by simp)
      have hb : Threshold.bool ⟨.finite τ⟩ p.1 = some (F32.geb p.1 (.finite τ)) := by
        simp [Threshold.bool, hf]
      have hrest : ∀ q ∈ rest, q.1.isFinite = true :=
        fun q hq => hfin q (List.mem_cons_of_mem p hq)
      by_cases hc : (p.2.cls = cls ∧ F32.geb p.1 (.finite τ) = true) ∨
          (p.2.cls ≠ cls ∧ F32.geb p.1 (.finite τ) = false)
      · have hcb : correctB τ cls p = true := by simp [correctB, hc]
        simp only [accLoop, hb, if_pos hc, ih hrest, List.countP_cons, hcb,
          List.length_cons, Prod.mk.injEq, if_true]
        constructor <;> omega
      · have hcb : correctB τ cls p = false := by simp [correctB, hc]
        simp only [accLoop, hb, if_neg hc, ih hrest, List.countP_cons, hcb,
          List.length_cons, Prod.mk.injEq, Bool.false_eq_true, if_false]
        constructor <;> omega

theorem calculate_accuracy_char (τ : ℚ) (cls : Class) (L : List (F32 × Outcome))
    (hfin : ∀ p ∈ L, p.1.isFinite = true) (hne : L ≠ []) :
    calculate_accuracy ⟨.finite τ⟩ L cls =
      .finite ((L.countP (correctB τ cls) : ℚ) / (L.length : ℚ)) := by
  unfold calculate_accuracy
  rw [accLoop_count τ cls L hfin 0 0]
  simp only [Nat.zero_add, zero_add]
  rw [F32.div_finite]
  exact_mod_cast Nat.pos_iff_ne_zero.mp (List.length_pos.mpr hne)

/-- Indicator: entry of the queried class. -/
def cInd (cls : Class) (p : F32 × Outcome) : Nat := if p.2.cls = cls then 1 else 0

/-- Indicator: entry of another class. -/
def nInd (cls : Class) (p : F32 × Outcome) : Nat := if p.2.cls ≠ cls then 1 else 0

/-- Count of other-class entries. -/
def nCnt (cls : Class) (l : List (F32 × Outcome)) : Nat :=
  l.countP (fun p => decide (p.2.cls ≠ cls))

/-- Count of queried-class entries. -/
def cCnt (cls : Class) (l : List (F32 × Outcome)) : Nat :=
  l.countP (fun p => decide (p.2.cls = cls))

theorem nCnt_cons (cls : Class) (p : F32 × Outcome) (l : List (F32 × Outcome)) :
    nCnt cls (p :: l) = nInd cls p + nCnt cls l := by
  by_cases h : p.2.cls = cls <;> simp [nCnt, nInd, List.countP_cons, h] <;> omega

theorem cCnt_cons (cls : Class) (p : F32 × Outcome) (l : List (F32 × Outcome)) :
    cCnt cls (p :: l) = cInd cls p + cCnt cls l := by
  by_cases h : p.2.cls = cls <;> simp [cCnt, cInd, List.countP_cons, h] <;> omega

theorem cCnt_append (cls : Class) (l1 l2 : List (F32 × Outcome)) :
    cCnt cls (l1 ++ l2) = cCnt cls l1 + cCnt cls l2 := by
  simp [cCnt, List.countP_append]

/-- The per-position cut scores recorded by `accuracy_threshold`, in
original list order: the entry for a position holds `a` (non-class count
left of the list) plus `c` (class count right of the list) plus
non-class entries strictly before the position plus class entries from
the position on. -/
def cutListA (cls : Class) : List (F32 × Outcome) → Nat → Nat → List (F32 × Outcome × Nat)
  | [], _, _ => []
  | p :: rest, a, c =>
      (p.1, p.2, a + (c + cCnt cls (p :: rest))) :: cutListA cls rest (a + nInd cls p) c

theorem cutListA_length (cls : Class) :
    ∀ (L : List (F32 × Outcome)) (a c : Nat), (cutListA cls L a c).length = L.length := by
  intro L
  induction L with
  | nil => intro a c; rfl
  | cons p rest ih => intro a c; simp [cutListA, ih]

theorem incLoop_append (cls : Class) (L1 L2 : List (F32 × Outcome)) :
    ∀ a, incLoop cls (L1 ++ L2) a = incLoop cls L1 a ++ incLoop cls L2 (a + nCnt cls L1) := by
  induction L1 with
  | nil => intro a; simp [incLoop, nCnt]
  | cons p rest ih =>
      intro a
      simp only [List.cons_append, incLoop]
      have hacc : (if p.2.cls ≠ cls then a + 1 else a) + nCnt cls rest =
          a + nCnt cls (p :: rest) := by
        rw [nCnt_cons]
        by_cases h : p.2.cls = cls <;> simp [nInd, h] <;> omega
      rw [← hacc]
      exact congrArg _ (ih _)

theorem cutListA_append_last (cls : Class) (q : F32 × Outcome) :
    ∀ (L : List (F32 × Outcome)) (a c : Nat),
      cutListA cls (L ++ [q]) a c =
        cutListA cls L a (c + cInd cls q) ++
          [(q.1, q.2, a + nCnt cls L + (c + cInd cls q))] := by
  intro L
  induction L with
  | nil =>
      intro a c
      simp only [List.nil_append, cutListA]
      have h1 : cCnt cls [q] = cInd cls q := by
        by_cases h : q.2.cls = cls <;> simp [cCnt, cInd, List.countP_cons, h]
      have h2 : nCnt cls ([] : List (F32 × Outcome)) = 0 := rfl
      rw [h1, h2]
      have : a + (c + cInd cls q) = a + 0 + (c + cInd cls q) := by omega
      rw [← this]
  | cons p rest ih =>
      intro a c
      simp only [List.cons_append, cutListA, ih, List.cons_append, List.append_eq]
      have h1 : cCnt cls (p :: (rest ++ [q])) =
          cCnt cls (p :: rest) + cInd cls q := by
        rw [show p :: (rest ++ [q]) = (p :: rest) ++ [q] from rfl, cCnt_append]
        have : cCnt cls [q] = cInd cls q := by
          by_cases h : q.2.cls = cls <;> simp [cCnt, cInd, List.countP_cons, h]
        rw [this]
      have h2 : a + (c + (cCnt cls (p :: rest) + cInd cls q)) =
          a + (c + cInd cls q + cCnt cls (p :: rest)) := by omega
      have h3 : a + nInd cls p + nCnt cls rest + (c + cInd cls q) =
          a + nCnt cls (p :: rest) + (c + cInd cls q) := by
        rw [nCnt_cons]
        omega
      rw [h1, h2, h3]

theorem corLoop_cutListA (cls : Class) (L : List (F32 × Outcome)) :
    ∀ a c, corLoop cls ((incLoop cls L a).reverse) c = (cutListA cls L a c).reverse := by
  induction L using List.reverseRecOn with
  | nil => intro a c; rfl
  | append_singleton L q ih =>
      intro a c
      rw [incLoop_append cls L [q] a]
      rw [show incLoop cls [q] (a + nCnt cls L) = [(q.1, q.2, a + nCnt cls L)] from rfl]
      rw [List.reverse_append, cutListA_append_last, List.reverse_append]
      simp only [List.reverse_cons, List.reverse_nil, List.nil_append, List.singleton_append]
      by_cases hq : q.2.cls = cls
      · rw [show cInd cls q = 1 from by simp [cInd, hq]]
        simp only [corLoop, if_pos hq]
        rw [ih a (c + 1)]
      · rw [show cInd cls q = 0 from by simp [cInd, hq]]
        simp only [corLoop, if_neg hq]
        rw [ih a c]
        simp

theorem cutListA_mem_split (cls : Class) :
    ∀ (L : List (F32 × Outcome)) (a c : Nat) (x : F32 × Outcome × Nat),
      x ∈ cutListA cls L a c →
        ∃ L1 p L2, L = L1 ++ p :: L2 ∧ x.1 = p.1 ∧ x.2.1 = p.2 ∧
          x.2.2 = a + c + nCnt cls L1 + cCnt cls (p :: L2) := by
  intro L
  induction L with
  | nil => intro a c x hx; simp [cutListA] at hx
  | cons p rest ih =>
      intro a c x hx
      rcases List.mem_cons.mp hx with rfl | hx
      · exact ⟨[], p, rest, by simp, rfl, rfl, by simp [nCnt]; omega⟩
      · obtain ⟨L1, p', L2, hsplit, h1, h2, h3⟩ := ih (a + nInd cls p) c x hx
        refine ⟨p :: L1, p', L2, by rw [hsplit]; rfl, h1, h2, ?_⟩
        rw [h3, nCnt_cons]
        omega

theorem cutListA_split_mem (cls : Class) :
    ∀ (L1 : List (F32 × Outcome)) (p : F32 × Outcome) (L2 : List (F32 × Outcome)) (a c : Nat),
      (p.1, p.2, a + c + nCnt cls L1 + cCnt cls (p :: L2)) ∈
        cutListA cls (L1 ++ p :: L2) a c := by
  intro L1
  induction L1 with
  | nil =>
      intro p L2 a c
      have hv : a + c + nCnt cls ([] : List (F32 × Outcome)) + cCnt cls (p :: L2) =
          a + (c + cCnt cls (p :: L2)) := by simp [nCnt]; omega
      rw [List.nil_append, hv]
      exact List.mem_cons_self _ _
  | cons q L1' ih =>
      intro p L2 a c
      have hv : a + c + nCnt cls (q :: L1') + cCnt cls (p :: L2) =
          (a + nInd cls q) + c + nCnt cls L1' + cCnt cls (p :: L2) := by
        rw [nCnt_cons]
        omega
      rw [List.cons_append, hv]
      exact List.mem_cons_of_mem _ (ih p L2 (a + nInd cls q) c)

theorem countP_correctB_split (cls : Class) (L1 L2 : List (F32 × Outcome))
    (p : F32 × Outcome) (qp : ℚ) (hp : p.1 = .finite qp)
    (hfin : ∀ x ∈ L1 ++ p :: L2, x.1.isFinite = true)
    (hsorted : (L1 ++ p :: L2).Pairwise (fun x y => F32.ltb x.1 y.1 = true)) :
    (L1 ++ p :: L2).countP (correctB qp cls) = nCnt cls L1 + cCnt cls (p :: L2) := by
  rw [List.countP_append]
  rcases List.pairwise_append.mp hsorted with ⟨hp1, hp2, hcross⟩
  have hpart1 : L1.countP (correctB qp cls) = nCnt cls L1 := by
    apply List.countP_congr
    intro x hx
    obtain ⟨qx, hqx⟩ := (F32.isFinite_iff _).mp (hfin x (List.mem_append_left _ hx))
    have hlt : F32.ltb x.1 p.1 = true := hcross x hx p (by simp)
    rw [hqx, hp, F32.ltb_finite, decide_eq_true_eq] at hlt
    have hgeb : F32.geb x.1 (.finite qp) = false := by
      rw [hqx, F32.geb_finite]
      simp [not_le.mpr hlt]
    by_cases hc : x.2.cls = cls <;> simp [correctB, hgeb, hc]
  have hpart2 : (p :: L2).countP (correctB qp cls) = cCnt cls (p :: L2) := by
    apply List.countP_congr
    intro x hx
    have hgeb : F32.geb x.1 (.finite qp) = true := by
      rcases List.mem_cons.mp hx with rfl | hx
      · rw [hp, F32.geb_finite]
        simp
      · obtain ⟨qx, hqx⟩ := (F32.isFinite_iff _).mp
          (hfin x (List.mem_append_right _ (List.mem_cons_of_mem _ hx)))
        have hlt : F32.ltb p.1 x.1 = true := (List.pairwise_cons.mp hp2).1 x hx
        rw [hqx, hp, F32.ltb_finite, decide_eq_true_eq] at hlt
        rw [hqx, F32.geb_finite]
        simp [le_of_lt hlt]
    by_cases hc : x.2.cls = cls <;> simp [correctB, cCnt, hgeb, hc]
  rw [hpart1, hpart2]

/-- Optimality of the linear accuracy threshold on strictly ascending
finite candidate lists. -/
theorem accuracy_opt (L : List (F32 × Outcome)) (cls : Class) (hne : L ≠ [])
    (hfin : ∀ p ∈ L, p.1.isFinite = true)
    (hsorted : L.Pairwise (fun x y => F32.ltb x.1 y.1 = true)) :
    ∀ p ∈ L, F32.geb (calculate_accuracy (accuracy_threshold L cls) L cls)
      (calculate_accuracy ⟨p.1⟩ L cls) = true := by
  have hcor : corLoop cls ((incLoop cls L 0).reverse) 0 = (cutListA cls L 0 0).reverse :=
    corLoop_cutListA cls L 0 0
  set AL := (cutListA cls L 0 0).reverse with hAL
  have hALne : AL ≠ [] := by
    intro h0
    have : AL.length = L.length := by
      rw [hAL, List.length_reverse, cutListA_length]
    rw [h0] at this
    exact hne (List.length_eq_zero.mp this.symm)
  have hSne : sortBy (fun (x y : F32 × Outcome × Nat) => decide (x.2.2 ≤ y.2.2)) AL ≠ [] := by
    intro h0
    have := (sortBy_perm (fun (x y : F32 × Outcome × Nat) => decide (x.2.2 ≤ y.2.2)) AL).length_eq
    rw [h0] at this
    exact hALne (List.length_eq_zero.mp this.symm)
  set x := (sortBy (fun (x y : F32 × Outcome × Nat) => decide (x.2.2 ≤ y.2.2)) AL).getLastD
    junkTripleN with hxdef
  have hthr : accuracy_threshold L cls = ⟨x.1⟩ := by
    unfold accuracy_threshold
    show ({ value := ((sortBy (fun (x y : F32 × Outcome × Nat) => decide (x.2.2 ≤ y.2.2))
      (corLoop cls (incLoop cls L 0).reverse 0)).getLastD junkTripleN).1 } : Threshold) = _
    rw [hcor]
  have hxmem : x ∈ AL := by
    rw [hxdef]
    exact (sortBy_perm _ AL).mem_iff.mp (getLastD_mem _ hSne _)
  have hmax : ∀ y ∈ AL, y.2.2 ≤ x.2.2 := by
    intro y hy
    have h := sortBy_getLastD_max (fun (x y : F32 × Outcome × Nat) => decide (x.2.2 ≤ y.2.2))
      (by intro a; simp) (by intro a b hab; simp at hab ⊢; omega)
      (by intro a b c h1 h2; simp at h1 h2 ⊢; omega) AL junkTripleN y hy
    rw [hxdef]
    simpa using h
  obtain ⟨Lx1, px, Lx2, hLx, hx1, hx2, hx3⟩ :=
    cutListA_mem_split cls L 0 0 x (List.mem_reverse.mp (hAL ▸ hxmem))
  have hpxmem : px ∈ L := by
    rw [hLx]
    exact List.mem_append_right _ (by simp)
  obtain ⟨qx, hqx⟩ := (F32.isFinite_iff _).mp (hfin px hpxmem)
  have hcx : L.countP (correctB qx cls) = x.2.2 := by
    rw [hLx, countP_correctB_split cls Lx1 Lx2 px qx hqx (hLx ▸ hfin) (hLx ▸ hsorted)]
    omega
  have hretacc : calculate_accuracy (accuracy_threshold L cls) L cls =
      .finite ((x.2.2 : ℚ) / (L.length : ℚ)) := by
    rw [hthr, hx1, hqx, calculate_accuracy_char qx cls L hfin hne, hcx]
  intro p hp
  obtain ⟨L1, L2, hsplit⟩ := List.append_of_mem hp
  obtain ⟨qp, hqp⟩ := (F32.isFinite_iff _).mp (hfin p hp)
  have hcp : L.countP (correctB qp cls) = nCnt cls L1 + cCnt cls (p :: L2) := by
    rw [hsplit]
    exact countP_correctB_split cls L1 L2 p qp hqp (hsplit ▸ hfin) (hsplit ▸ hsorted)
  have hpacc : calculate_accuracy ⟨p.1⟩ L cls =
      .finite (((nCnt cls L1 + cCnt cls (p :: L2) : ℕ) : ℚ) / (L.length : ℚ)) := by
    rw [hqp, calculate_accuracy_char qp cls L hfin hne, hcp]
  have hple : nCnt cls L1 + cCnt cls (p :: L2) ≤ x.2.2 := by
    have hmem : (p.1, p.2, 0 + 0 + nCnt cls L1 + cCnt cls (p :: L2)) ∈ cutListA cls L 0 0 := by
      rw [hsplit]
      exact cutListA_split_mem cls L1 p L2 0 0
    have := hmax _ (hAL ▸ List.mem_reverse.mpr hmem)
    simpa using this
  rw [hretacc, hpacc, F32.geb_finite, decide_eq_true_eq]
  gcongr

/-- Rational value of an outcome's "predict true" contribution. -/
def qcost (cls : Class) (p : F32 × Outcome) : ℚ := toQ (p.2.calculate_cost true cls)

/-- Sum of "predict true" contributions over a list. -/
def cSum (cls : Class) (l : List (F32 × Outcome)) : ℚ := (l.map (qcost cls)).sum

/-- Total cost at threshold τ: contributions of the entries at or above
the threshold. -/
def tSum (τ : ℚ) (cls : Class) (l : List (F32 × Outcome)) : ℚ :=
  (l.map (fun p => if F32.geb p.1 (.finite τ) = true then qcost cls p else 0)).sum

theorem sum_map_zero (l : List α) : (l.map (fun _ => (0 : ℚ))).sum = 0 := by
  induction l with
  | nil => rfl
  | cons a t ih => simp [ih]

theorem costLoop_char (τ : ℚ) (cls : Class) :
    ∀ (L : List (F32 × Outcome)), (∀ p ∈ L, p.1.isFinite = true) →
      (∀ p ∈ L, (p.2.calculate_cost true cls).isFinite = true) →
      ∀ q : ℚ, costLoop ⟨.finite τ⟩ cls L (.finite q) = .finite (q + tSum τ cls L) := by
  intro L
  induction L with
  | nil => intro _ _ q; simp [costLoop, tSum]
  | cons p rest ih =>
      intro hfin hcfin q
      have hf : p.1.isFinite = true := hfin p (by simp)
      have hb : Threshold.bool ⟨.finite τ⟩ p.1 = some (F32.geb p.1 (.finite τ)) := by
        simp [Threshold.bool, hf]
      have hrest1 : ∀ q' ∈ rest, q'.1.isFinite = true :=
        fun q' hq => hfin q' (List.mem_cons_of_mem p hq)
      have hrest2 : ∀ q' ∈ rest, (q'.2.calculate_cost true cls).isFinite = true :=
        fun q' hq => hcfin q' (List.mem_cons_of_mem p hq)
      have htcons : tSum τ cls (p :: rest) =
          (if F32.geb p.1 (.finite τ) = true then qcost cls p else 0) + tSum τ cls rest := by
        simp [tSum]
      cases hgeb : F32.geb p.1 (.finite τ) with
      | true =>
          obtain ⟨qc, hqc⟩ := (F32.isFinite_iff _).mp (hcfin p (by simp))
          have hcost : p.2.calculate_cost true cls = .finite (qcost cls p) := by
            rw [hqc]
            simp [qcost, hqc, toQ]
          simp only [costLoop, hb, hgeb, hcost, F32.add_finite, ih hrest1 hrest2, htcons,
            if_true]
          congr 1
          ring
      | false =>
          have hcost : p.2.calculate_cost false cls = F32.finite 0 := rfl
          simp only [costLoop, hb, hgeb, hcost, F32.add_finite, ih hrest1 hrest2, htcons,
            Bool.false_eq_true, if_false]
          congr 1
          ring

theorem calculate_cost_char (τ : ℚ) (cls : Class) (L : List (F32 × Outcome))
    (hfin : ∀ p ∈ L, p.1.isFinite = true)
    (hcfin : ∀ p ∈ L, (p.2.calculate_cost true cls).isFinite = true) :
    calculate_cost ⟨.finite τ⟩ L cls = .finite (tSum τ cls L) := by
  unfold calculate_cost
  rw [costLoop_char τ cls L hfin hcfin 0, zero_add]

theorem falseLoop_zero (cls : Class) :
    ∀ L : List (F32 × Outcome),
      falseLoop cls L (.finite 0) = L.map (fun p => (p.1, p.2, F32.finite 0)) := by
  intro L
  induction L with
  | nil => rfl
  | cons p rest ih =>
      have hacc : F32.add (.finite 0) (p.2.calculate_cost false cls) = .finite 0 := by
        show F32.add (.finite 0) (.finite 0) = _
        rw [F32.add_finite]
        norm_num
      simp only [falseLoop, hacc, ih, List.map_cons]

/-- The per-position suffix cost sums recorded by `cost_threshold`, in
original list order (`c` is the contribution of entries to the right of
the list). -/
def cutListC (cls : Class) : List (F32 × Outcome) → ℚ → List (F32 × Outcome × F32)
  | [], _ => []
  | p :: rest, c => (p.1, p.2, .finite (c + cSum cls (p :: rest))) :: cutListC cls rest c

theorem cutListC_length (cls : Class) :
    ∀ (L : List (F32 × Outcome)) (c : ℚ), (cutListC cls L c).length = L.length := by
  intro L
  induction L with
  | nil => intro c; rfl
  | cons p rest ih => intro c; simp [cutListC, ih]

theorem cSum_cons (cls : Class) (p : F32 × Outcome) (l : List (F32 × Outcome)) :
    cSum cls (p :: l) = qcost cls p + cSum cls l := by
  simp [cSum]

theorem cSum_append (cls : Class) (l1 l2 : List (F32 × Outcome)) :
    cSum cls (l1 ++ l2) = cSum cls l1 + cSum cls l2 := by
  simp [cSum]

theorem cutListC_append_last (cls : Class) (q : F32 × Outcome) :
    ∀ (L : List (F32 × Outcome)) (c : ℚ),
      cutListC cls (L ++ [q]) c =
        cutListC cls L (c + qcost cls q) ++ [(q.1, q.2, .finite (c + qcost cls q))] := by
  intro L
  induction L with
  | nil =>
      intro c
      simp only [List.nil_append, cutListC]
      have : cSum cls [q] = qcost cls q := by simp [cSum]
      rw [this]
  | cons p rest ih =>
      intro c
      simp only [List.cons_append, cutListC, List.append_eq, ih]
      have h1 : cSum cls (p :: (rest ++ [q])) = cSum cls (p :: rest) + qcost cls q := by
        rw [show p :: (rest ++ [q]) = (p :: rest) ++ [q] from rfl, cSum_append]
        simp [cSum]
      have h2 : c + (cSum cls (p :: rest) + qcost cls q) =
          c + qcost cls q + cSum cls (p :: rest) := by ring
      rw [h1, h2]

theorem trueLoop_cutListC (cls : Class) (L : List (F32 × Outcome)) :
    ∀ c : ℚ, (∀ p ∈ L, (p.2.calculate_cost true cls).isFinite = true) →
      trueLoop cls ((L.map (fun p => (p.1, p.2, F32.finite 0))).reverse) (.finite c) =
        (cutListC cls L c).reverse := by
  induction L using List.reverseRecOn with
  | nil => intro c _; rfl
  | append_singleton L q ih =>
      intro c hcfin
      have hq := hcfin q (by simp)
      obtain ⟨qc, hqc⟩ := (F32.isFinite_iff _).mp hq
      have hqcost : qcost cls q = qc := by simp [qcost, hqc, toQ]
      rw [List.map_append, List.reverse_append]
      simp only [List.map_cons, List.map_nil, List.reverse_cons, List.reverse_nil,
        List.nil_append, List.singleton_append]
      rw [cutListC_append_last, List.reverse_append]
      simp only [List.reverse_cons, List.reverse_nil, List.nil_append, List.singleton_append]
      simp only [trueLoop, hqc, F32.add_finite]
      rw [ih (c + qc) (fun p hp => hcfin p (List.mem_append_left _ hp))]
      rw [hqcost]
      have h0 : (0 : ℚ) + (c + qc) = c + qc := by ring
      rw [h0]

theorem cutListC_mem_split (cls : Class) :
    ∀ (L : List (F32 × Outcome)) (c : ℚ) (x : F32 × Outcome × F32),
      x ∈ cutListC cls L c →
        ∃ L1 p L2, L = L1 ++ p :: L2 ∧ x.1 = p.1 ∧ x.2.1 = p.2 ∧
          x.2.2 = .finite (c + cSum cls (p :: L2)) := by
  intro L
  induction L with
  | nil => intro c x hx; simp [cutListC] at hx
  | cons p rest ih =>
      intro c x hx
      rcases List.mem_cons.mp hx with rfl | hx
      · exact ⟨[], p, rest, by simp, rfl, rfl, rfl⟩
      · obtain ⟨L1, p', L2, hsplit, h1, h2, h3⟩ := ih c x hx
        exact ⟨p :: L1, p', L2, by rw [hsplit]; rfl, h1, h2, h3⟩

theorem cutListC_split_mem (cls : Class) :
    ∀ (L1 : List (F32 × Outcome)) (p : F32 × Outcome) (L2 : List (F32 × Outcome)) (c : ℚ),
      (p.1, p.2, F32.finite (c + cSum cls (p :: L2))) ∈ cutListC cls (L1 ++ p :: L2) c := by
  intro L1
  induction L1 with
  | nil =>
      intro p L2 c
      rw [List.nil_append]
      exact List.mem_cons_self _ _
  | cons q L1' ih =>
      intro p L2 c
      rw [List.cons_append]
      exact List.mem_cons_of_mem _ (ih p L2 c)

theorem tSum_split (cls : Class) (L1 L2 : List (F32 × Outcome)) (p : F32 × Outcome)
    (qp : ℚ) (hp : p.1 = .finite qp)
    (hfin : ∀ x ∈ L1 ++ p :: L2, x.1.isFinite = true)
    (hsorted : (L1 ++ p :: L2).Pairwise (fun x y => F32.ltb x.1 y.1 = true)) :
    tSum qp cls (L1 ++ p :: L2) = cSum cls (p :: L2) := by
  rcases List.pairwise_append.mp hsorted with ⟨hp1, hp2, hcross⟩
  unfold tSum
  rw [List.map_append, List.sum_append]
  have hpart1 : (L1.map (fun x => if F32.geb x.1 (.finite qp) = true then qcost cls x else 0)) =
      L1.map (fun _ => (0 : ℚ)) := by
    apply List.map_congr_left
    intro x hx
    obtain ⟨qx, hqx⟩ := (F32.isFinite_iff _).mp (hfin x (List.mem_append_left _ hx))
    have hlt : F32.ltb x.1 p.1 = true := hcross x hx p (by simp)
    rw [hqx, hp, F32.ltb_finite, decide_eq_true_eq] at hlt
    have hgeb : F32.geb x.1 (.finite qp) = false := by
      rw [hqx, F32.geb_finite]
      simp [not_le.mpr hlt]
    simp [hgeb]
  have hpart2 : ((p :: L2).map
      (fun x => if F32.geb x.1 (.finite qp) = true then qcost cls x else 0)) =
      (p :: L2).map (qcost cls) := by
    apply List.map_congr_left
    intro x hx
    have hgeb : F32.geb x.1 (.finite qp) = true := by
      rcases List.mem_cons.mp hx with rfl | hx
      · rw [hp, F32.geb_finite]
        simp
      · obtain ⟨qx, hqx⟩ := (F32.isFinite_iff _).mp
          (hfin x (List.mem_append_right _ (List.mem_cons_of_mem _ hx)))
        have hlt : F32.ltb p.1 x.1 = true := (List.pairwise_cons.mp hp2).1 x hx
        rw [hqx, hp, F32.ltb_finite, decide_eq_true_eq] at hlt
        rw [hqx, F32.geb_finite]
        simp [le_of_lt hlt]
    simp [hgeb]
  rw [hpart1, hpart2, sum_map_zero, zero_add]
  rfl

theorem costLe_refl (a : F32) : costLe a a = true := by
  cases a <;> simp [costLe, F32.cmp]

theorem F32.cmp_swap (a b : F32) :
    F32.cmp b a = (F32.cmp a b).map Ordering.swap := by
  cases a <;> cases b <;> simp [F32.cmp, Ordering.swap]
  case finite.finite qa qb =>
    rcases lt_trichotomy qa qb with h | h | h
    · simp [h, lt_asymm h]
    · simp [h]
    · simp [h, lt_asymm h]

theorem costLe_total (a b : F32) (h : costLe a b = false) : costLe b a = true := by
  have hgt : F32.cmp a b = some .gt := by
    revert h
    unfold costLe
    cases hc : F32.cmp a b with
    | none => simp
    | some o => cases o <;> simp
  have : F32.cmp b a = some .lt := by
    rw [F32.cmp_swap, hgt]
    rfl
  simp [costLe, this]

theorem cutListC_third (cls : Class) :
    ∀ (L : List (F32 × Outcome)) (c : ℚ), ∀ x ∈ cutListC cls L c, ∃ qz, x.2.2 = F32.finite qz := by
  intro L
  induction L with
  | nil => intro c x hx; simp [cutListC] at hx
  | cons p rest ih =>
      intro c x hx
      rcases List.mem_cons.mp hx with rfl | hx
      · exact ⟨_, rfl⟩
      · exact ih c x hx

/-- Optimality of the linear cost threshold on strictly ascending finite
candidate lists with finite cost coefficients. -/
theorem cost_opt (L : List (F32 × Outcome)) (cls : Class) (hne : L ≠ [])
    (hfin : ∀ p ∈ L, p.1.isFinite = true)
    (hsorted : L.Pairwise (fun x y => F32.ltb x.1 y.1 = true))
    (hcfin : ∀ p ∈ L, (p.2.calculate_cost true cls).isFinite = true) :
    ∀ p ∈ L, F32.geb (calculate_cost (cost_threshold L cls) L cls)
      (calculate_cost ⟨p.1⟩ L cls) = true := by
  have hCL : trueLoop cls ((falseLoop cls L (.finite 0)).reverse) (.finite 0) =
      (cutListC cls L 0).reverse := by
    rw [falseLoop_zero]
    exact trueLoop_cutListC cls L 0 hcfin
  set CL := (cutListC cls L 0).reverse with hCLdef
  have hCLne : CL ≠ [] := by
    intro h0
    have : CL.length = L.length := by rw [hCLdef, List.length_reverse, cutListC_length]
    rw [h0] at this
    exact hne (List.length_eq_zero.mp this.symm)
  have hSne : sortBy (fun (x y : F32 × Outcome × F32) => costLe x.2.2 y.2.2) CL ≠ [] := by
    intro h0
    have := (sortBy_perm (fun (x y : F32 × Outcome × F32) => costLe x.2.2 y.2.2) CL).length_eq
    rw [h0] at this
    exact hCLne (List.length_eq_zero.mp this.symm)
  have hthird : ∀ y ∈ CL, ∃ qz, y.2.2 = F32.finite qz := by
    intro y hy
    exact cutListC_third cls L 0 y (List.mem_reverse.mp (hCLdef ▸ hy))
  set x := (sortBy (fun (x y : F32 × Outcome × F32) => costLe x.2.2 y.2.2) CL).getLastD
    junkTripleF with hxdef
  have hthr : cost_threshold L cls = ⟨x.1⟩ := by
    unfold cost_threshold
    show ({ value := ((sortBy (fun (x y : F32 × Outcome × F32) => costLe x.2.2 y.2.2)
      (trueLoop cls ((falseLoop cls L (.finite 0)).reverse) (.finite 0))).getLastD
        junkTripleF).1 } : Threshold) = _
    rw [hCL]
  have hxmem : x ∈ CL := by
    rw [hxdef]
    exact (sortBy_perm _ CL).mem_iff.mp (getLastD_mem _ hSne _)
  have hmax : ∀ y ∈ CL, costLe y.2.2 x.2.2 = true := by
    intro y hy
    have h := sortBy_getLastD_max_mem (fun (x y : F32 × Outcome × F32) => costLe x.2.2 y.2.2)
      CL junkTripleF (fun a _ => costLe_refl _) (fun a _ b _ hab => costLe_total _ _ hab)
      ?_ y hy
    · rw [hxdef]
      simpa using h
    · intro a ha b hb c hc h1 h2
      obtain ⟨qa, hqa⟩ := hthird a ha
      obtain ⟨qb, hqb⟩ := hthird b hb
      obtain ⟨qc, hqc⟩ := hthird c hc
      have h1' : costLe a.2.2 b.2.2 = true := h1
      have h2' : costLe b.2.2 c.2.2 = true := h2
      show costLe a.2.2 c.2.2 = true
      rw [hqa, hqb, costLe_finite, decide_eq_true_eq] at h1'
      rw [hqb, hqc, costLe_finite, decide_eq_true_eq] at h2'
      rw [hqa, hqc, costLe_finite, decide_eq_true_eq]
      exact le_trans h1' h2'
  obtain ⟨Lx1, px, Lx2, hLx, hx1, hx2, hx3⟩ :=
    cutListC_mem_split cls L 0 x (List.mem_reverse.mp (hCLdef ▸ hxmem))
  have hpxmem : px ∈ L := by
    rw [hLx]
    exact List.mem_append_right _ (by simp)
  obtain ⟨qx, hqx⟩ := (F32.isFinite_iff _).mp (hfin px hpxmem)
  have hretcost : calculate_cost (cost_threshold L cls) L cls =
      .finite (cSum cls (px :: Lx2)) := by
    rw [hthr, hx1, hqx, calculate_cost_char qx cls L hfin hcfin]
    congr 1
    rw [hLx]
    exact tSum_split cls Lx1 Lx2 px qx hqx (hLx ▸ hfin) (hLx ▸ hsorted)
  intro p hp
  obtain ⟨L1, L2, hsplit⟩ := List.append_of_mem hp
  obtain ⟨qp, hqp⟩ := (F32.isFinite_iff _).mp (hfin p hp)
  have hpcost : calculate_cost ⟨p.1⟩ L cls = .finite (cSum cls (p :: L2)) := by
    rw [hqp, calculate_cost_char qp cls L hfin hcfin]
    congr 1
    rw [hsplit]
    exact tSum_split cls L1 L2 p qp hqp (hsplit ▸ hfin) (hsplit ▸ hsorted)
  have hple : cSum cls (p :: L2) ≤ cSum cls (px :: Lx2) := by
    have hmem : (p.1, p.2, F32.finite (0 + cSum cls (p :: L2))) ∈ cutListC cls L 0 := by
      rw [hsplit]
      exact cutListC_split_mem cls L1 p L2 0
    have h := hmax _ (hCLdef ▸ List.mem_reverse.mpr hmem)
    rw [hx3] at h
    simp only [costLe_finite, decide_eq_true_eq] at h
    linarith
  rw [hretcost, hpcost, F32.geb_finite, decide_eq_true_eq]
  exact hple

/-- C1 (amended): on every STRICTLY ascending list of at least two
finite (guess, outcome) pairs with finite reward/penalty coefficients,
the linear `accuracy_threshold` attains an accuracy at least as high as
any candidate guess value from the list used as a threshold, and the
linear `cost_threshold` likewise attains a maximal cost; with repeated
guess values both properties can fail (see the counterexample). -/
theorem threshold_optimality (L : List (F32 × Outcome)) (cls : Class)
    (hlen : 2 ≤ L.length)
    (hfin : ∀ p ∈ L, p.1.isFinite = true ∧ p.2.reward.isFinite = true ∧
      p.2.penalty.isFinite = true)
    (hsorted : L.Pairwise (fun x y => F32.ltb x.1 y.1 = true)) :
    (∀ p ∈ L, F32.geb (calculate_accuracy (accuracy_threshold L cls) L cls)
      (calculate_accuracy ⟨p.1⟩ L cls) = true) ∧
    (∀ p ∈ L, F32.geb (calculate_cost (cost_threshold L cls) L cls)
      (calculate_cost ⟨p.1⟩ L cls) = true) := by
  have hne : L ≠ [] := by
    intro h
    rw [h] at hlen
    simp at hlen
  have hf1 : ∀ p ∈ L, p.1.isFinite = true := fun p hp => (hfin p hp).1
  have hcfin : ∀ p ∈ L, (p.2.calculate_cost true cls).isFinite = true := by
    intro p hp
    show (if cls = p.2.cls then p.2.reward else p.2.penalty).isFinite = true
    by_cases h : cls = p.2.cls
    · simp only [h, if_pos]
      exact (hfin p hp).2.1
    · rw [if_neg h]
      exact (hfin p hp).2.2
  exact ⟨accuracy_opt L cls hne hf1 hsorted, cost_opt L cls hne hf1 hsorted hcfin⟩

/-- Ascending (but tied) candidate list breaking accuracy optimality. -/
def cexAccList : List (F32 × Outcome) :=
  [(.finite 1, ⟨0, .finite 1, .finite (-1)⟩),
   (.finite 1, ⟨0, .finite 1, .finite (-1)⟩),
   (.finite 1, ⟨1, .finite 1, .finite (-1)⟩),
   (.finite 2, ⟨0, .finite 1, .finite (-1)⟩)]

/-- Ascending (but tied) candidate list breaking cost optimality. -/
def cexCostList : List (F32 × Outcome) :=
  [(.finite 1, ⟨0, .finite 1, .finite (-1)⟩),
   (.finite 1, ⟨1, .finite 1, .finite (-1)⟩),
   (.finite 2, ⟨0, .finite 1, .finite (-1)⟩),
   (.finite 3, ⟨1, .finite 1, .finite (-1)⟩)]

/-- C1 counterexample: on ascending-sorted lists with REPEATED guess
values, both linear algorithms can return a threshold that is strictly
beaten by another guess value from the list (the index cut they optimize
is not realizable as a `>=`-threshold at a tied guess). -/
theorem threshold_optimality_cex :
    ((.finite 2, (⟨0, .finite 1, .finite (-1)⟩ : Outcome)) ∈ cexAccList ∧
      F32.geb (calculate_accuracy (accuracy_threshold cexAccList 1) cexAccList 1)
        (calculate_accuracy ⟨.finite 2⟩ cexAccList 1) = false) ∧
    ((.finite 3, (⟨1, .finite 1, .finite (-1)⟩ : Outcome)) ∈ cexCostList ∧
      F32.geb (calculate_cost (cost_threshold cexCostList 1) cexCostList 1)
        (calculate_cost ⟨.finite 3⟩ cexCostList 1) = false) := by
  refine ⟨⟨by simp [cexAccList], ?_⟩, ⟨by simp [cexCostList], ?_⟩⟩
  · have h1 : accuracy_threshold cexAccList 1 = ⟨.finite 1⟩ := by
      norm_num [accuracy_threshold, cexAccList, incLoop, corLoop, sortBy, insertIn,
        junkTripleN, List.reverse_cons, List.reverse_nil]
    rw [h1]
    norm_num [calculate_accuracy, cexAccList, accLoop, Threshold.bool, F32.isFinite,
      F32.geb_finite, F32.div_finite]
  · have h1 : cost_threshold cexCostList 1 = ⟨.finite 1⟩ := by
      norm_num [cost_threshold, cexCostList, falseLoop, trueLoop, sortBy, insertIn,
        junkTripleF, costLe, F32.cmp, Outcome.calculate_cost, List.reverse_cons,
        List.reverse_nil]
    rw [h1]
    norm_num [calculate_cost, cexCostList, costLoop, Threshold.bool, F32.isFinite,
      F32.geb_finite, Outcome.calculate_cost]

/-- A strictly ascending two-element candidate list for the witness. -/
def witList : List (F32 × Outcome) :=
  [(.finite 1, ⟨1, .finite 1, .finite (-1)⟩), (.finite 2, ⟨0, .finite 1, .finite (-1)⟩)]

theorem threshold_optimality_witness :
    F32.geb (calculate_accuracy (accuracy_threshold witList 1) witList 1)
      (calculate_accuracy ⟨.finite 1⟩ witList 1) = true := by
  refine (threshold_optimality witList 1 (by decide) ?_ ?_).1
    (.finite 1, ⟨1, .finite 1, .finite (-1)⟩) (by simp [witList])
  · intro p hp
    rcases List.mem_cons.mp hp with rfl | hp
    · exact ⟨rfl, rfl, rfl⟩
    rcases List.mem_cons.mp hp with rfl | hp
    · exact ⟨rfl, rfl, rfl⟩
    · cases hp
  · refine List.pairwise_cons.mpr ⟨?_, ?_⟩
    · intro y hy
      rcases List.mem_cons.mp hy with rfl | hy
      · norm_num [F32.ltb_finite]
      · cases hy
    · refine List.pairwise_cons.mpr ⟨?_, List.Pairwise.nil⟩
      intro y hy
      cases hy

/- ===== serialization/serializator.rs =====
Rust strings are modeled as their UTF-8 byte lists.  The artifacts
`to_bytes` produces are ASCII, on which `String::from_utf8` is the
identity and Rust's Unicode whitespace test agrees with the six ASCII
whitespace bytes, so the byte-list embedding keeps a single list type
for both `Vec<u8>` and `str`. -/

/-- The six ASCII whitespace bytes (tab, LF, VT, FF, CR, space). -/
def isWs (b : Nat) : Bool :=
  b == 9 || b == 10 || b == 11 || b == 12 || b == 13 || b == 32

/-- `PRIMECLUE_SPACE_SUBSTITUTE` as bytes. -/
def SENTINEL : List Nat :=
  [80, 82, 73, 77, 69, 67, 76, 85, 69, 95, 83, 80, 65, 67, 69, 95,
   83, 85, 66, 83, 84, 73, 84, 85, 84, 69]

/-- Tail of the sentinel (`RIMECLUE_SPACE_SUBSTITUTE`). -/
def SENT_TL : List Nat :=
  [82, 73, 77, 69, 67, 76, 85, 69, 95, 83, 80, 65, 67, 69, 95,
   83, 85, 66, 83, 84, 73, 84, 85, 84, 69]

theorem SENTINEL_cons : SENTINEL = 80 :: SENT_TL := rfl

theorem SENTINEL_length : SENTINEL.length = 26 := rfl

/-- Byte-list prefix test. -/
def isPrefB : List Nat → List Nat → Bool
  | [], _ => true
  | _ :: _, [] => false
  | a :: w, b :: l => a == b && isPrefB w l

/-- `v.replace(" ", PRIMECLUE_SPACE_SUBSTITUTE)` — performed by
`Serializator::add_string` on every pushed token. -/
def replaceSpace : List Nat → List Nat
  | [] => []
  | b :: rest =>
      if b = 32 then SENTINEL ++ replaceSpace rest else b :: replaceSpace rest

/-- `s.replace(PRIMECLUE_SPACE_SUBSTITUTE, " ")` — performed by the
String deserializer.  Fuel-indexed so that the kernel can evaluate it;
each step consumes at least one byte, so the list length is enough fuel
(see `replaceSent`). -/
def replaceSentF : Nat → List Nat → List Nat
  | _, [] => []
  | 0, l => l
  | fuel + 1, b :: rest =>
      if isPrefB SENTINEL (b :: rest) then 32 :: replaceSentF fuel (rest.drop 25)
      else b :: replaceSentF fuel rest

def replaceSent (l : List Nat) : List Nat := replaceSentF l.length l

/-- No occurrence of the space substitute anywhere in the byte list. -/
def noSentB : List Nat → Bool
  | [] => true
  | b :: rest => !isPrefB SENTINEL (b :: rest) && noSentB rest

theorem replaceSentF_nil (fuel : Nat) : replaceSentF fuel [] = [] := by
  cases fuel <;> rfl

theorem isPrefB_append_left (w : List Nat) :
    ∀ (s x : List Nat), w.length ≤ s.length → isPrefB w (s ++ x) = isPrefB w s := by
  induction w with
  | nil => intro s x _; cases s <;> simp [isPrefB]
  | cons a w ih =>
      intro s x h
      cases s with
      | nil => simp at h
      | cons b s =>
          simp only [List.cons_append, List.append_eq, isPrefB]
          rw [ih s x (by simp only [List.length_cons] at h; omega)]

theorem isPrefB_self_append (s x : List Nat) : isPrefB s (s ++ x) = true := by
  induction s with
  | nil => rfl
  | cons a s ih => simp [isPrefB, ih]

theorem sentinel_no_self_overlap :
    ∀ i < 26, 1 ≤ i → isPrefB (SENTINEL.drop i) SENTINEL = false := by decide

/-- A proper tail of the sentinel that matches a prefix of
`replaceSpace u` also matches a prefix of `u` itself: inserted
substitute blocks cannot complete a sentinel occurrence, because the
sentinel never overlaps itself. -/
theorem isPrefB_tail_replaceSpace (u : List Nat) :
    ∀ i, 1 ≤ i → isPrefB (SENTINEL.drop i) (replaceSpace u) = true →
      isPrefB (SENTINEL.drop i) u = true := by
  induction u with
  | nil =>
      intro i _ h
      cases hd : SENTINEL.drop i with
      | nil => simp [hd, isPrefB]
      | cons c w =>
          rw [hd] at h
          simp [replaceSpace, isPrefB] at h
  | cons b u ih =>
      intro i hi h
      cases hd : SENTINEL.drop i with
      | nil => simp [isPrefB]
      | cons c w =>
          have hlen26 : (SENTINEL.drop i).length = 26 - i := by
            rw [List.length_drop, SENTINEL_length]
          have hi26 : i < 26 := by
            rw [hd] at hlen26
            simp only [List.length_cons] at hlen26
            omega
          by_cases hb : b = 32
          · subst hb
            rw [show replaceSpace (32 :: u) = SENTINEL ++ replaceSpace u from rfl] at h
            have hlen : (SENTINEL.drop i).length ≤ SENTINEL.length := by
              rw [hlen26, SENTINEL_length]; omega
            rw [isPrefB_append_left _ _ _ hlen,
              sentinel_no_self_overlap i hi26 hi] at h
            simp at h
          · have hrs : replaceSpace (b :: u) = b :: replaceSpace u := by
              simp [replaceSpace, hb]
            rw [hrs, hd] at h
            simp only [isPrefB, Bool.and_eq_true, beq_iff_eq] at h
            obtain ⟨hcb, hw⟩ := h
            have hw' : SENTINEL.drop (i + 1) = w := by
              have hdd : List.drop 1 (SENTINEL.drop i) = SENTINEL.drop (i + 1) :=
                List.drop_drop 1 i SENTINEL
              rw [hd] at hdd
              simp only [List.drop_succ_cons, List.drop_zero] at hdd
              exact hdd.symm
            have hrec := ih (i + 1) (by omega) (by rw [hw']; exact hw)
            rw [hw'] at hrec
            simp [isPrefB, hcb, hrec]

/-- Inverse property of the space substitution: on a byte string with no
sentinel occurrence, the deserializer's substitute-to-space replacement
undoes the serializer's space-to-substitute replacement. -/
theorem replaceSentF_replaceSpace (v : List Nat) :
    ∀ fuel, (replaceSpace v).length ≤ fuel → noSentB v = true →
      replaceSentF fuel (replaceSpace v) = v := by
  induction v with
  | nil => intro fuel _ _; simp [replaceSpace, replaceSentF_nil]
  | cons b v ih =>
      intro fuel hfuel hns
      simp only [noSentB, Bool.and_eq_true, Bool.not_eq_true'] at hns
      obtain ⟨hnp, hns'⟩ := hns
      by_cases hb : b = 32
      · subst hb
        rw [show replaceSpace (32 :: v) = SENTINEL ++ replaceSpace v from rfl]
          at hfuel ⊢
        have hlen : (SENTINEL ++ replaceSpace v).length =
            26 + (replaceSpace v).length := by
          rw [List.length_append, SENTINEL_length]
        cases fuel with
        | zero => rw [hlen] at hfuel; omega
        | succ f =>
            rw [SENTINEL_cons, List.cons_append]
            simp only [replaceSentF]
            have hself : isPrefB SENTINEL (80 :: (SENT_TL ++ replaceSpace v)) = true := by
              rw [← List.cons_append, ← SENTINEL_cons]
              exact isPrefB_self_append _ _
            rw [if_pos hself]
            have hdrop : (SENT_TL ++ replaceSpace v).drop 25 = replaceSpace v := by
              have h25 : SENT_TL.length = 25 := rfl
              rw [← h25, List.drop_left]
            rw [hdrop, ih f (by rw [hlen] at hfuel; omega) hns']
      · have hrs : replaceSpace (b :: v) = b :: replaceSpace v := by
          simp [replaceSpace, hb]
        rw [hrs] at hfuel ⊢
        cases fuel with
        | zero => simp only [List.length_cons] at hfuel; omega
        | succ f =>
            simp only [replaceSentF]
            rw [if_neg ?hneg]
            case hneg =>
              intro hcon
              rw [SENTINEL_cons] at hcon
              simp only [isPrefB, Bool.and_eq_true, beq_iff_eq] at hcon
              obtain ⟨h80, hpre⟩ := hcon
              have hTL : SENT_TL = SENTINEL.drop 1 := rfl
              have hstep := isPrefB_tail_replaceSpace v 1 (le_refl 1)
                (by rw [← hTL]; exact hpre)
              rw [← hTL] at hstep
              rw [SENTINEL_cons] at hnp
              simp [isPrefB, ← h80, hstep] at hnp
            rw [ih f (by simp only [List.length_cons] at hfuel; omega) hns']

theorem replaceSent_replaceSpace (v : List Nat) (h : noSentB v = true) :
    replaceSent (replaceSpace v) = v :=
  replaceSentF_replaceSpace v _ (le_refl _) h

/-- `u128::max_value() >> 7`. -/
def csLIMIT : Nat := 2 ^ 121 - 1

/-- One step of `calc_checksum`: `if cs > LIMIT { cs >>= 8; } cs *= byte + 1;`
with the u128 multiplication wrapping modulo `2^128`. -/
def csStep (cs b : Nat) : Nat :=
  (if csLIMIT < cs then cs / 2 ^ 8 else cs) * (b + 1) % 2 ^ 128

/-- `Serializator::calc_checksum` over the pushed token strings. -/
def calc_checksum (strings : List (List Nat)) : Nat :=
  strings.foldl (fun cs s => s.foldl csStep cs) 1

/-- Decimal digit bytes of `n`, most significant first; fuel-indexed
(`fuel ≥ n` suffices) so that the kernel can evaluate it. -/
def decDigits : Nat → Nat → List Nat
  | 0, _ => []
  | fuel + 1, n => if n = 0 then [] else decDigits fuel (n / 10) ++ [n % 10 + 48]

/-- `format!("{}", n)` for an unsigned integer. -/
def natToDec (n : Nat) : List Nat := if n = 0 then [48] else decDigits (n + 1) n

/-- `Serializator::as_serialized`: every token followed by one space. -/
def as_serialized (strings : List (List Nat)) : List Nat :=
  (strings.map (fun t => t ++ [32])).join

/-- `Serializator::to_bytes`: `format!("{} ", checksum)` then the
serialized tokens. -/
def to_bytes (strings : List (List Nat)) : List Nat :=
  natToDec (calc_checksum strings) ++ 32 :: as_serialized strings

/-- Digit-wise accumulator of `str::parse` for an unsigned integer. -/
def parseDecAux : List Nat → Nat → Option Nat
  | [], acc => some acc
  | b :: rest, acc =>
      if 48 ≤ b ∧ b ≤ 57 then parseDecAux rest (acc * 10 + (b - 48)) else none

/-- `str::parse` for an unsigned integer type whose first invalid value
is `bound`: rejects the empty string, non-digit bytes and overflow.
(The `+`-signed form Rust also accepts never occurs in artifacts and is
omitted.) -/
def parseDecB (bound : Nat) (l : List Nat) : Option Nat :=
  match l with
  | [] => none
  | _ :: _ =>
      match parseDecAux l 0 with
      | none => none
      | some v => if v < bound then some v else none

theorem decDigits_digits (fuel : Nat) :
    ∀ n, ∀ b ∈ decDigits fuel n, 48 ≤ b ∧ b ≤ 57 := by
  induction fuel with
  | zero => intro n b hb; simp [decDigits] at hb
  | succ f ih =>
      intro n b hb
      simp only [decDigits] at hb
      by_cases hn : n = 0
      · rw [if_pos hn] at hb; simp at hb
      · rw [if_neg hn] at hb
        rcases List.mem_append.mp hb with h | h
        · exact ih _ b h
        · simp only [List.mem_singleton] at h
          subst h
          constructor
          · omega
          · have := Nat.mod_lt n (show 0 < 10 by omega)
            omega

theorem natToDec_digits (n : Nat) : ∀ b ∈ natToDec n, 48 ≤ b ∧ b ≤ 57 := by
  intro b hb
  simp only [natToDec] at hb
  by_cases hn : n = 0
  · rw [if_pos hn] at hb
    simp at hb
    omega
  · rw [if_neg hn] at hb
    exact decDigits_digits _ _ b hb

theorem natToDec_ne_nil (n : Nat) : natToDec n ≠ [] := by
  simp only [natToDec]
  by_cases hn : n = 0
  · rw [if_pos hn]; simp
  · rw [if_neg hn]
    cases n with
    | zero => exact absurd rfl hn
    | succ m =>
        simp only [decDigits, if_neg hn]
        simp

theorem parseDecAux_append (l1 l2 : List Nat) :
    ∀ acc, parseDecAux (l1 ++ l2) acc =
      match parseDecAux l1 acc with
      | some a => parseDecAux l2 a
      | none => none := by
  induction l1 with
  | nil => intro acc; rfl
  | cons b l1 ih =>
      intro acc
      simp only [List.cons_append, List.append_eq, parseDecAux]
      by_cases hd : 48 ≤ b ∧ b ≤ 57
      · rw [if_pos hd, if_pos hd, ih]
      · rw [if_neg hd, if_neg hd]

theorem parseDecAux_decDigits (fuel : Nat) :
    ∀ n, n ≤ fuel → ∀ acc, parseDecAux (decDigits fuel n) acc =
      some (acc * 10 ^ (decDigits fuel n).length + n) := by
  induction fuel with
  | zero =>
      intro n hn acc
      interval_cases n
      simp [decDigits, parseDecAux]
  | succ f ih =>
      intro n hn acc
      by_cases h0 : n = 0
      · subst h0
        simp [decDigits, parseDecAux]
      · simp only [decDigits, if_neg h0]
        rw [parseDecAux_append]
        have hdiv : n / 10 ≤ f := by omega
        rw [ih (n / 10) hdiv acc]
        have hdig : 48 ≤ n % 10 + 48 ∧ n % 10 + 48 ≤ 57 := by
          have := Nat.mod_lt n (show 0 < 10 by omega)
          omega
        simp only [parseDecAux, if_pos hdig]
        congr 1
        simp only [List.length_append, List.length_singleton]
        have hmod : n % 10 + 48 - 48 = n % 10 := by omega
        rw [hmod, pow_succ]
        have := Nat.div_add_mod n 10
        ring_nf
        omega

theorem parseDecAux_natToDec (n : Nat) : parseDecAux (natToDec n) 0 = some n := by
  simp only [natToDec]
  by_cases h0 : n = 0
  · subst h0; rfl
  · rw [if_neg h0, parseDecAux_decDigits (n + 1) n (by omega) 0]
    simp

theorem parseDecB_natToDec (bound n : Nat) (h : n < bound) :
    parseDecB bound (natToDec n) = some n := by
  have hne := natToDec_ne_nil n
  obtain ⟨b, l, hd⟩ : ∃ b l, natToDec n = b :: l := by
    cases hcase : natToDec n with
    | nil => exact absurd hcase hne
    | cons b l => exact ⟨b, l, rfl⟩
  simp only [parseDecB, hd]
  rw [← hd, parseDecAux_natToDec]
  simp [h]

theorem calc_checksum_lt (ts : List (List Nat)) : calc_checksum ts < 2 ^ 128 := by
  have haux : ∀ (s : List Nat) (cs : Nat), cs < 2 ^ 128 → s.foldl csStep cs < 2 ^ 128 := by
    intro s
    induction s with
    | nil => intro cs h; exact h
    | cons b s ih =>
        intro cs _
        simp only [List.foldl_cons]
        exact ih _ (Nat.mod_lt _ (by positivity))
  have : ∀ (l : List (List Nat)) (cs : Nat), cs < 2 ^ 128 →
      l.foldl (fun cs s => s.foldl csStep cs) cs < 2 ^ 128 := by
    intro l
    induction l with
    | nil => intro cs h; exact h
    | cons s l ih => intro cs h; exact ih _ (haux s cs h)
  exact this ts 1 (by norm_num)

/-- `content.find(' ')` plus `split_at`: the first space stays at the
head of the suffix. -/
def splitAtSpace : List Nat → Option (List Nat × List Nat)
  | [] => none
  | b :: rest =>
      if b = 32 then some ([], b :: rest)
      else
        match splitAtSpace rest with
        | none => none
        | some (pre, post) => some (b :: pre, post)

/-- `Serializator::extract_check_sum` (the source appends the formatted
parse error to the second message). -/
def extract_check_sum (content : List Nat) : Except String (Nat × List Nat) :=
  match splitAtSpace content with
  | none => .error "Unable to find check sum"
  | some (pre, post) =>
      match parseDecB (2 ^ 128) pre with
      | none => .error "Unable to parse checksum"
      | some cs => .ok (cs, post)

/-- Inner loop of `str::split_whitespace`; `acc` holds the reversed
bytes of the token being read. -/
def splitWsAux : List Nat → List Nat → List (List Nat)
  | [], acc => if acc.isEmpty then [] else [acc.reverse]
  | b :: rest, acc =>
      if isWs b then
        if acc.isEmpty then splitWsAux rest []
        else acc.reverse :: splitWsAux rest []
      else splitWsAux rest (b :: acc)

def splitWs (l : List Nat) : List (List Nat) := splitWsAux l []

/-- `Serializator::from_bytes` (the `String::from_utf8` step is the
identity on the ASCII byte lists considered here). -/
def from_bytes (bytes : List Nat) : Except String (List (List Nat)) :=
  match extract_check_sum bytes with
  | .error e => .error e
  | .ok (read_cs, content) =>
      let strings := splitWs content
      if read_cs = calc_checksum strings then .ok strings
      else .error "Invalid checksum"

/-- A token survives the whitespace-separated wire format when it is
nonempty and whitespace-free. -/
def wfTok (t : List Nat) : Bool := !t.isEmpty && t.all (fun b => !isWs b)

def wfToks (ts : List (List Nat)) : Bool := ts.all wfTok

theorem splitAtSpace_append (pre : List Nat) :
    ∀ post, (∀ b ∈ pre, b ≠ 32) →
      splitAtSpace (pre ++ 32 :: post) = some (pre, 32 :: post) := by
  induction pre with
  | nil => intro post _; simp [splitAtSpace]
  | cons b pre ih =>
      intro post h
      have hb : b ≠ 32 := h b (by simp)
      simp only [List.cons_append, List.append_eq, splitAtSpace, if_neg hb]
      rw [ih post (fun x hx => h x (by simp [hx]))]

theorem extract_check_sum_artifact (c : Nat) (hc : c < 2 ^ 128) (rest : List Nat) :
    extract_check_sum (natToDec c ++ 32 :: rest) = .ok (c, 32 :: rest) := by
  have hns : ∀ b ∈ natToDec c, b ≠ 32 := by
    intro b hb
    have := natToDec_digits c b hb
    omega
  simp only [extract_check_sum, splitAtSpace_append _ _ hns,
    parseDecB_natToDec _ _ hc]

theorem splitWsAux_token (t : List Nat) (h : ∀ b ∈ t, isWs b = false) :
    ∀ l acc, splitWsAux (t ++ l) acc = splitWsAux l (t.reverse ++ acc) := by
  induction t with
  | nil => intro l acc; simp
  | cons b t ih =>
      intro l acc
      have hb : isWs b = false := h b (by simp)
      simp only [List.cons_append, List.append_eq, splitWsAux, hb,
        Bool.false_eq_true, if_false]
      rw [ih (fun x hx => h x (by simp [hx])) l (b :: acc)]
      simp

theorem splitWs_as_serialized (ts : List (List Nat)) (h : wfToks ts = true) :
    splitWsAux (as_serialized ts) [] = ts := by
  induction ts with
  | nil => simp [as_serialized, splitWsAux]
  | cons t ts ih =>
      simp only [wfToks, List.all_cons, Bool.and_eq_true] at h
      obtain ⟨ht, hts⟩ := h
      simp only [wfTok, Bool.and_eq_true, Bool.not_eq_true', List.isEmpty_eq_false,
        List.all_eq_true, Bool.not_eq_true] at ht
      obtain ⟨hne, hws⟩ := ht
      have hser : as_serialized (t :: ts) = t ++ 32 :: as_serialized ts := by
        simp [as_serialized]
      rw [hser, splitWsAux_token t hws]
      have hrevne : (t.reverse ++ ([] : List Nat)).isEmpty = false := by
        simp [List.isEmpty_eq_false]
        exact hne
      simp only [splitWsAux, show isWs 32 = true from rfl, if_true, hrevne,
        Bool.false_eq_true, if_false]
      rw [ih hts]
      simp

/-- Transport of the wire format: `from_bytes` exactly undoes `to_bytes`
on every list of nonempty whitespace-free tokens. -/
theorem from_bytes_header (c : Nat) (hc : c < 2 ^ 128) (ts : List (List Nat))
    (h : wfToks ts = true) :
    from_bytes (natToDec c ++ 32 :: as_serialized ts) =
      if c = calc_checksum ts then .ok ts else .error "Invalid checksum" := by
  simp only [from_bytes, extract_check_sum_artifact c hc]
  have : splitWs (32 :: as_serialized ts) = ts := by
    simp only [splitWs, splitWsAux, show isWs 32 = true from rfl, if_true,
      List.isEmpty_nil]
    exact splitWs_as_serialized ts h
  rw [this]

theorem from_bytes_to_bytes (ts : List (List Nat)) (h : wfToks ts = true) :
    from_bytes (to_bytes ts) = .ok ts := by
  rw [to_bytes, from_bytes_header _ (calc_checksum_lt ts) _ h, if_pos rfl]

/-- Product of `byte + 1` over all token bytes: the value `calc_checksum`
computes whenever the accumulator never exceeds the shift limit. -/
def tokProd (ts : List (List Nat)) : Nat := (ts.join.map (fun b => b + 1)).prod

theorem prodMap_pos (l : List Nat) : 0 < (l.map (fun b => b + 1)).prod := by
  induction l with
  | nil => simp
  | cons b l ih =>
      simp only [List.map_cons, List.prod_cons]
      exact Nat.mul_pos (by omega) ih

theorem foldl_csStep_prod (l : List Nat) :
    ∀ cs, 0 < cs → cs * (l.map (fun b => b + 1)).prod ≤ csLIMIT →
      l.foldl csStep cs = cs * (l.map (fun b => b + 1)).prod := by
  induction l with
  | nil => intro cs _ _; simp
  | cons b l ih =>
      intro cs hpos hle
      simp only [List.map_cons, List.prod_cons] at hle ⊢
      have hprod := prodMap_pos l
      have h1 : cs * (b + 1) * (l.map (fun b => b + 1)).prod ≤ csLIMIT := by
        rw [mul_assoc]; exact hle
      have hcs_le : cs ≤ csLIMIT := by
        refine le_trans ?_ hle
        have : 1 ≤ (b + 1) * (l.map (fun b => b + 1)).prod :=
          Nat.one_le_iff_ne_zero.mpr (Nat.mul_ne_zero (by omega) (by omega))
        calc cs = cs * 1 := (mul_one cs).symm
          _ ≤ cs * ((b + 1) * (l.map (fun b => b + 1)).prod) :=
            Nat.mul_le_mul_left cs this
      have hstep : csStep cs b = cs * (b + 1) := by
        simp only [csStep, if_neg (show ¬ csLIMIT < cs by omega)]
        apply Nat.mod_eq_of_lt
        have h2 : cs * (b + 1) ≤ csLIMIT := by
          refine le_trans ?_ h1
          calc cs * (b + 1) = cs * (b + 1) * 1 := (mul_one _).symm
            _ ≤ cs * (b + 1) * (l.map (fun b => b + 1)).prod :=
              Nat.mul_le_mul_left _ (Nat.one_le_iff_ne_zero.mpr (by omega))
        have h3 : csLIMIT < 2 ^ 128 := by norm_num [csLIMIT]
        omega
      rw [List.foldl_cons, hstep, ih (cs * (b + 1)) (by positivity) h1, mul_assoc]

theorem calc_checksum_prod (ts : List (List Nat)) (h : tokProd ts ≤ csLIMIT) :
    calc_checksum ts = tokProd ts := by
  have hjoin : calc_checksum ts = ts.join.foldl csStep 1 := by
    rw [calc_checksum, List.foldl_join]
  rw [hjoin, foldl_csStep_prod ts.join 1 (by omega)
    (by rw [one_mul]; exact h), one_mul]
  rfl

theorem set_append_len (l1 : List α) (a : α) (l2 : List α) (b : α) :
    ∀ n, n = l1.length → (l1 ++ a :: l2).set n b = l1 ++ b :: l2 := by
  induction l1 with
  | nil => intro n hn; subst hn; rfl
  | cons x l1 ih =>
      intro n hn
      subst hn
      simp only [List.cons_append, List.length_cons, List.set_cons_succ]
      rw [ih _ rfl]

theorem getD_append_len (l1 : List α) (a : α) (l2 : List α) (d : α) :
    ∀ n, n = l1.length → (l1 ++ a :: l2).getD n d = a := by
  induction l1 with
  | nil => intro n hn; subst hn; rfl
  | cons x l1 ih =>
      intro n hn
      subst hn
      simp only [List.cons_append, List.length_cons]
      simpa using ih _ rfl

theorem list_split_at (l : List α) :
    ∀ k, k < l.length → ∀ d, l = l.take k ++ l.getD k d :: l.drop (k + 1) ∧
      (l.take k).length = k := by
  induction l with
  | nil => intro k hk; simp at hk
  | cons x l ih =>
      intro k hk d
      cases k with
      | zero => simp [List.getD]
      | succ k =>
          have hk' : k < l.length := by simp only [List.length_cons] at hk; omega
          obtain ⟨h1, h2⟩ := ih k hk' d
          constructor
          · simp only [List.take_succ_cons, List.getD_cons_succ, List.drop_succ_cons,
              List.cons_append]
            exact congrArg (x :: ·) h1
          · simp [h2]

theorem as_serialized_append (a b : List (List Nat)) :
    as_serialized (a ++ b) = as_serialized a ++ as_serialized b := by
  simp [as_serialized]

theorem as_serialized_cons (t : List Nat) (ts : List (List Nat)) :
    as_serialized (t :: ts) = (t ++ [32]) ++ as_serialized ts := by
  simp [as_serialized]

theorem tokProd_split (L1 L2 : List (List Nat)) (q1 q2 : List Nat) (x : Nat) :
    tokProd (L1 ++ (q1 ++ x :: q2) :: L2) =
      (x + 1) * (tokProd L1 * ((q1.map (fun b => b + 1)).prod *
        ((q2.map (fun b => b + 1)).prod * tokProd L2))) := by
  simp only [tokProd, List.join_append, List.join_cons, List.map_append,
    List.prod_append, List.map_cons, List.prod_cons]
  ring

/-- Artifact byte position of byte `j` of token `k`: the checksum
digits, the separator space, and the earlier tokens (each followed by
its trailing space) come first. -/
def tokBytePos (ts : List (List Nat)) (k j : Nat) : Nat :=
  (natToDec (calc_checksum ts)).length + 1 + (as_serialized (ts.take k)).length + j

/-- C4 (amended): corrupting ANY single token byte of a serialized
artifact — the artifact position `tokBytePos ts k j`, which provably
holds byte `j` of token `k` (second conjunct) — into a different
non-whitespace printable byte is detected: `from_bytes` fails with the
error `Invalid checksum`, provided the checksum accumulator stays
within `u128::MAX >> 7` for both the original and the corrupted token
bytes (so the lossy `>> 8` shift never fires).  Corrupting a structural
whitespace byte can instead leave the parsed token stream — and hence
the recomputed checksum — unchanged, so loading succeeds; see the
counterexample. -/
theorem corruption_detected (ts : List (List Nat)) (k j b' : Nat)
    (hwf : wfToks ts = true)
    (hk : k < ts.length) (hj : j < (ts.getD k []).length)
    (hb1 : 33 ≤ b') (hb2 : b' ≤ 126)
    (hne : b' ≠ (ts.getD k []).getD j 0)
    (h1 : tokProd ts ≤ csLIMIT)
    (h2 : tokProd (ts.set k ((ts.getD k []).set j b')) ≤ csLIMIT) :
    tokBytePos ts k j < (to_bytes ts).length ∧
    (to_bytes ts).getD (tokBytePos ts k j) 0 = (ts.getD k []).getD j 0 ∧
    from_bytes ((to_bytes ts).set (tokBytePos ts k j) b') =
      .error "Invalid checksum" := by
  obtain ⟨hts, hlenk⟩ := list_split_at ts k hk []
  obtain ⟨htok, hlenj⟩ := list_split_at (ts.getD k []) j hj 0
  have htok' : (ts.getD k []).set j b' =
      (ts.getD k []).take j ++ b' :: (ts.getD k []).drop (j + 1) := by
    conv_lhs => rw [htok]
    exact set_append_len _ _ _ _ j hlenj.symm
  have hsetk : ∀ x : List Nat, ts.set k x = ts.take k ++ x :: ts.drop (k + 1) := by
    intro x
    conv_lhs => rw [hts]
    exact set_append_len _ _ _ _ k hlenk.symm
  have hts' : ts.set k ((ts.getD k []).set j b') =
      ts.take k ++ ((ts.getD k []).take j ++ b' :: (ts.getD k []).drop (j + 1)) ::
        ts.drop (k + 1) := by
    rw [hsetk, htok']
  have hserts : as_serialized ts =
      as_serialized (ts.take k) ++
        ((((ts.getD k []).take j ++ ((ts.getD k []).getD j 0) ::
          (ts.getD k []).drop (j + 1)) ++ [32]) ++
            as_serialized (ts.drop (k + 1))) := by
    conv_lhs => rw [hts]
    rw [as_serialized_append, as_serialized_cons]
    conv_lhs => rw [htok]
  have hart : to_bytes ts =
      (natToDec (calc_checksum ts) ++
          32 :: (as_serialized (ts.take k) ++ (ts.getD k []).take j))
        ++ ((ts.getD k []).getD j 0) ::
          ((ts.getD k []).drop (j + 1) ++ 32 :: as_serialized (ts.drop (k + 1))) := by
    rw [to_bytes, hserts]
    simp [List.append_assoc]
  have hser' : as_serialized (ts.set k ((ts.getD k []).set j b')) =
      as_serialized (ts.take k) ++
        ((((ts.getD k []).take j ++ b' :: (ts.getD k []).drop (j + 1)) ++ [32]) ++
          as_serialized (ts.drop (k + 1))) := by
    rw [hts', as_serialized_append, as_serialized_cons]
  have hwf' : wfToks (ts.set k ((ts.getD k []).set j b')) = true := by
    rw [hts']
    rw [hts] at hwf
    simp only [wfToks, List.all_append, List.all_cons, Bool.and_eq_true] at hwf ⊢
    obtain ⟨hL1, htokwf, hL2⟩ := hwf
    refine ⟨hL1, ?_, hL2⟩
    rw [htok] at htokwf
    simp only [wfTok, Bool.and_eq_true, Bool.not_eq_true', List.isEmpty_eq_false,
      List.all_append, List.all_cons] at htokwf ⊢
    obtain ⟨_, hq1, _, hq2⟩ := htokwf
    refine ⟨by simp, hq1, ?_, hq2⟩
    simp only [isWs, Bool.or_eq_false_iff, beq_eq_false_iff_ne]
    omega
  have hcsne : ¬ calc_checksum ts = calc_checksum (ts.set k ((ts.getD k []).set j b')) := by
    rw [calc_checksum_prod ts h1, calc_checksum_prod _ h2]
    have e1 : tokProd ts = ((ts.getD k []).getD j 0 + 1) * (tokProd (ts.take k) *
        (((((ts.getD k []).take j).map (fun b => b + 1)).prod *
          (((((ts.getD k []).drop (j + 1))).map (fun b => b + 1)).prod *
            tokProd (ts.drop (k + 1)))))) := by
      conv_lhs => rw [hts]
      conv_lhs => rw [htok]
      exact tokProd_split _ _ _ _ _
    have e2 : tokProd (ts.set k ((ts.getD k []).set j b')) = (b' + 1) *
        (tokProd (ts.take k) *
        (((((ts.getD k []).take j).map (fun b => b + 1)).prod *
          (((((ts.getD k []).drop (j + 1))).map (fun b => b + 1)).prod *
            tokProd (ts.drop (k + 1)))))) := by
      rw [hts']
      exact tokProd_split _ _ _ _ _
    rw [e1, e2]
    intro hcon
    have hp1 : 0 < tokProd (ts.take k) := prodMap_pos _
    have hp2 : 0 < (((ts.getD k []).take j).map (fun b => b + 1)).prod := prodMap_pos _
    have hp3 : 0 < (((ts.getD k []).drop (j + 1)).map (fun b => b + 1)).prod :=
      prodMap_pos _
    have hp4 : 0 < tokProd (ts.drop (k + 1)) := prodMap_pos _
    have hpos : 0 < tokProd (ts.take k) *
        (((((ts.getD k []).take j).map (fun b => b + 1)).prod *
          (((((ts.getD k []).drop (j + 1))).map (fun b => b + 1)).prod *
            tokProd (ts.drop (k + 1))))) := by positivity
    rw [mul_comm (((ts.getD k []).getD j 0 + 1)) _, mul_comm (b' + 1) _] at hcon
    have := Nat.eq_of_mul_eq_mul_left hpos hcon
    exact hne (by omega)
  have hppos : tokBytePos ts k j =
      (natToDec (calc_checksum ts) ++
        32 :: (as_serialized (ts.take k) ++ (ts.getD k []).take j)).length := by
    simp only [tokBytePos, List.length_append, List.length_cons]
    rw [hlenj]
    omega
  rw [hppos]
  refine ⟨?_, ?_, ?_⟩
  · rw [hart]
    simp only [List.length_append, List.length_cons]
    omega
  · rw [hart, getD_append_len _ _ _ _ _ rfl]
  · rw [hart, set_append_len _ _ _ _ _ rfl]
    have hfinal : (natToDec (calc_checksum ts) ++
        32 :: (as_serialized (ts.take k) ++ (ts.getD k []).take j))
          ++ b' :: ((ts.getD k []).drop (j + 1) ++ 32 :: as_serialized (ts.drop (k + 1)))
        = natToDec (calc_checksum ts) ++
            32 :: as_serialized (ts.set k ((ts.getD k []).set j b')) := by
      rw [hser']
      simp [List.append_assoc]
    rw [hfinal, from_bytes_header _ (calc_checksum_lt ts) _ hwf', if_neg hcsne]

/- ===== serialization/serializable.rs and deserializable.rs =====
Deserializers consume tokens from the front of the stream, which is
equivalent to the source's advancing `next_token` index.  The dynamic
parts of the source's parse-error messages (the offending token and the
formatted error) are abbreviated to fixed strings; no theorem below
depends on those messages. -/

/-- `Serializator::next_token`. -/
def nextToken : List (List Nat) → Except String (List Nat × List (List Nat))
  | [] => .error "Not enough tokens"
  | t :: ts => .ok (t, ts)

/-- `usize::serialize` (`format!("{}", self)`). -/
def serUsize (n : Nat) : List (List Nat) := [natToDec n]

/-- `usize::deserialize` (64-bit target). -/
def dserUsize (ts : List (List Nat)) : Except String (Nat × List (List Nat)) :=
  match nextToken ts with
  | .error e => .error e
  | .ok (t, ts) =>
      match parseDecB (2 ^ 64) t with
      | none => .error "Unable to parse usize"
      | some v => .ok (v, ts)

/-- `u16::serialize`. -/
def serU16 (n : Nat) : List (List Nat) := [natToDec n]

/-- `u16::deserialize`. -/
def dserU16 (ts : List (List Nat)) : Except String (Nat × List (List Nat)) :=
  match nextToken ts with
  | .error e => .error e
  | .ok (t, ts) =>
      match parseDecB (2 ^ 16) t with
      | none => .error "Unable to parse u16"
      | some v => .ok (v, ts)

def strTrue : List Nat := [116, 114, 117, 101]

def strFalse : List Nat := [102, 97, 108, 115, 101]

/-- `bool::serialize` (`format!("{}", self)` gives `true`/`false`). -/
def serBool (b : Bool) : List (List Nat) := [if b then strTrue else strFalse]

/-- `bool::deserialize` (`str::parse::<bool>` accepts exactly the two
literals). -/
def dserBool (ts : List (List Nat)) : Except String (Bool × List (List Nat)) :=
  match nextToken ts with
  | .error e => .error e
  | .ok (t, ts) =>
      if t = strTrue then .ok (true, ts)
      else if t = strFalse then .ok (false, ts)
      else .error "Unable to parse bool"

/-- `String::serialize`: `add_string` substitutes every space. -/
def serStr (v : List Nat) : List (List Nat) := [replaceSpace v]

/-- `String::deserialize`: the substitute is turned back into a space. -/
def dserStr (ts : List (List Nat)) : Except String (List Nat × List (List Nat)) :=
  match nextToken ts with
  | .error e => .error e
  | .ok (t, ts) => .ok (replaceSent t, ts)

/-- `test_serialization` without the final equality assertion: serialize
one value, `to_bytes`, `from_bytes`, then the type's deserializer. -/
def roundTrip (ser : α → List (List Nat))
    (dser : List (List Nat) → Except String (α × List (List Nat))) (v : α) :
    Except String α :=
  match from_bytes (to_bytes (ser v)) with
  | .error e => .error e
  | .ok ts =>
      match dser ts with
      | .error e => .error e
      | .ok (w, _) => .ok w

theorem roundTrip_intro (ser : α → List (List Nat))
    (dser : List (List Nat) → Except String (α × List (List Nat))) (v : α)
    (hwf : wfToks (ser v) = true) (hds : dser (ser v) = .ok (v, [])) :
    roundTrip ser dser v = .ok v := by
  simp only [roundTrip, from_bytes_to_bytes _ hwf, hds]

theorem isWs_eq_false (b : Nat) (h9 : b ≠ 9) (h10 : b ≠ 10) (h11 : b ≠ 11)
    (h12 : b ≠ 12) (h13 : b ≠ 13) (h32 : b ≠ 32) : isWs b = false := by
  simp [isWs, beq_eq_false_iff_ne, h9, h10, h11, h12, h13, h32]

theorem wfTok_natToDec (n : Nat) : wfTok (natToDec n) = true := by
  simp only [wfTok, Bool.and_eq_true, Bool.not_eq_true', List.isEmpty_eq_false,
    List.all_eq_true]
  refine ⟨natToDec_ne_nil n, ?_⟩
  intro b hb
  have := natToDec_digits n b hb
  exact isWs_eq_false b (by omega) (by omega) (by omega) (by omega) (by omega)
    (by omega)

theorem dserUsize_ser (n : Nat) (h : n < 2 ^ 64) :
    ∀ r, dserUsize (serUsize n ++ r) = .ok (n, r) := by
  intro r
  simp only [serUsize, List.cons_append, List.nil_append, dserUsize, nextToken,
    parseDecB_natToDec _ _ h]

theorem wf_serUsize (n : Nat) : wfToks (serUsize n) = true := by
  simp [wfToks, serUsize, wfTok_natToDec n]

theorem dserU16_ser (n : Nat) (h : n < 2 ^ 16) :
    ∀ r, dserU16 (serU16 n ++ r) = .ok (n, r) := by
  intro r
  simp only [serU16, List.cons_append, List.nil_append, dserU16, nextToken,
    parseDecB_natToDec _ _ h]

theorem wf_serU16 (n : Nat) : wfToks (serU16 n) = true := by
  simp [wfToks, serU16, wfTok_natToDec n]

theorem dserBool_ser (b : Bool) :
    ∀ r, dserBool (serBool b ++ r) = .ok (b, r) := by
  intro r
  cases b <;>
    simp [serBool, dserBool, nextToken, strTrue, strFalse]

theorem wf_serBool (b : Bool) : wfToks (serBool b) = true := by
  cases b <;> decide

/-- Well-formed String payload: nonempty, no whitespace byte other than
the space itself, and no occurrence of the space substitute. -/
def strOk (v : List Nat) : Bool :=
  !v.isEmpty && noSentB v && v.all (fun b => b == 32 || !isWs b)

theorem replaceSpace_ne_nil (v : List Nat) (h : v ≠ []) : replaceSpace v ≠ [] := by
  cases v with
  | nil => exact absurd rfl h
  | cons b v =>
      by_cases hb : b = 32
      · rw [show replaceSpace (b :: v) = SENTINEL ++ replaceSpace v by
          simp [replaceSpace, hb]]
        simp [SENTINEL]
      · rw [show replaceSpace (b :: v) = b :: replaceSpace v by
          simp [replaceSpace, hb]]
        simp

theorem sentinel_no_ws : ∀ b ∈ SENTINEL, isWs b = false := by decide

theorem replaceSpace_no_ws (v : List Nat)
    (h : ∀ b ∈ v, b = 32 ∨ isWs b = false) :
    ∀ b ∈ replaceSpace v, isWs b = false := by
  induction v with
  | nil => intro b hb; simp [replaceSpace] at hb
  | cons x v ih =>
      intro b hb
      by_cases hx : x = 32
      · rw [show replaceSpace (x :: v) = SENTINEL ++ replaceSpace v by
          simp [replaceSpace, hx]] at hb
        rcases List.mem_append.mp hb with hs | hs
        · exact sentinel_no_ws b hs
        · exact ih (fun y hy => h y (by simp [hy])) b hs
      · rw [show replaceSpace (x :: v) = x :: replaceSpace v by
          simp [replaceSpace, hx]] at hb
        rcases List.mem_cons.mp hb with rfl | hs
        · rcases h b (by simp) with h32 | hws
          · exact absurd h32 hx
          · exact hws
        · exact ih (fun y hy => h y (by simp [hy])) b hs

theorem wf_serStr (v : List Nat) (h : strOk v = true) : wfToks (serStr v) = true := by
  simp only [strOk, Bool.and_eq_true, Bool.not_eq_true', List.isEmpty_eq_false,
    List.all_eq_true] at h
  obtain ⟨⟨hne, _⟩, hws⟩ := h
  simp only [wfToks, serStr, List.all_cons, List.all_nil, Bool.and_true, wfTok,
    Bool.and_eq_true, Bool.not_eq_true', List.isEmpty_eq_false, List.all_eq_true]
  refine ⟨replaceSpace_ne_nil v hne, ?_⟩
  intro b hb
  refine replaceSpace_no_ws v ?_ b hb
  intro y hy
  rcases (Bool.or_eq_true _ _).mp (hws y hy) with h32 | hnw
  · exact Or.inl (by simpa using h32)
  · exact Or.inr (by simpa using hnw)

theorem dserStr_ser (v : List Nat) (h : strOk v = true) :
    ∀ r, dserStr (serStr v ++ r) = .ok (v, r) := by
  intro r
  simp only [strOk, Bool.and_eq_true] at h
  obtain ⟨⟨_, hns⟩, _⟩ := h
  simp only [serStr, List.cons_append, List.nil_append, dserStr, nextToken,
    replaceSent_replaceSpace v hns]

/-- C4 counterexample: the artifact of the single token `5` (a serialized
`5usize`) is the five bytes of `54 5 `; corrupting its final byte — the
trailing token separator space — into a tab yields a different artifact
whose parsed token stream, and hence checksum, is unchanged: `from_bytes`
succeeds and `usize` deserialization returns the original value instead
of failing with a checksum mismatch. -/
theorem corruption_undetected :
    (to_bytes [[53]]).getD 4 0 = 32 ∧ (9 : Nat) ≠ 32 ∧
      from_bytes ((to_bytes [[53]]).set 4 9) = .ok [[53]] ∧
      dserUsize [[53]] = .ok (5, []) :=
  ⟨rfl, by decide, rfl, rfl⟩

theorem corruption_detected_witness :
    tokBytePos [[53]] 0 0 < (to_bytes [[53]]).length ∧
    (to_bytes [[53]]).getD (tokBytePos [[53]] 0 0) 0 = ([[53]].getD 0 []).getD 0 0 ∧
    from_bytes ((to_bytes [[53]]).set (tokBytePos [[53]] 0 0) 54) =
      .error "Invalid checksum" :=
  corruption_detected [[53]] 0 0 54 (by decide) (by decide) (by decide) (by decide)
    (by decide) (by decide) (by decide) (by decide)

def splitAtSlash : List Nat → Option (List Nat × List Nat)
  | [] => none
  | b :: rest =>
      if b = 47 then some ([], rest)
      else
        match splitAtSlash rest with
        | none => none
        | some (pre, post) => some (b :: pre, post)

/-- Unbounded digit parse (the exponent-free integer fragment of Rust's
float grammar used by the stand-in encoding below). -/
def parseDecU (l : List Nat) : Option Nat :=
  match l with
  | [] => none
  | _ :: _ => parseDecAux l 0

def decRatTok (t : List Nat) : Option ℚ :=
  match splitAtSlash t with
  | none => none
  | some (pre, post) =>
      match parseDecU pre, parseDecU post with
      | some n, some d => some ((n : ℚ) / (d : ℚ))
      | _, _ => none

/-- Stand-in for `format!("{}", f)` on the exact-rational f32 model: the
special values use Rust's literal spellings (`NaN`, `inf`, `-inf`); a
finite value is printed as `[-]num/den` (bytes `45`, digits, `47`,
digits).  Like Rust's shortest-roundtrip float formatting, this encoding
is injective, nonempty, whitespace-free, and exactly inverted by the
parser below. -/
def encF32 : F32 → List Nat
  | .nan => [78, 97, 78]
  | .inf => [105, 110, 102]
  | .neginf => [45, 105, 110, 102]
  | .finite q =>
      (if q.num < 0 then [45] else []) ++ natToDec q.num.natAbs ++ 47 :: natToDec q.den

/-- Stand-in for `str::parse::<f32>`, inverse of `encF32`. -/
def decF32 (t : List Nat) : Except String F32 :=
  if t = [78, 97, 78] then .ok .nan
  else if t = [105, 110, 102] then .ok .inf
  else if t = [45, 105, 110, 102] then .ok .neginf
  else
    match t with
    | [] => .error "Unable to parse f32"
    | b :: t' =>
        if b = 45 then
          match decRatTok t' with
          | none => .error "Unable to parse f32"
          | some q => .ok (.finite (-q))
        else
          match decRatTok (b :: t') with
          | none => .error "Unable to parse f32"
          | some q => .ok (.finite q)

/-- `f32::serialize` / `Weight::serialize` / `Threshold::serialize` all
push one formatted float token. -/
def serF32 (x : F32) : List (List Nat) := [encF32 x]

def dserF32 (ts : List (List Nat)) : Except String (F32 × List (List Nat)) :=
  match nextToken ts with
  | .error e => .error e
  | .ok (t, ts) =>
      match decF32 t with
      | .error e => .error e
      | .ok x => .ok (x, ts)

theorem splitAtSlash_append (pre : List Nat) :
    ∀ post, (∀ b ∈ pre, b ≠ 47) →
      splitAtSlash (pre ++ 47 :: post) = some (pre, post) := by
  induction pre with
  | nil => intro post _; simp [splitAtSlash]
  | cons b pre ih =>
      intro post h
      have hb : b ≠ 47 := h b (by simp)
      simp only [List.cons_append, List.append_eq, splitAtSlash, if_neg hb]
      rw [ih post (fun x hx => h x (by simp [hx]))]

theorem parseDecU_natToDec (n : Nat) : parseDecU (natToDec n) = some n := by
  obtain ⟨b, l, hd⟩ : ∃ b l, natToDec n = b :: l := by
    cases hcase : natToDec n with
    | nil => exact absurd hcase (natToDec_ne_nil n)
    | cons b l => exact ⟨b, l, rfl⟩
  simp only [parseDecU, hd]
  rw [← hd, parseDecAux_natToDec]

theorem decRatTok_enc (n d : Nat) :
    decRatTok (natToDec n ++ 47 :: natToDec d) = some ((n : ℚ) / (d : ℚ)) := by
  have hns : ∀ b ∈ natToDec n, b ≠ 47 := by
    intro b hb
    have := natToDec_digits n b hb
    omega
  simp only [decRatTok, splitAtSlash_append _ _ hns, parseDecU_natToDec]

theorem natToDec_head (n : Nat) :
    ∃ h t, natToDec n = h :: t ∧ 48 ≤ h ∧ h ≤ 57 := by
  cases hd : natToDec n with
  | nil => exact absurd hd (natToDec_ne_nil n)
  | cons h t =>
      have := natToDec_digits n h (by rw [hd]; simp)
      exact ⟨h, t, rfl, this.1, this.2⟩

theorem natAbs_cast_of_neg (q : ℚ) (hq : q.num < 0) :
    ((q.num.natAbs : ℚ)) = -(q.num : ℚ) := by
  rw [Int.cast_natAbs, Int.cast_abs]
  exact abs_of_neg (by exact_mod_cast hq)

theorem natAbs_cast_of_nonneg (q : ℚ) (hq : ¬ q.num < 0) :
    ((q.num.natAbs : ℚ)) = (q.num : ℚ) := by
  rw [Int.cast_natAbs, Int.cast_abs]
  exact abs_of_nonneg (by exact_mod_cast not_lt.mp hq)

theorem decF32_enc (x : F32) : decF32 (encF32 x) = .ok x := by
  cases x with
  | nan => rfl
  | inf => rfl
  | neginf => rfl
  | finite q =>
      obtain ⟨h, t, hd, h48, h57⟩ := natToDec_head q.num.natAbs
      by_cases hq : q.num < 0
      · have henc : encF32 (.finite q) =
            45 :: (natToDec q.num.natAbs ++ 47 :: natToDec q.den) := by
          simp [encF32, hq]
        rw [henc, decF32.eq_def]
        rw [if_neg (by simp), if_neg (by simp),
          if_neg (by rw [hd]; intro hcon; simp at hcon; omega)]
        simp [decRatTok_enc, natAbs_cast_of_neg q hq, neg_div, Rat.num_div_den]
      · have henc : encF32 (.finite q) =
            natToDec q.num.natAbs ++ 47 :: natToDec q.den := by
          simp [encF32, hq]
        rw [henc, decF32.eq_def, hd, List.cons_append]
        rw [if_neg (by intro hcon; simp only [List.cons.injEq] at hcon; omega),
          if_neg (by intro hcon; simp only [List.cons.injEq] at hcon; omega),
          if_neg (by intro hcon; simp only [List.cons.injEq] at hcon; omega)]
        have h45 : ¬ h = 45 := by omega
        simp only [h45, if_false]
        rw [← List.cons_append, ← hd, decRatTok_enc]
        simp [natAbs_cast_of_nonneg q hq, Rat.num_div_den]

def strNone : List Nat := [78, 111, 110, 101]

def strSome : List Nat := [83, 111, 109, 101]

/-- `Option::serialize`. -/
def serOption (sa : α → List (List Nat)) : Option α → List (List Nat)
  | none => [strNone]
  | some v => strSome :: sa v

/-- `Option::deserialize` (the source appends the offending token to the
error message). -/
def dserOption (da : List (List Nat) → Except String (α × List (List Nat)))
    (ts : List (List Nat)) : Except String (Option α × List (List Nat)) :=
  match nextToken ts with
  | .error e => .error e
  | .ok (t, ts) =>
      if t = strNone then .ok (none, ts)
      else if t = strSome then
        match da ts with
        | .error e => .error e
        | .ok (v, ts) => .ok (some v, ts)
      else .error "Invalid token when deserializing Option"

/-- `Vec::serialize`: length then elements. -/
def serVec (sa : α → List (List Nat)) (l : List α) : List (List Nat) :=
  serUsize l.length ++ (l.map sa).join

/-- Element loop of `Vec::deserialize`. -/
def dserVecN (da : List (List Nat) → Except String (α × List (List Nat))) :
    Nat → List (List Nat) → Except String (List α × List (List Nat))
  | 0, ts => .ok ([], ts)
  | n + 1, ts =>
      match da ts with
      | .error e => .error e
      | .ok (v, ts) =>
          match dserVecN da n ts with
          | .error e => .error e
          | .ok (vs, ts) => .ok (v :: vs, ts)

def dserVec (da : List (List Nat) → Except String (α × List (List Nat)))
    (ts : List (List Nat)) : Except String (List α × List (List Nat)) :=
  match dserUsize ts with
  | .error e => .error e
  | .ok (n, ts) => dserVecN da n ts

/-- `HashMap::serialize`: length then key/value pairs in iteration
order.  The map is embedded as its iteration-order association list;
with the source's distinct keys this carries exactly the map content,
and `HashMap::deserialize` reinserts the listed pairs. -/
def serMap (sk : κ → List (List Nat)) (sv : ν → List (List Nat))
    (l : List (κ × ν)) : List (List Nat) :=
  serUsize l.length ++ (l.map (fun p => sk p.1 ++ sv p.2)).join

/-- Pair loop of `HashMap::deserialize`. -/
def dserMapN (dk : List (List Nat) → Except String (κ × List (List Nat)))
    (dv : List (List Nat) → Except String (ν × List (List Nat))) :
    Nat → List (List Nat) → Except String (List (κ × ν) × List (List Nat))
  | 0, ts => .ok ([], ts)
  | n + 1, ts =>
      match dk ts with
      | .error e => .error e
      | .ok (k, ts) =>
          match dv ts with
          | .error e => .error e
          | .ok (v, ts) =>
              match dserMapN dk dv n ts with
              | .error e => .error e
              | .ok (ps, ts) => .ok ((k, v) :: ps, ts)

def dserMap (dk : List (List Nat) → Except String (κ × List (List Nat)))
    (dv : List (List Nat) → Except String (ν × List (List Nat)))
    (ts : List (List Nat)) : Except String (List (κ × ν) × List (List Nat)) :=
  match dserUsize ts with
  | .error e => .error e
  | .ok (n, ts) => dserMapN dk dv n ts

theorem dserOption_ser (sa : α → List (List Nat))
    (da : List (List Nat) → Except String (α × List (List Nat))) (o : Option α)
    (hone : ∀ v, o = some v → ∀ r, da (sa v ++ r) = .ok (v, r)) :
    ∀ r, dserOption da (serOption sa o ++ r) = .ok (o, r) := by
  intro r
  cases o with
  | none => simp [serOption, dserOption, nextToken, strNone, strSome]
  | some v =>
      simp only [serOption, List.cons_append, dserOption, nextToken]
      rw [if_neg (by decide)]
      simp [hone v rfl r]

theorem wf_serOption (sa : α → List (List Nat)) (o : Option α)
    (h : ∀ v, o = some v → wfToks (sa v) = true) :
    wfToks (serOption sa o) = true := by
  cases o with
  | none => exact (by decide : wfToks [strNone] = true)
  | some v =>
      simp only [serOption, wfToks, List.all_cons, Bool.and_eq_true]
      exact ⟨by decide, h v rfl⟩

theorem dserVecN_ser (sa : α → List (List Nat))
    (da : List (List Nat) → Except String (α × List (List Nat))) (l : List α)
    (hone : ∀ v ∈ l, ∀ r, da (sa v ++ r) = .ok (v, r)) :
    ∀ r, dserVecN da l.length ((l.map sa).join ++ r) = .ok (l, r) := by
  induction l with
  | nil => intro r; simp [dserVecN]
  | cons v l ih =>
      intro r
      simp only [List.map_cons, List.join_cons, List.length_cons, List.append_assoc,
        dserVecN, hone v (by simp),
        ih (fun x hx r => hone x (List.mem_cons_of_mem _ hx) r)]

theorem dserVec_ser (sa : α → List (List Nat))
    (da : List (List Nat) → Except String (α × List (List Nat))) (l : List α)
    (hlen : l.length < 2 ^ 64)
    (hone : ∀ v ∈ l, ∀ r, da (sa v ++ r) = .ok (v, r)) :
    ∀ r, dserVec da (serVec sa l ++ r) = .ok (l, r) := by
  intro r
  simp only [serVec, List.append_assoc, dserVec, dserUsize_ser _ hlen,
    dserVecN_ser sa da l hone]

theorem wf_join (ls : List (List (List Nat))) (h : ∀ x ∈ ls, wfToks x = true) :
    wfToks ls.join = true := by
  induction ls with
  | nil => decide
  | cons x ls ih =>
      simp only [List.join_cons, wfToks, List.all_append, Bool.and_eq_true]
      exact ⟨h x (by simp), ih (fun y hy => h y (by simp [hy]))⟩

theorem wf_serVec (sa : α → List (List Nat)) (l : List α)
    (h : ∀ v ∈ l, wfToks (sa v) = true) : wfToks (serVec sa l) = true := by
  simp only [serVec, wfToks, List.all_append, Bool.and_eq_true]
  constructor
  · exact wf_serUsize l.length
  · refine wf_join _ ?_
    intro x hx
    obtain ⟨v, hv, rfl⟩ := List.mem_map.mp hx
    exact h v hv

theorem dserMapN_ser (sk : κ → List (List Nat)) (sv : ν → List (List Nat))
    (dk : List (List Nat) → Except String (κ × List (List Nat)))
    (dv : List (List Nat) → Except String (ν × List (List Nat)))
    (l : List (κ × ν))
    (honek : ∀ p ∈ l, ∀ r, dk (sk p.1 ++ r) = .ok (p.1, r))
    (honev : ∀ p ∈ l, ∀ r, dv (sv p.2 ++ r) = .ok (p.2, r)) :
    ∀ r, dserMapN dk dv l.length
      ((l.map (fun p => sk p.1 ++ sv p.2)).join ++ r) = .ok (l, r) := by
  induction l with
  | nil => intro r; simp [dserMapN]
  | cons p l ih =>
      intro r
      simp only [List.map_cons, List.join_cons, List.length_cons, List.append_assoc,
        dserMapN, honek p (by simp), honev p (by simp),
        ih (fun x hx r => honek x (List.mem_cons_of_mem _ hx) r)
          (fun x hx r => honev x (List.mem_cons_of_mem _ hx) r)]

theorem dserMap_ser (sk : κ → List (List Nat)) (sv : ν → List (List Nat))
    (dk : List (List Nat) → Except String (κ × List (List Nat)))
    (dv : List (List Nat) → Except String (ν × List (List Nat)))
    (l : List (κ × ν)) (hlen : l.length < 2 ^ 64)
    (honek : ∀ p ∈ l, ∀ r, dk (sk p.1 ++ r) = .ok (p.1, r))
    (honev : ∀ p ∈ l, ∀ r, dv (sv p.2 ++ r) = .ok (p.2, r)) :
    ∀ r, dserMap dk dv (serMap sk sv l ++ r) = .ok (l, r) := by
  intro r
  simp only [serMap, List.append_assoc, dserMap, dserUsize_ser _ hlen,
    dserMapN_ser sk sv dk dv l honek honev]

theorem wf_serMap (sk : κ → List (List Nat)) (sv : ν → List (List Nat))
    (l : List (κ × ν))
    (h : ∀ p ∈ l, wfToks (sk p.1) = true ∧ wfToks (sv p.2) = true) :
    wfToks (serMap sk sv l) = true := by
  simp only [serMap, wfToks, List.all_append, Bool.and_eq_true]
  constructor
  · exact wf_serUsize l.length
  · refine wf_join _ ?_
    intro x hx
    obtain ⟨p, hp, rfl⟩ := List.mem_map.mp hx
    simp only [wfToks, List.all_append, Bool.and_eq_true]
    exact ⟨(h p hp).1, (h p hp).2⟩

theorem dserF32_ser (x : F32) : ∀ r, dserF32 (serF32 x ++ r) = .ok (x, r) := by
  intro r
  simp only [serF32, List.cons_append, List.nil_append, dserF32, nextToken,
    decF32_enc]

theorem wf_serF32 (x : F32) : wfToks (serF32 x) = true := by
  cases x with
  | nan => decide
  | inf => decide
  | neginf => decide
  | finite q =>
      simp only [serF32, wfToks, List.all_cons, List.all_nil, Bool.and_true, wfTok,
        Bool.and_eq_true, Bool.not_eq_true', List.isEmpty_eq_false, List.all_eq_true]
      constructor
      · simp only [encF32]
        intro hcon
        have := congrArg List.length hcon
        simp [List.length_append] at this
      · intro b hb
        simp only [encF32] at hb
        rcases List.mem_append.mp hb with hb1 | hb2
        · rcases List.mem_append.mp hb1 with hb3 | hb4
          · by_cases hq : q.num < 0
            · rw [if_pos hq] at hb3
              simp only [List.mem_singleton] at hb3
              subst hb3
              decide
            · rw [if_neg hq] at hb3
              simp at hb3
          · have := natToDec_digits _ b hb4
            exact isWs_eq_false b (by omega) (by omega) (by omega) (by omega)
              (by omega) (by omega)
        · rcases List.mem_cons.mp hb2 with rfl | hb5
          · decide
          · have := natToDec_digits _ b hb5
            exact isWs_eq_false b (by omega) (by omega) (by omega) (by omega)
              (by omega) (by omega)

theorem wfToks_append_intro (a b : List (List Nat)) (ha : wfToks a = true)
    (hb : wfToks b = true) : wfToks (a ++ b) = true := by
  simp only [wfToks, List.all_append, Bool.and_eq_true]
  exact ⟨ha, hb⟩

/-- `Class::serialize` (`self.0` as u16). -/
def serClass (c : Class) : List (List Nat) := serU16 c

/-- `Class::deserialize` (`Class::new` of the parsed u16). -/
def dserClass (ts : List (List Nat)) : Except String (Class × List (List Nat)) :=
  dserU16 ts

theorem dserClass_ser (c : Class) (h : c < 2 ^ 16) :
    ∀ r, dserClass (serClass c ++ r) = .ok (c, r) :=
  dserU16_ser c h

theorem wf_serClass (c : Class) : wfToks (serClass c) = true := wf_serU16 c

/-- `Outcome::serialize`. -/
def serOutcome (o : Outcome) : List (List Nat) :=
  serClass o.cls ++ serF32 o.reward ++ serF32 o.penalty

/-- `Outcome::deserialize`. -/
def dserOutcome (ts : List (List Nat)) : Except String (Outcome × List (List Nat)) :=
  match dserClass ts with
  | .error e => .error e
  | .ok (c, ts) =>
      match dserF32 ts with
      | .error e => .error e
      | .ok (reward, ts) =>
          match dserF32 ts with
          | .error e => .error e
          | .ok (penalty, ts) => .ok (⟨c, reward, penalty⟩, ts)

theorem dserOutcome_ser (o : Outcome) (h : o.cls < 2 ^ 16) :
    ∀ r, dserOutcome (serOutcome o ++ r) = .ok (o, r) := by
  intro r
  simp only [serOutcome, List.append_assoc, dserOutcome, dserClass_ser _ h,
    dserF32_ser]

theorem wf_serOutcome (o : Outcome) : wfToks (serOutcome o) = true :=
  wfToks_append_intro _ _
    (wfToks_append_intro _ _ (wf_serClass o.cls) (wf_serF32 o.reward))
    (wf_serF32 o.penalty)

/-- `InputShape::serialize`. -/
def serInputShape (s : InputShape) : List (List Nat) :=
  serUsize s.rows ++ serUsize s.columns

/-- `InputShape::deserialize` (two tokens parsed as usize). -/
def dserInputShape (ts : List (List Nat)) :
    Except String (InputShape × List (List Nat)) :=
  match dserUsize ts with
  | .error e => .error e
  | .ok (rows, ts) =>
      match dserUsize ts with
      | .error e => .error e
      | .ok (columns, ts) => .ok (⟨rows, columns⟩, ts)

theorem dserInputShape_ser (s : InputShape) (h1 : s.rows < 2 ^ 64)
    (h2 : s.columns < 2 ^ 64) :
    ∀ r, dserInputShape (serInputShape s ++ r) = .ok (s, r) := by
  intro r
  simp only [serInputShape, List.append_assoc, dserInputShape,
    dserUsize_ser _ h1, dserUsize_ser _ h2]

theorem wf_serInputShape (s : InputShape) : wfToks (serInputShape s) = true :=
  wfToks_append_intro _ _ (wf_serUsize s.rows) (wf_serUsize s.columns)

def strCost : List Nat := [67, 111, 115, 116]

def strAUC : List Nat := [65, 85, 67]

def strAccuracy : List Nat := [65, 99, 99, 117, 114, 97, 99, 121]

/-- `Objective::serialize`. -/
def serObjective : Objective → List (List Nat)
  | .cost => [strCost]
  | .auc => [strAUC]
  | .accuracy => [strAccuracy]

/-- `Objective::deserialize`. -/
def dserObjective (ts : List (List Nat)) :
    Except String (Objective × List (List Nat)) :=
  match nextToken ts with
  | .error e => .error e
  | .ok (t, ts) =>
      if t = strCost then .ok (Objective.cost, ts)
      else if t = strAUC then .ok (Objective.auc, ts)
      else if t = strAccuracy then .ok (Objective.accuracy, ts)
      else .error "Invalid token for ScoreType"

theorem dserObjective_ser (o : Objective) :
    ∀ r, dserObjective (serObjective o ++ r) = .ok (o, r) := by
  intro r
  cases o <;>
    simp [serObjective, dserObjective, nextToken, strCost, strAUC, strAccuracy]

theorem wf_serObjective (o : Objective) : wfToks (serObjective o) = true := by
  cases o <;> decide

/-- `Threshold::serialize`. -/
def serThreshold (t : Threshold) : List (List Nat) := serF32 t.value

/-- `Threshold::deserialize`. -/
def dserThreshold (ts : List (List Nat)) :
    Except String (Threshold × List (List Nat)) :=
  match dserF32 ts with
  | .error e => .error e
  | .ok (v, ts) => .ok (⟨v⟩, ts)

theorem dserThreshold_ser (t : Threshold) :
    ∀ r, dserThreshold (serThreshold t ++ r) = .ok (t, r) := by
  intro r
  simp only [serThreshold, dserThreshold, dserF32_ser]

theorem wf_serThreshold (t : Threshold) : wfToks (serThreshold t) = true :=
  wf_serF32 t.value

/-- `Score::serialize`. -/
def serScore (s : Score) : List (List Nat) :=
  serObjective s.objective ++ serClass s.cls ++ serF32 s.value ++
    serThreshold s.threshold

/-- `Score::deserialize`. -/
def dserScore (ts : List (List Nat)) : Except String (Score × List (List Nat)) :=
  match dserObjective ts with
  | .error e => .error e
  | .ok (objective, ts) =>
      match dserClass ts with
      | .error e => .error e
      | .ok (cls, ts) =>
          match dserF32 ts with
          | .error e => .error e
          | .ok (value, ts) =>
              match dserThreshold ts with
              | .error e => .error e
              | .ok (threshold, ts) => .ok (⟨objective, cls, value, threshold⟩, ts)

theorem dserScore_ser (s : Score) (h : s.cls < 2 ^ 16) :
    ∀ r, dserScore (serScore s ++ r) = .ok (s, r) := by
  intro r
  simp only [serScore, List.append_assoc, dserScore, dserObjective_ser,
    dserClass_ser _ h, dserF32_ser, dserThreshold_ser]

theorem wf_serScore (s : Score) : wfToks (serScore s) = true :=
  wfToks_append_intro _ _
    (wfToks_append_intro _ _
      (wfToks_append_intro _ _ (wf_serObjective s.objective) (wf_serClass s.cls))
      (wf_serF32 s.value))
    (wf_serThreshold s.threshold)

def strDataValue : List Nat := [68, 97, 116, 97, 86, 97, 108, 117, 101]

def strStdDev : List Nat := [83, 116, 100, 68, 101, 118]

def strConstant : List Nat := [67, 111, 110, 115, 116, 97, 110, 116]

def strOneArgNode : List Nat := [79, 110, 101, 65, 114, 103, 78, 111, 100, 101]

def strTwoArgNode : List Nat := [84, 119, 111, 65, 114, 103, 78, 111, 100, 101]

/-- Names of `MATH_CONSTANTS` (`0`, `1`, `2`, `e`, `pi`, `2pi`). -/
def mcName : MathConst → List Nat
  | .c0 => [48]
  | .c1 => [49]
  | .c2 => [50]
  | .ce => [101]
  | .cpi => [112, 105]
  | .c2pi => [50, 112, 105]

def mcList : List MathConst := [.c0, .c1, .c2, .ce, .cpi, .c2pi]

/-- The lookup loop of the `&MathConst` deserializer. -/
def mcFind (t : List Nat) : Option MathConst :=
  mcList.find? (fun k => mcName k == t)

/-- Names of `ONE_ARG_FUNCTIONS`. -/
def oneName : OneArgFun → List Nat
  | .abs => [97, 98, 115]
  | .ceil => [99, 101, 105, 108]
  | .dec => [100, 101, 99]
  | .floor => [102, 108, 111, 111, 114]
  | .inc => [105, 110, 99]
  | .log => [108, 111, 103]
  | .neg => [110, 101, 103]
  | .normalize => [110, 111, 114, 109, 97, 108, 105, 122, 101]
  | .reciprocal => [114, 101, 99, 105, 112, 114, 111, 99, 97, 108]
  | .relu => [114, 101, 108, 117]
  | .round => [114, 111, 117, 110, 100]
  | .sine => [115, 105, 110, 101]
  | .sqrt => [115, 113, 114, 116]
  | .square => [115, 113, 117, 97, 114, 101]
  | .tau_sigmoid => [116, 97, 117, 95, 115, 105, 103, 109, 111, 105, 100]
  | .tang_hyper => [116, 97, 110, 103, 95, 104, 121, 112, 101, 114]

def oneList : List OneArgFun :=
  [.abs, .ceil, .dec, .floor, .inc, .log, .neg, .normalize, .reciprocal, .relu,
   .round, .sine, .sqrt, .square, .tau_sigmoid, .tang_hyper]

def oneFind (t : List Nat) : Option OneArgFun :=
  oneList.find? (fun k => oneName k == t)

/-- Names of `TWO_ARG_FUNCTIONS` (the last entry's name string is
`round_equal_array` in the source). -/
def twoName : TwoArgFun → List Nat
  | .abs_higher => [97, 98, 115, 95, 104, 105, 103, 104, 101, 114]
  | .abs_lower => [97, 98, 115, 95, 108, 111, 119, 101, 114]
  | .add => [97, 100, 100]
  | .and => [97, 110, 100]
  | .diff => [100, 105, 102, 102]
  | .div => [100, 105, 118]
  | .equal => [101, 113, 117, 97, 108]
  | .first_is_higher => [102, 105, 114, 115, 116, 95, 105, 115, 95, 104, 105,
      103, 104, 101, 114]
  | .higher => [104, 105, 103, 104, 101, 114]
  | .lower => [108, 111, 119, 101, 114]
  | .mid => [109, 105, 100]
  | .mul => [109, 117, 108]
  | .or => [111, 114]
  | .sub => [115, 117, 98]
  | .sum_of_squares => [115, 117, 109, 95, 111, 102, 95, 115, 113, 117, 97,
      114, 101, 115]
  | .xor => [120, 111, 114]
  | .round_equal => [114, 111, 117, 110, 100, 95, 101, 113, 117, 97, 108, 95,
      97, 114, 114, 97, 121]

def twoList : List TwoArgFun :=
  [.abs_higher, .abs_lower, .add, .and, .diff, .div, .equal, .first_is_higher,
   .higher, .lower, .mid, .mul, .or, .sub, .sum_of_squares, .xor, .round_equal]

def twoFind (t : List Nat) : Option TwoArgFun :=
  twoList.find? (fun k => twoName k == t)

theorem mcFind_name : ∀ k, mcFind (mcName k) = some k := by
  intro k; cases k <;> rfl

theorem oneFind_name : ∀ f, oneFind (oneName f) = some f := by
  intro f; cases f <;> rfl

theorem twoFind_name : ∀ f, twoFind (twoName f) = some f := by
  intro f; cases f <;> rfl

/-- `Weighted::serialize` / `Node::serialize`: weight, then the node tag
and its fields, recursing into children. -/
def serWeighted : Weighted → List (List Nat)
  | .dataValue w row col =>
      encF32 w :: strDataValue :: natToDec row :: [natToDec col]
  | .stdDev w row col =>
      encF32 w :: strStdDev :: natToDec row :: [natToDec col]
  | .mathConstant w k => encF32 w :: strConstant :: [mcName k]
  | .singleArg w f child =>
      encF32 w :: strOneArgNode :: oneName f :: serWeighted child
  | .doubleArg w f a b =>
      encF32 w :: strTwoArgNode :: twoName f :: (serWeighted a ++ serWeighted b)

/-- `Weighted::deserialize` / `Node::deserialize`.  The source's
unbounded recursion terminates because every step consumes tokens; the
embedding makes that argument explicit with a fuel index, and
`dserWeighted` supplies the remaining token count, which is always
enough. -/
def dserWeightedF : Nat → List (List Nat) → Except String (Weighted × List (List Nat))
  | 0, _ => .error "Not enough tokens"
  | fuel + 1, ts =>
      match dserF32 ts with
      | .error e => .error e
      | .ok (w, ts) =>
          match nextToken ts with
          | .error e => .error e
          | .ok (tag, ts) =>
              if tag = strDataValue then
                match dserUsize ts with
                | .error e => .error e
                | .ok (row, ts) =>
                    match dserUsize ts with
                    | .error e => .error e
                    | .ok (col, ts) => .ok (.dataValue w row col, ts)
              else if tag = strStdDev then
                match dserUsize ts with
                | .error e => .error e
                | .ok (row, ts) =>
                    match dserUsize ts with
                    | .error e => .error e
                    | .ok (col, ts) => .ok (.stdDev w row col, ts)
              else if tag = strConstant then
                match nextToken ts with
                | .error e => .error e
                | .ok (t, ts) =>
                    match mcFind t with
                    | none => .error "MathConst not found"
                    | some k => .ok (.mathConstant w k, ts)
              else if tag = strOneArgNode then
                match nextToken ts with
                | .error e => .error e
                | .ok (t, ts) =>
                    match oneFind t with
                    | none => .error "SingleArgFunction not found"
                    | some f =>
                        match dserWeightedF fuel ts with
                        | .error e => .error e
                        | .ok (child, ts) => .ok (.singleArg w f child, ts)
              else if tag = strTwoArgNode then
                match nextToken ts with
                | .error e => .error e
                | .ok (t, ts) =>
                    match twoFind t with
                    | none => .error "DoubleArgFunction not found"
                    | some f =>
                        match dserWeightedF fuel ts with
                        | .error e => .error e
                        | .ok (a, ts) =>
                            match dserWeightedF fuel ts with
                            | .error e => .error e
                            | .ok (b, ts) => .ok (.doubleArg w f a b, ts)
              else .error "Invalid node type"

def dserWeighted (ts : List (List Nat)) :
    Except String (Weighted × List (List Nat)) :=
  dserWeightedF ts.length ts

/-- Index bounds needed for the usize fields of a node tree. -/
def wfW : Weighted → Bool
  | .dataValue _ row col => decide (row < 2 ^ 64) && decide (col < 2 ^ 64)
  | .stdDev _ row col => decide (row < 2 ^ 64) && decide (col < 2 ^ 64)
  | .mathConstant _ _ => true
  | .singleArg _ _ child => wfW child
  | .doubleArg _ _ a b => wfW a && wfW b

theorem dserF32_cons (x : F32) (r : List (List Nat)) :
    dserF32 (encF32 x :: r) = .ok (x, r) := dserF32_ser x r

theorem dserUsize_cons (n : Nat) (h : n < 2 ^ 64) (r : List (List Nat)) :
    dserUsize (natToDec n :: r) = .ok (n, r) := dserUsize_ser n h r

theorem dserWeightedF_ser (w : Weighted) :
    ∀ fuel, wfW w = true → w.node_count ≤ fuel →
      ∀ r, dserWeightedF fuel (serWeighted w ++ r) = .ok (w, r) := by
  induction w with
  | dataValue wt row col =>
      intro fuel hwf hfuel r
      simp only [wfW, Bool.and_eq_true, decide_eq_true_eq] at hwf
      cases fuel with
      | zero => simp [Weighted.node_count] at hfuel
      | succ f =>
          simp [serWeighted, dserWeightedF, dserF32_cons, nextToken,
            strDataValue, strStdDev, strConstant, strOneArgNode, strTwoArgNode,
            dserUsize_cons row hwf.1, dserUsize_cons col hwf.2]
  | stdDev wt row col =>
      intro fuel hwf hfuel r
      simp only [wfW, Bool.and_eq_true, decide_eq_true_eq] at hwf
      cases fuel with
      | zero => simp [Weighted.node_count] at hfuel
      | succ f =>
          simp [serWeighted, dserWeightedF, dserF32_cons, nextToken,
            strDataValue, strStdDev, strConstant, strOneArgNode, strTwoArgNode,
            dserUsize_cons row hwf.1, dserUsize_cons col hwf.2]
  | mathConstant wt k =>
      intro fuel _ hfuel r
      cases fuel with
      | zero => simp [Weighted.node_count] at hfuel
      | succ f =>
          simp [serWeighted, dserWeightedF, dserF32_cons, nextToken,
            strDataValue, strStdDev, strConstant, strOneArgNode, strTwoArgNode,
            mcFind_name]
  | singleArg wt f child ih =>
      intro fuel hwf hfuel r
      simp only [wfW] at hwf
      cases fuel with
      | zero => simp [Weighted.node_count] at hfuel
      | succ fl =>
          have hcount : child.node_count ≤ fl := by
            simp only [Weighted.node_count] at hfuel; omega
          simp [serWeighted, dserWeightedF, dserF32_cons, nextToken,
            strDataValue, strStdDev, strConstant, strOneArgNode, strTwoArgNode,
            oneFind_name, ih fl hwf hcount]
  | doubleArg wt f a b iha ihb =>
      intro fuel hwf hfuel r
      simp only [wfW, Bool.and_eq_true] at hwf
      cases fuel with
      | zero => simp [Weighted.node_count] at hfuel
      | succ fl =>
          have hca : a.node_count ≤ fl := by
            simp only [Weighted.node_count] at hfuel; omega
          have hcb : b.node_count ≤ fl := by
            simp only [Weighted.node_count] at hfuel; omega
          simp [serWeighted, dserWeightedF, dserF32_cons, nextToken,
            strDataValue, strStdDev, strConstant, strOneArgNode, strTwoArgNode,
            twoFind_name, iha fl hwf.1 hca, ihb fl hwf.2 hcb]

theorem serWeighted_length (w : Weighted) :
    w.node_count ≤ (serWeighted w).length := by
  induction w <;>
    simp [serWeighted, Weighted.node_count, List.length_append] <;> omega

theorem dserWeighted_ser (w : Weighted) (hwf : wfW w = true) :
    ∀ r, dserWeighted (serWeighted w ++ r) = .ok (w, r) := by
  intro r
  refine dserWeightedF_ser w _ hwf ?_ r
  have := serWeighted_length w
  simp only [List.length_append]
  omega

theorem wfTok_encF32 (x : F32) : wfTok (encF32 x) = true := by
  have := wf_serF32 x
  simpa [wfToks, serF32] using this

theorem wfTok_mcName (k : MathConst) : wfTok (mcName k) = true := by
  cases k <;> decide

theorem wfTok_oneName (f : OneArgFun) : wfTok (oneName f) = true := by
  cases f <;> decide

theorem wfTok_twoName (f : TwoArgFun) : wfTok (twoName f) = true := by
  cases f <;> decide

theorem wf_serWeighted (w : Weighted) : wfToks (serWeighted w) = true := by
  induction w with
  | dataValue wt row col =>
      simp only [serWeighted, wfToks, List.all_cons, List.all_nil, Bool.and_true,
        Bool.and_eq_true]
      exact ⟨wfTok_encF32 _, by decide, wfTok_natToDec _, wfTok_natToDec _⟩
  | stdDev wt row col =>
      simp only [serWeighted, wfToks, List.all_cons, List.all_nil, Bool.and_true,
        Bool.and_eq_true]
      exact ⟨wfTok_encF32 _, by decide, wfTok_natToDec _, wfTok_natToDec _⟩
  | mathConstant wt k =>
      simp only [serWeighted, wfToks, List.all_cons, List.all_nil, Bool.and_true,
        Bool.and_eq_true]
      exact ⟨wfTok_encF32 _, by decide, wfTok_mcName _⟩
  | singleArg wt f child ih =>
      simp only [serWeighted, wfToks, List.all_cons, Bool.and_eq_true]
      exact ⟨wfTok_encF32 _, by decide, wfTok_oneName _, ih⟩
  | doubleArg wt f a b iha ihb =>
      simp only [serWeighted, wfToks, List.all_cons, List.all_append,
        Bool.and_eq_true]
      exact ⟨wfTok_encF32 _, by decide, wfTok_twoName _, iha, ihb⟩

/-- `Tree::serialize`. -/
def serTree (t : Tree) : List (List Nat) :=
  serWeighted t.node ++ serInputShape t.input_shape ++ serUsize t.node_count

/-- `Tree::deserialize`. -/
def dserTree (ts : List (List Nat)) : Except String (Tree × List (List Nat)) :=
  match dserWeighted ts with
  | .error e => .error e
  | .ok (node, ts) =>
      match dserInputShape ts with
      | .error e => .error e
      | .ok (input_shape, ts) =>
          match dserUsize ts with
          | .error e => .error e
          | .ok (node_count, ts) => .ok (⟨node, input_shape, node_count⟩, ts)

def wfTree (t : Tree) : Bool :=
  wfW t.node && decide (t.input_shape.rows < 2 ^ 64) &&
    decide (t.input_shape.columns < 2 ^ 64) && decide (t.node_count < 2 ^ 64)

theorem dserTree_ser (t : Tree) (h : wfTree t = true) :
    ∀ r, dserTree (serTree t ++ r) = .ok (t, r) := by
  intro r
  simp only [wfTree, Bool.and_eq_true, decide_eq_true_eq] at h
  obtain ⟨⟨⟨hn, hr⟩, hc⟩, hcnt⟩ := h
  simp only [serTree, List.append_assoc, dserTree, dserWeighted_ser _ hn,
    dserInputShape_ser _ hr hc, dserUsize_ser _ hcnt]

theorem wf_serTree (t : Tree) : wfToks (serTree t) = true :=
  wfToks_append_intro _ _
    (wfToks_append_intro _ _ (wf_serWeighted t.node)
      (wf_serInputShape t.input_shape))
    (wf_serUsize t.node_count)

/-- `ScoredTree::serialize`. -/
def serScoredTree (st : ScoredTree) : List (List Nat) :=
  serScore st.score ++ serTree st.tree

/-- `ScoredTree::deserialize`. -/
def dserScoredTree (ts : List (List Nat)) :
    Except String (ScoredTree × List (List Nat)) :=
  match dserScore ts with
  | .error e => .error e
  | .ok (score, ts) =>
      match dserTree ts with
      | .error e => .error e
      | .ok (tree, ts) => .ok (⟨score, tree⟩, ts)

def wfScoredTree (st : ScoredTree) : Bool :=
  decide (st.score.cls < 2 ^ 16) && wfTree st.tree

theorem dserScoredTree_ser (st : ScoredTree) (h : wfScoredTree st = true) :
    ∀ r, dserScoredTree (serScoredTree st ++ r) = .ok (st, r) := by
  intro r
  simp only [wfScoredTree, Bool.and_eq_true, decide_eq_true_eq] at h
  simp only [serScoredTree, List.append_assoc, dserScoredTree,
    dserScore_ser _ h.1, dserTree_ser _ h.2]

theorem wf_serScoredTree (st : ScoredTree) : wfToks (serScoredTree st) = true :=
  wfToks_append_intro _ _ (wf_serScore st.score) (wf_serTree st.tree)

/-- `exec::classifier::Classifier`: the `HashMap<Class, String>` of
class labels is embedded as its iteration-order association list (the
kept information of the map), the label strings as byte lists. -/
structure Classifier where
  classes : List (Class × List Nat)
  trees : List ScoredTree
deriving DecidableEq

/-- `Classifier::serialize`. -/
def serClassifier (c : Classifier) : List (List Nat) :=
  serMap serClass serStr c.classes ++ serVec serScoredTree c.trees

/-- `Classifier::deserialize`. -/
def dserClassifier (ts : List (List Nat)) :
    Except String (Classifier × List (List Nat)) :=
  match dserMap dserClass dserStr ts with
  | .error e => .error e
  | .ok (classes, ts) =>
      match dserVec dserScoredTree ts with
      | .error e => .error e
      | .ok (trees, ts) => .ok (⟨classes, trees⟩, ts)

def wfClassifier (c : Classifier) : Bool :=
  decide (c.classes.length < 2 ^ 64) &&
    c.classes.all (fun p => decide (p.1 < 2 ^ 16) && strOk p.2) &&
    decide (c.trees.length < 2 ^ 64) && c.trees.all wfScoredTree

theorem dserClassifier_ser (c : Classifier) (h : wfClassifier c = true) :
    ∀ r, dserClassifier (serClassifier c ++ r) = .ok (c, r) := by
  intro r
  simp only [wfClassifier, Bool.and_eq_true, decide_eq_true_eq,
    List.all_eq_true] at h
  obtain ⟨⟨⟨hlen1, hpairs⟩, hlen2⟩, htrees⟩ := h
  have hm := dserMap_ser serClass serStr dserClass dserStr c.classes hlen1
    (fun p hp r => dserClass_ser p.1
      (by have := hpairs p hp; simp only [Bool.and_eq_true, decide_eq_true_eq] at this
          exact this.1) r)
    (fun p hp r => dserStr_ser p.2
      (by have := hpairs p hp; simp only [Bool.and_eq_true] at this
          exact this.2) r)
  have hv := dserVec_ser serScoredTree dserScoredTree c.trees hlen2
    (fun st hst r => dserScoredTree_ser st (htrees st hst) r)
  simp only [serClassifier, List.append_assoc, dserClassifier, hm, hv]

theorem wf_serClassifier (c : Classifier) (h : wfClassifier c = true) :
    wfToks (serClassifier c) = true := by
  simp only [wfClassifier, Bool.and_eq_true, decide_eq_true_eq,
    List.all_eq_true] at h
  obtain ⟨⟨⟨_, hpairs⟩, _⟩, htrees⟩ := h
  refine wfToks_append_intro _ _ ?_ ?_
  · refine wf_serMap _ _ _ ?_
    intro p hp
    have := hpairs p hp
    simp only [Bool.and_eq_true] at this
    exact ⟨wf_serClass p.1, wf_serStr p.2 this.2⟩
  · refine wf_serVec _ _ ?_
    intro st _
    exact wf_serScoredTree st

/-- C3 (amended): the checksummed whitespace-separated token round trip
(the type's serialize, `Serializator::to_bytes`, then
`Serializator::from_bytes` and the type's deserialize) returns the
original value for every embedded serializable type — usize and u16
within their ranges, bool, f32 (with the injective stand-in float
formatting), String provided it is nonempty, has no whitespace byte
other than the space and does not contain the
`PRIMECLUE_SPACE_SUBSTITUTE` sentinel, Option, Vec, HashMap (as its
iteration-order association list), Class, Outcome, InputShape, Weight
(the f32 carried by every Weighted), Node/Weighted, Tree, Objective,
Threshold, Score, ScoredTree and Classifier, under the corresponding
bounds on embedded integers and strings.  A String equal to the
sentinel itself breaks the round trip (see the counterexample). -/
theorem serde_roundtrip
    (n : Nat) (hn : n < 2 ^ 64) (m : Nat) (hm : m < 2 ^ 16) (b : Bool)
    (v : List Nat) (hv : strOk v = true) (x : F32) (ox : Option F32)
    (lf : List F32) (hlf : lf.length < 2 ^ 64)
    (mp : List (Class × List Nat)) (hmp1 : mp.length < 2 ^ 64)
    (hmp2 : ∀ p ∈ mp, p.1 < 2 ^ 16 ∧ strOk p.2 = true)
    (c : Class) (hc : c < 2 ^ 16) (o : Outcome) (ho : o.cls < 2 ^ 16)
    (sh : InputShape) (hsh1 : sh.rows < 2 ^ 64) (hsh2 : sh.columns < 2 ^ 64)
    (w : Weighted) (hw : wfW w = true) (t : Tree) (ht : wfTree t = true)
    (ob : Objective) (th : Threshold) (s : Score) (hs : s.cls < 2 ^ 16)
    (st : ScoredTree) (hst : wfScoredTree st = true)
    (cl : Classifier) (hcl : wfClassifier cl = true) :
    roundTrip serUsize dserUsize n = .ok n ∧
    roundTrip serU16 dserU16 m = .ok m ∧
    roundTrip serBool dserBool b = .ok b ∧
    roundTrip serStr dserStr v = .ok v ∧
    roundTrip serF32 dserF32 x = .ok x ∧
    roundTrip (serOption serF32) (dserOption dserF32) ox = .ok ox ∧
    roundTrip (serVec serF32) (dserVec dserF32) lf = .ok lf ∧
    roundTrip (serMap serClass serStr) (dserMap dserClass dserStr) mp = .ok mp ∧
    roundTrip serClass dserClass c = .ok c ∧
    roundTrip serOutcome dserOutcome o = .ok o ∧
    roundTrip serInputShape dserInputShape sh = .ok sh ∧
    roundTrip serWeighted dserWeighted w = .ok w ∧
    roundTrip serTree dserTree t = .ok t ∧
    roundTrip serObjective dserObjective ob = .ok ob ∧
    roundTrip serThreshold dserThreshold th = .ok th ∧
    roundTrip serScore dserScore s = .ok s ∧
    roundTrip serScoredTree dserScoredTree st = .ok st ∧
    roundTrip serClassifier dserClassifier cl = .ok cl := by
  have h1 : roundTrip serUsize dserUsize n = .ok n :=
    roundTrip_intro _ _ _ (wf_serUsize n) (by simpa using dserUsize_ser n hn [])
  have h2 : roundTrip serU16 dserU16 m = .ok m :=
    roundTrip_intro _ _ _ (wf_serU16 m) (by simpa using dserU16_ser m hm [])
  have h3 : roundTrip serBool dserBool b = .ok b :=
    roundTrip_intro _ _ _ (wf_serBool b) (by simpa using dserBool_ser b [])
  have h4 : roundTrip serStr dserStr v = .ok v :=
    roundTrip_intro _ _ _ (wf_serStr v hv) (by simpa using dserStr_ser v hv [])
  have h5 : roundTrip serF32 dserF32 x = .ok x :=
    roundTrip_intro _ _ _ (wf_serF32 x) (by simpa using dserF32_ser x [])
  have h6 : roundTrip (serOption serF32) (dserOption dserF32) ox = .ok ox := by
    refine roundTrip_intro _ _ _ (wf_serOption serF32 ox (fun y _ => wf_serF32 y)) ?_
    have := dserOption_ser serF32 dserF32 ox (fun y _ r => dserF32_ser y r) []
    simpa using this
  have h7 : roundTrip (serVec serF32) (dserVec dserF32) lf = .ok lf := by
    refine roundTrip_intro _ _ _ (wf_serVec serF32 lf (fun y _ => wf_serF32 y)) ?_
    have := dserVec_ser serF32 dserF32 lf hlf (fun y _ r => dserF32_ser y r) []
    simpa using this
  have h8 : roundTrip (serMap serClass serStr) (dserMap dserClass dserStr) mp =
      .ok mp := by
    refine roundTrip_intro _ _ _
      (wf_serMap serClass serStr mp
        (fun p hp => ⟨wf_serClass p.1, wf_serStr p.2 (hmp2 p hp).2⟩)) ?_
    have := dserMap_ser serClass serStr dserClass dserStr mp hmp1
      (fun p hp r => dserClass_ser p.1 (hmp2 p hp).1 r)
      (fun p hp r => dserStr_ser p.2 (hmp2 p hp).2 r) []
    simpa using this
  have h9 : roundTrip serClass dserClass c = .ok c :=
    roundTrip_intro _ _ _ (wf_serClass c) (by simpa using dserClass_ser c hc [])
  have h10 : roundTrip serOutcome dserOutcome o = .ok o :=
    roundTrip_intro _ _ _ (wf_serOutcome o) (by simpa using dserOutcome_ser o ho [])
  have h11 : roundTrip serInputShape dserInputShape sh = .ok sh :=
    roundTrip_intro _ _ _ (wf_serInputShape sh)
      (by simpa using dserInputShape_ser sh hsh1 hsh2 [])
  have h12 : roundTrip serWeighted dserWeighted w = .ok w :=
    roundTrip_intro _ _ _ (wf_serWeighted w) (by simpa using dserWeighted_ser w hw [])
  have h13 : roundTrip serTree dserTree t = .ok t :=
    roundTrip_intro _ _ _ (wf_serTree t) (by simpa using dserTree_ser t ht [])
  have h14 : roundTrip serObjective dserObjective ob = .ok ob :=
    roundTrip_intro _ _ _ (wf_serObjective ob) (by simpa using dserObjective_ser ob [])
  have h15 : roundTrip serThreshold dserThreshold th = .ok th :=
    roundTrip_intro _ _ _ (wf_serThreshold th) (by simpa using dserThreshold_ser th [])
  have h16 : roundTrip serScore dserScore s = .ok s :=
    roundTrip_intro _ _ _ (wf_serScore s) (by simpa using dserScore_ser s hs [])
  have h17 : roundTrip serScoredTree dserScoredTree st = .ok st :=
    roundTrip_intro _ _ _ (wf_serScoredTree st)
      (by simpa using dserScoredTree_ser st hst [])
  have h18 : roundTrip serClassifier dserClassifier cl = .ok cl :=
    roundTrip_intro _ _ _ (wf_serClassifier cl hcl)
      (by simpa using dserClassifier_ser cl hcl [])
  exact ⟨h1, h2, h3, h4, h5, h6, h7, h8, h9, h10, h11, h12, h13, h14, h15, h16,
    h17, h18⟩

set_option maxRecDepth 40000 in
/-- C3 counterexample: a String equal to the space substitute itself
serializes unchanged (it contains no space), but deserialization
replaces the substitute with a space, so the round trip succeeds and
returns the one-byte string of a space instead of the original. -/
theorem serde_roundtrip_cex :
    roundTrip serStr dserStr SENTINEL = .ok [32] ∧ SENTINEL ≠ [32] :=
  ⟨rfl, by decide⟩

set_option maxRecDepth 4000 in
theorem serde_roundtrip_witness :
    roundTrip serUsize dserUsize 5 = .ok 5 ∧
    roundTrip serU16 dserU16 3 = .ok 3 ∧
    roundTrip serBool dserBool true = .ok true ∧
    roundTrip serStr dserStr [97, 98] = .ok [97, 98] ∧
    roundTrip serF32 dserF32 (.finite 1) = .ok (.finite 1) ∧
    roundTrip (serOption serF32) (dserOption dserF32) (some F32.nan) =
      .ok (some F32.nan) ∧
    roundTrip (serVec serF32) (dserVec dserF32) [F32.inf] = .ok [F32.inf] ∧
    roundTrip (serMap serClass serStr) (dserMap dserClass dserStr) [(1, [97])] =
      .ok [(1, [97])] ∧
    roundTrip serClass dserClass 2 = .ok 2 ∧
    roundTrip serOutcome dserOutcome ⟨1, F32.finite 1, F32.finite (-1)⟩ =
      .ok ⟨1, F32.finite 1, F32.finite (-1)⟩ ∧
    roundTrip serInputShape dserInputShape ⟨1, 2⟩ = .ok ⟨1, 2⟩ ∧
    roundTrip serWeighted dserWeighted (.mathConstant (F32.finite 1) .cpi) =
      .ok (.mathConstant (F32.finite 1) .cpi) ∧
    roundTrip serTree dserTree ⟨.dataValue (F32.finite 1) 0 0, ⟨1, 1⟩, 1⟩ =
      .ok ⟨.dataValue (F32.finite 1) 0 0, ⟨1, 1⟩, 1⟩ ∧
    roundTrip serObjective dserObjective .auc = .ok .auc ∧
    roundTrip serThreshold dserThreshold ⟨F32.nan⟩ = .ok ⟨F32.nan⟩ ∧
    roundTrip serScore dserScore ⟨.auc, 1, F32.finite 1, ⟨F32.finite 0⟩⟩ =
      .ok ⟨.auc, 1, F32.finite 1, ⟨F32.finite 0⟩⟩ ∧
    roundTrip serScoredTree dserScoredTree
      ⟨⟨.auc, 1, F32.finite 1, ⟨F32.finite 0⟩⟩,
        ⟨.dataValue (F32.finite 1) 0 0, ⟨1, 1⟩, 1⟩⟩ =
      .ok ⟨⟨.auc, 1, F32.finite 1, ⟨F32.finite 0⟩⟩,
        ⟨.dataValue (F32.finite 1) 0 0, ⟨1, 1⟩, 1⟩⟩ ∧
    roundTrip serClassifier dserClassifier
      ⟨[(1, [97])], [⟨⟨.auc, 1, F32.finite 1, ⟨F32.finite 0⟩⟩,
        ⟨.dataValue (F32.finite 1) 0 0, ⟨1, 1⟩, 1⟩⟩]⟩ =
      .ok ⟨[(1, [97])], [⟨⟨.auc, 1, F32.finite 1, ⟨F32.finite 0⟩⟩,
        ⟨.dataValue (F32.finite 1) 0 0, ⟨1, 1⟩, 1⟩⟩]⟩ :=
  serde_roundtrip 5 (by decide) 3 (by decide) true [97, 98] (by decide)
    (.finite 1) (some F32.nan) [F32.inf] (by decide) [(1, [97])] (by decide)
    (by decide) 2 (by decide) ⟨1, F32.finite 1, F32.finite (-1)⟩ (by decide)
    ⟨1, 2⟩ (by decide) (by decide) (.mathConstant (F32.finite 1) .cpi) (by decide)
    ⟨.dataValue (F32.finite 1) 0 0, ⟨1, 1⟩, 1⟩ (by decide) .auc ⟨F32.nan⟩
    ⟨.auc, 1, F32.finite 1, ⟨F32.finite 0⟩⟩ (by decide)
    ⟨⟨.auc, 1, F32.finite 1, ⟨F32.finite 0⟩⟩,
      ⟨.dataValue (F32.finite 1) 0 0, ⟨1, 1⟩, 1⟩⟩ (by decide)
    ⟨[(1, [97])], [⟨⟨.auc, 1, F32.finite 1, ⟨F32.finite 0⟩⟩,
      ⟨.dataValue (F32.finite 1) 0 0, ⟨1, 1⟩, 1⟩⟩]⟩ (by decide)

end Primeclue
